import Mathlib

/-!
Verification of the `pipe` pipeline runner's execution engine against its
natural-language specification.

The Go sources are shallowly embedded: pure functions become Lean functions,
Go maps become association lists (when they are iterated) or
`String → Option α` lookup functions (when they are only read and updated
pointwise), the stateful scheduler becomes an explicit state-passing loop with
fuel, and the behaviour of spawned child processes is abstracted into an
oracle assigning an exit code and a captured stdout to every (row id, attempt)
pair.  Machine integers that matter (exit codes, in-degrees) are `Int`,
mirroring Go's `int`.
-/

namespace Pipe

/-! ## String helpers (mirrors of Go `strings` usage) -/

/-- Go `strings.ReplaceAll(s, "-", "_")` as used by `EnvKey`/`VarEnvKey`. -/
def dashToUnderscore (s : String) : String :=
  String.mk (s.toList.map (fun c => if c = '-' then '_' else c))

/-- Go `strings.ToUpper` restricted to the ASCII ids the loader admits. -/
def goUpper (s : String) : String :=
  String.mk (s.toList.map Char.toUpper)

/-- `EnvKey` from `internal/runner/env.go`: join the parts with `_`, replace
hyphens by underscores, upper-case, and add the `PIPE_` prefix. -/
def envKey (parts : List String) : String :=
  "PIPE_" ++ goUpper (dashToUnderscore (String.intercalate "_" parts))

/-- `VarEnvKey` from `internal/runner/env.go`. -/
def varEnvKey (key : String) : String :=
  "PIPE_VAR_" ++ goUpper (dashToUnderscore key)

/-- Go `strings.TrimRight(s, "\n")`: drop every trailing newline. -/
def trimNewlineList (l : List Char) : List Char :=
  (l.reverse.dropWhile (· = '\n')).reverse

/-- Go `strings.TrimRight(s, "\n")` on strings. -/
def trimNewline (s : String) : String :=
  String.mk (trimNewlineList s.toList)

/-- The white-space set of Go `strings.TrimSpace` on the ASCII inputs the
dot-file parser sees. -/
def isGoSpace (c : Char) : Bool :=
  c = ' ' ∨ c = '\t' ∨ c = '\n' ∨ c = '\x0b' ∨ c = '\x0c' ∨ c = '\r'

/-- Go `strings.TrimSpace` on char lists. -/
def trimSpaceList (l : List Char) : List Char :=
  ((l.dropWhile isGoSpace).reverse.dropWhile isGoSpace).reverse

/-- Go `strings.TrimSpace` on strings. -/
def trimSpace (s : String) : String :=
  String.mk (trimSpaceList s.toList)

/-- Does `pat` occur as a contiguous sub-list of `l`?  (Used for the
`strings.Contains(value, "\x7b\x7b")` fast path of the template renderer.) -/
def containsSeq (pat l : List Char) : Bool :=
  match l with
  | [] => pat.isEmpty
  | _ :: rest => l.take pat.length = pat ∨ containsSeq pat rest

/-! ## Association-list maps (Go `map[string]string` etc. that are iterated) -/

/-- Lookup in an association list, first binding wins. -/
def lookupA {α : Type} (m : List (String × α)) (k : String) : Option α :=
  (m.find? (fun p => p.1 = k)).map (·.2)

/-- Go map assignment `m[k] = v` on an association list that is kept
duplicate-free: replace in place or append. -/
def setA {α : Type} (m : List (String × α)) (k : String) (v : α) :
    List (String × α) :=
  if m.any (fun p => p.1 = k) then
    m.map (fun p => if p.1 = k then (k, v) else p)
  else
    m ++ [(k, v)]

/-! ## Data model (`internal/model`, `internal/state`, `internal/cache`) -/

/-- `model.SubRun`. -/
structure SubRun where
  id : String
  run : String
  sensitive : Bool
deriving DecidableEq

/-- `model.RunField`: the three-way overloaded `run` field.  As in the Go
struct, all three fields coexist and the `is*` testers look at population. -/
structure RunField where
  single : String
  strs : List String
  subRuns : List SubRun
deriving DecidableEq

def RunField.isSingle (r : RunField) : Bool := r.single ≠ ""
def RunField.isStrings (r : RunField) : Bool := ¬ r.strs.isEmpty
def RunField.isSubRuns (r : RunField) : Bool := ¬ r.subRuns.isEmpty

/-- `model.CacheField` after loader normalisation. -/
structure CacheField where
  enabled : Bool
  expireAfter : String
deriving DecidableEq

/-- `model.Step` (the fields the execution engine reads). -/
structure Step where
  id : String
  run : RunField
  dependsOn : List String
  sensitive : Bool
  retry : Nat
  cached : CacheField
  interactive : Bool
deriving DecidableEq

/-- `state.StepState` for a sub-run slot.  In Go the type is the recursive
`StepState`; the runner only ever populates one level of nesting, so the
embedded sub-slot type is flattened. -/
structure SubState where
  status : String := ""
  exitCode : Int := 0
  output : String := ""
  sensitive : Bool := false
deriving DecidableEq

/-- `state.StepState`. -/
structure StepState where
  status : String := ""
  exitCode : Int := 0
  output : String := ""
  sensitive : Bool := false
  attempts : Nat := 0
  subSteps : List (String × SubState) := []
deriving DecidableEq

/-- The zero `StepState` a Go map read returns for an absent key. -/
def StepState.zero : StepState := {}

/-- `cache.SubEntry`. -/
structure CacheSubEntry where
  id : String
  output : String
  sensitive : Bool
  exitCode : Int
deriving DecidableEq

/-- `cache.Entry`.  Times are modelled as natural-number seconds. -/
structure CacheEntry where
  stepId : String
  cachedAt : Nat := 0
  expiresAt : Option Nat := none
  exitCode : Int := 0
  output : String := ""
  sensitive : Bool := false
  subOutputs : List CacheSubEntry := []
  runType : String := ""
deriving DecidableEq

/-- `cache.IsValid` for a present entry: no expiry means valid forever,
otherwise `now < expiresAt` (`time.Before`). -/
def cacheEntryValid (e : CacheEntry) (now : Nat) : Bool :=
  match e.expiresAt with
  | none => true
  | some t => now < t

/-! ## Dot-file parser (`internal/runner/dotfile.go`) -/

/-- The character class of `validDotFileKey`: letters, digits, hyphen,
underscore. -/
def dotKeyChar (c : Char) : Bool :=
  ('a' ≤ c ∧ c ≤ 'z') ∨ ('A' ≤ c ∧ c ≤ 'Z') ∨ ('0' ≤ c ∧ c ≤ '9')
    ∨ c = '-' ∨ c = '_'

/-- `validDotFileKey`: non-empty, only letters/digits/hyphen/underscore. -/
def validDotFileKey (key : String) : Bool :=
  ¬ key.toList.isEmpty ∧ key.toList.all dotKeyChar

/-- `stripInlineComment`: cut an unquoted value at the first `#` and trim the
remainder. -/
def stripInlineComment (s : String) : String :=
  match s.toList.findIdx? (· = '#') with
  | none => s
  | some i => trimSpace (String.mk (s.toList.take i))

/-- Go `strings.TrimPrefix(line, "export ")`. -/
def stripExportKw (s : String) : String :=
  if s.toList.take 7 = "export ".toList then String.mk (s.toList.drop 7) else s

/-- The quote-stripping step of `ParseDotFile`: values of length ≥ 2 whose
first and last characters are a matching `"` or `'` pair are unquoted
verbatim; everything else goes through `stripInlineComment`. -/
def unquoteDotValue (value : String) : String :=
  let l := value.toList
  if 2 ≤ l.length then
    if (l.head? = some '"' ∧ l.getLast? = some '"')
        ∨ (l.head? = some '\'' ∧ l.getLast? = some '\'') then
      String.mk (l.drop 1 |>.dropLast)
    else
      stripInlineComment value
  else
    stripInlineComment value

/-- One iteration of the `ParseDotFile` scanner loop: fold a raw line into the
accumulated `(vars, warnings)` pair.  File I/O is abstracted away: the file is
given as its list of lines. -/
def parseDotLine (acc : List (String × String) × List String) (raw : String) :
    List (String × String) × List String :=
  let line := trimSpace raw
  if line.toList.isEmpty ∨ line.toList.head? = some '#' then acc
  else
    let line := stripExportKw line
    match line.toList.findIdx? (· = '=') with
    | none => (acc.1, acc.2 ++ ["missing ="])
    | some i =>
      let key := trimSpace (String.mk (line.toList.take i))
      let value := trimSpace (String.mk (line.toList.drop (i + 1)))
      if ¬ validDotFileKey key then (acc.1, acc.2 ++ ["invalid key"])
      else (setA acc.1 key (unquoteDotValue value), acc.2)

/-- `ParseDotFile` over the lines of the file. -/
def parseDotFile (lines : List String) : List (String × String) × List String :=
  lines.foldl parseDotLine ([], [])

/-! ## Variable resolver (`internal/runner/env.go`) -/

/-- Go `%q` on the plain ids and keys that reach warning messages. -/
def quoteGo (s : String) : String := "\"" ++ s ++ "\""

/-- `renderVarValue`: fast path when the value holds no `\x7b\x7b` delimiter;
otherwise the Go `text/template` engine runs.  The engine is an external
library, abstracted as `tmpl`, which returns `none` exactly on a
parse/execution error — in which case the original literal is preserved. -/
def renderVarValue (tmpl : String → Option String) (value : String) : String :=
  if ¬ containsSeq ['\x7b', '\x7b'] value.toList then value
  else
    match tmpl value with
    | some s => s
    | none => value

/-- `unsafeVars`: `PIPE_EXPERIMENTAL_UNSAFE_VARS` is looked up in the host
environment, presence (not value) decides. -/
def unsafeVarsOn (host : String → Option String) : Bool :=
  (host "PIPE_EXPERIMENTAL_UNSAFE_VARS").isSome

/-- The loop body shared by sources (2) and (4) of `ResolveVars`: write the
value under the normalised name when it is declared (or the escape hatch is
set), otherwise record a warning. -/
def applyVarSource (declared : String → Bool) (unsafeV : Bool)
    (warnSuffix : String) (acc : List (String × String) × List String)
    (p : String × String) : List (String × String) × List String :=
  let envName := varEnvKey p.1
  if unsafeV ∨ declared envName then (setA acc.1 envName p.2, acc.2)
  else (acc.1, acc.2 ++ [quoteGo p.1 ++ warnSuffix])

/-- Source (3) of `ResolveVars`: override an already-resolved entry with the
host environment's value for that name, when present. -/
def hostOverride (host : String → Option String) (p : String × String) :
    String × String :=
  match host p.1 with
  | some v => (p.1, v)
  | none => p

/-- `ResolveVars`: merge the four variable sources with increasing precedence.
`host` models `os.LookupEnv`; `tmpl` models the template engine (see
`renderVarValue`).  Go maps become association lists processed in order;
the Go code iterates maps whose keys are distinct, so any processing order
gives the same map, and the theorems below carry the corresponding
distinctness hypotheses. -/
def resolveVars (tmpl : String → Option String) (host : String → Option String)
    (yamlVars dotFileVars cliOverrides : List (String × String)) :
    List (String × String) × List String :=
  let unsafeV := unsafeVarsOn host
  let declared := fun (envName : String) =>
    yamlVars.any (fun p => varEnvKey p.1 = envName)
  -- 1. YAML defaults (render templates against the host environment)
  let resolved := yamlVars.foldl
    (fun m p => setA m (varEnvKey p.1) (renderVarValue tmpl p.2)) []
  -- 2. dot-file values (only declared keys unless the escape hatch is set)
  let step2 := dotFileVars.foldl
    (applyVarSource declared unsafeV
      " from dot_file has no effect — not declared in vars")
    (resolved, [])
  -- 3. host environment overrides, for every key already in `resolved`
  let step3 := step2.1.map (hostOverride host)
  -- 4. CLI overrides (only declared keys unless the escape hatch is set)
  cliOverrides.foldl
    (applyVarSource declared unsafeV
      " passed via CLI has no effect — not declared in vars")
    (step3, step2.2)

/-! ## Cache expiry and `saveCache` (`internal/cache`, `internal/runner`) -/

/-- Seconds denoted by one duration unit character, or `none`. -/
def durUnitSecs (c : Char) : Option Nat :=
  if c = 's' then some 1
  else if c = 'm' then some 60
  else if c = 'h' then some 3600
  else if c = 'd' then some 86400
  else none

/-- Modelled from the spec: the duration shape `(Ns | Nm | Nh | Nd)+` of
`cache.ParseExpiry` (the function itself is not under `src/`): a non-empty
sequence of digit-run/unit components whose seconds are summed. -/
def parseDurAux : Nat → List Char → Option Nat
  | _, [] => some 0
  | 0, _ => none
  | fuel + 1, l =>
    let digits := l.takeWhile Char.isDigit
    if digits.isEmpty then none
    else
      match l.drop digits.length with
      | [] => none
      | u :: rest =>
        match durUnitSecs u with
        | none => none
        | some mult =>
          match parseDurAux fuel rest with
          | none => none
          | some tail => some ((String.mk digits).toNat! * mult + tail)

/-- Modelled from the spec: the absolute `HH:MM[ TZ]` shape of
`cache.ParseExpiry` — the next occurrence of that wall-clock time at or after
`now`.  Zones are modelled as UTC only (zone database out of scope). -/
def parseClock (l : List Char) (now : Nat) : Option Nat :=
  let core := l.takeWhile (· ≠ ' ')
  let zone := trimSpaceList (l.drop core.length)
  if ¬ (zone.isEmpty ∨ zone = "UTC".toList) then none
  else
    let hh := core.takeWhile (· ≠ ':')
    match core.drop hh.length with
    | ':' :: mm =>
      if hh.isEmpty ∨ mm.isEmpty ∨ ¬ hh.all Char.isDigit ∨ ¬ mm.all Char.isDigit then
        none
      else
        let h := (String.mk hh).toNat!
        let m := (String.mk mm).toNat!
        if h < 24 ∧ m < 60 then
          let tod := (h * 60 + m) * 60
          let dayStart := now - now % 86400
          some (if now ≤ dayStart + tod then dayStart + tod else dayStart + tod + 86400)
        else none
    | _ => none

/-- Modelled from the spec: `cache.ParseExpiry` (not under `src/`).  Empty
string means no expiry; otherwise the duration shape, then the wall-clock
shape; anything else is an error. -/
def parseExpiry (s : String) (now : Nat) : Except Unit (Option Nat) :=
  if s.isEmpty then .ok none
  else
    match parseDurAux s.length s.toList with
    | some secs => .ok (some (now + secs))
    | none =>
      match parseClock s.toList now with
      | some t => .ok (some t)
      | none => .error ()

/-- `Runner.saveCache`: on an invalid `expire_after` a warning is logged and
the function returns — no entry is written.  Cache I/O is modelled as the
store map; `cache.Save` errors are out of scope. -/
def saveCache (step : Step) (entry : CacheEntry) (now : Nat)
    (store : String → Option CacheEntry) :
    (String → Option CacheEntry) × List String :=
  if ¬ step.cached.enabled then (store, [])
  else
    let entry := { entry with cachedAt := now }
    match parseExpiry step.cached.expireAfter now with
    | .error _ =>
      (store, ["[" ++ step.id ++ "] cache warning: invalid expiry " ++
        quoteGo step.cached.expireAfter])
    | .ok oexp =>
      let entry :=
        match oexp with
        | some t => { entry with expiresAt := some t }
        | none => entry
      (fun id => if id = entry.stepId then some entry else store id, [])

/-! ## DAG builder (`internal/graph/graph.go`) -/

/-- The character class `[A-Z0-9_]` of `pipeVarPattern`. -/
def pipeRefChar (c : Char) : Bool :=
  ('A' ≤ c ∧ c ≤ 'Z') ∨ ('0' ≤ c ∧ c ≤ '9') ∨ c = '_'

/-- Match the regex `\$\x7b?PIPE_([A-Z0-9_]+)\x7d?` right after a `$`:
optional `\x7b`, the literal `PIPE_`, a non-empty greedy `[A-Z0-9_]+` run,
an optional `\x7d`.  Returns the reconstructed `PIPE_<name>` and the
remaining input after the match. -/
def matchPipeRef (l : List Char) : Option (String × List Char) :=
  let afterBrace := if l.head? = some '\x7b' then l.drop 1 else l
  if afterBrace.take 5 = "PIPE_".toList then
    let rest := afterBrace.drop 5
    let name := rest.takeWhile pipeRefChar
    if name.isEmpty then none
    else
      let rest2 := rest.drop name.length
      let rest3 := if rest2.head? = some '\x7d' then rest2.drop 1 else rest2
      some ("PIPE_" ++ String.mk name, rest3)
  else none

/-- The left-to-right, non-overlapping scan of
`pipeVarPattern.FindAllStringSubmatch(cmd, -1)`.  Fuel is the input length;
every step consumes at least one character so the fuel never runs out. -/
def scanPipeRefsAux : Nat → List Char → List String
  | 0, _ => []
  | _, [] => []
  | fuel + 1, c :: rest =>
    if c = '$' then
      match matchPipeRef rest with
      | some (name, rest') => name :: scanPipeRefsAux fuel rest'
      | none => scanPipeRefsAux fuel rest
    else scanPipeRefsAux fuel rest

/-- All `$PIPE_*` / `$\x7bPIPE_*\x7d` references in one shell command. -/
def scanPipeRefs (cmd : String) : List String :=
  scanPipeRefsAux cmd.toList.length cmd.toList

/-- The `seen` de-duplication of `findPipeRefs`, keeping first occurrences. -/
def dedupFirstAux (seen : List String) : List String → List String
  | [] => []
  | x :: xs =>
    if x ∈ seen then dedupFirstAux seen xs
    else x :: dedupFirstAux (x :: seen) xs

/-- `findPipeRefs`: collect references from the single command, the strings
list and the sub-run commands, de-duplicated in first-occurrence order. -/
def findPipeRefs (s : Step) : List String :=
  let cmds := (if s.run.isSingle then [s.run.single] else [])
    ++ s.run.strs ++ s.run.subRuns.map (·.run)
  dedupFirstAux [] (cmds.map scanPipeRefs).flatten

/-- One step's contribution to the `envToStep` map of `Build`. -/
def envToStepStep (m : String → Option String) (s : Step) :
    String → Option String :=
  let m1 : String → Option String :=
    fun k => if k = envKey [s.id] then some s.id else m k
  if s.run.isSubRuns then
    s.run.subRuns.foldl
      (fun m2 sr =>
        fun k => if k = envKey [s.id, sr.id] then some s.id else m2 k)
      m1
  else m1

/-- The `envToStep` lookup map of `Build`: `PIPE_<key>` of every step, and of
every sub-run of a sub-runs step, maps to the producing step's id; later
entries overwrite earlier ones as in a Go map. -/
def envToStep (steps : List Step) : String → Option String :=
  steps.foldl envToStepStep (fun _ => none)

/-- The mutable edge-building state of `Build`. -/
structure BuildSt where
  edgeSet : List String
  deps : String → List String
  dependents : String → List String
  inDeg : String → Int

/-- The edge de-duplication key `from + " -> " + to`. -/
def edgeKeyStr (f t : String) : String := f ++ " -> " ++ t

/-- `addEdge` inside `Build`: skip already-recorded edges, otherwise append to
`Deps[to]` and `Dependents[from]` and bump `InDegree[to]`. -/
def addEdge (st : BuildSt) (f t : String) : BuildSt :=
  if edgeKeyStr f t ∈ st.edgeSet then st
  else
    { edgeSet := edgeKeyStr f t :: st.edgeSet
      deps := fun k => if k = t then st.deps t ++ [f] else st.deps k
      dependents := fun k => if k = f then st.dependents f ++ [t] else st.dependents k
      inDeg := fun k => if k = t then st.inDeg t + 1 else st.inDeg k }

/-- The explicit `depends_on` edges of one step: a self-reference is an error,
an unknown reference only a warning. -/
def addExplicitDep (ids : List String) (s : Step)
    (acc : BuildSt × List String) (dep : String) :
    Except String (BuildSt × List String) :=
  if dep = s.id then
    .error ("step " ++ quoteGo s.id ++ ": self-dependency")
  else if ids.contains dep then
    .ok (addEdge acc.1 dep s.id, acc.2)
  else
    .ok (acc.1, acc.2 ++
      ["step " ++ quoteGo s.id ++ ": unknown dependency " ++ quoteGo dep ++ " (ignored)"])

/-- The implicit edges of one step: every reference resolving to a distinct
producing step adds an edge; unresolved references add nothing. -/
def addImplicitDeps (e2s : String → Option String) (s : Step) (st : BuildSt) :
    BuildSt :=
  (findPipeRefs s).foldl
    (fun st ref =>
      match e2s ref with
      | some producer => if producer ≠ s.id then addEdge st producer s.id else st
      | none => st)
    st

/-- The edge-collection phase of `Build` (everything before cycle
detection). -/
def buildRaw (steps : List Step) : Except String (BuildSt × List String) :=
  let ids := steps.map (·.id)
  let e2s := envToStep steps
  steps.foldlM
    (fun acc s => do
      let acc1 ← s.dependsOn.foldlM (addExplicitDep ids s) acc
      pure (addImplicitDeps e2s s acc1.1, acc1.2))
    (⟨[], fun _ => [], fun _ => [], fun _ => 0⟩, [])

/-- The state of the Kahn peeling loop in `detectCycle`.  The Go code keeps
only a `processed` counter; the model keeps the processed ids (the counter is
their length). -/
structure KahnSt where
  inDeg : String → Int
  queue : List String
  processed : List String

/-- One iteration of the `detectCycle` loop: pop the queue head, decrement
each of its dependents, enqueue those that reach exactly zero. -/
def kahnStep (dependents : String → List String) (st : KahnSt) : KahnSt :=
  match st.queue with
  | [] => st
  | curr :: rest =>
    let res := (dependents curr).foldl
      (fun (acc : (String → Int) × List String) dep =>
        let d := acc.1 dep - 1
        (fun k => if k = dep then d else acc.1 k,
          if d = 0 then acc.2 ++ [dep] else acc.2))
      (st.inDeg, rest)
    { inDeg := res.1, queue := res.2, processed := st.processed ++ [curr] }

/-- The `detectCycle` loop with fuel; the loop runs while the queue is
non-empty, and one more than the number of steps is always enough fuel. -/
def kahnLoop (dependents : String → List String) : Nat → KahnSt → KahnSt
  | 0, st => st
  | fuel + 1, st =>
    match st.queue with
    | [] => st
    | _ :: _ => kahnLoop dependents fuel (kahnStep dependents st)

/-- Run the Kahn peeling of `detectCycle` to completion. -/
def kahnRun (order : List String) (dependents : String → List String)
    (inDeg : String → Int) : KahnSt :=
  kahnLoop dependents (order.length + 1)
    { inDeg := inDeg
      queue := order.filter (fun id => inDeg id = 0)
      processed := [] }

/-- `detectCycle`: error when fewer nodes were processed than exist, naming
every step that still carries positive in-degree. -/
def detectCycle (order : List String) (dependents : String → List String)
    (inDeg : String → Int) : Except String Unit :=
  let fin := kahnRun order dependents inDeg
  if fin.processed.length < order.length then
    .error ("dependency cycle detected among steps: " ++
      String.intercalate ", " (order.filter (fun id => fin.inDeg id > 0)))
  else .ok ()

/-- The built DAG (`graph.Graph`). -/
structure Graph where
  deps : String → List String
  dependents : String → List String
  inDegree : String → Int
  order : List String
  warningList : List String

/-- `graph.Build`. -/
def buildGraph (steps : List Step) : Except String Graph := do
  let (st, warns) ← buildRaw steps
  let order := steps.map (·.id)
  let _ ← detectCycle order st.dependents st.inDeg
  .ok { deps := st.deps, dependents := st.dependents, inDegree := st.inDeg,
        order := order, warningList := warns }

/-! ## Runner (`internal/runner/runner.go`)

Child processes are abstracted into an oracle: for every UI row id (step id,
`<step>/run_<i>`, or `<step>/<sub>`) and every attempt number it yields the
exit code and the captured stdout the child would produce.  Spawn failures are
folded into a non-zero exit code, mirroring `exitCode`'s normalisation.  The
concurrent workers are sequentialised; the observables the claims speak about
(final run state, env map, execution trace) do not depend on the
interleaving. -/

/-- What one child-process execution produces. -/
structure ExecOutcome where
  exit : Int
  out : String

/-- The external world: row id → attempt number (0-based) → outcome. -/
def Oracle : Type := String → Nat → ExecOutcome

/-- The runner's mutable state: run state, env map, cache store, plus the
trace of actually-executed (row id, attempt) pairs. -/
structure RunnerSt where
  steps : String → Option StepState
  runStatus : String
  env : String → Option String
  cacheStore : String → Option CacheEntry
  trace : List (String × Nat)

/-- `getStepState`: a Go map read yields the zero value when absent. -/
def getSS (st : RunnerSt) (id : String) : StepState :=
  (st.steps id).getD StepState.zero

/-- `setStepState`. -/
def setSS (st : RunnerSt) (id : String) (ss : StepState) : RunnerSt :=
  { st with steps := fun k => if k = id then some ss else st.steps k }

/-- `setEnv`. -/
def setEnvR (st : RunnerSt) (key value : String) : RunnerSt :=
  { st with env := fun k => if k = key then some value else st.env k }

/-- Modelled from the spec: the `Retry` helper (not under `src/`) runs the
function up to `maxAttempts` times with a constant back-off, stopping at the
first success, and reports the number of attempts made together with whether
the last attempt succeeded. -/
def retryRun (okAttempt : Nat → Bool) (maxAttempts : Nat) : Nat × Bool :=
  match (List.range maxAttempts).find? okAttempt with
  | some i => (i + 1, true)
  | none => (maxAttempts, false)

/-- `runSingle`: mark running, retry the command, then record state, publish
`PIPE_<S>` (always, from the trimmed capture) and save the cache entry. -/
def runSingle (step : Step) (ok : Oracle) (now : Nat) (st : RunnerSt) :
    RunnerSt × Bool :=
  let ss0 := getSS st step.id
  let st := setSS st step.id { ss0 with status := "running" }
  let maxA := step.retry + 1
  let res := retryRun (fun i => (ok step.id i).exit = 0) maxA
  let attempts := res.1
  let output := (ok step.id (attempts - 1)).out
  let st := { st with
    trace := st.trace ++ (List.range attempts).map (fun i => (step.id, i)) }
  if ¬ res.2 then
    let code := (ok step.id (attempts - 1)).exit
    (setSS st step.id
      { ss0 with status := "failed", exitCode := code, attempts := attempts },
      false)
  else
    let ssd := { ss0 with
      status := "done", exitCode := 0, sensitive := step.sensitive,
      output := if ¬ step.sensitive then output else ss0.output,
      attempts := attempts }
    let st := setSS st step.id ssd
    let st := setEnvR st (envKey [step.id]) (trimNewline output)
    let cacheOutput := if step.sensitive then "" else output
    let saved := saveCache step
      { stepId := step.id, exitCode := 0, output := cacheOutput,
        sensitive := step.sensitive, runType := "single" } now st.cacheStore
    ({ st with cacheStore := saved.1 }, true)

/-- `runParallelStrings`: one child per string (no capture, no retry); the
step fails if any child fails; only the exit status reaches the state. -/
def runParallelStrings (step : Step) (ok : Oracle) (now : Nat) (st : RunnerSt) :
    RunnerSt × Bool :=
  let ss0 := getSS st step.id
  let st := setSS st step.id { ss0 with status := "running" }
  let n := step.run.strs.length
  let rowId := fun (i : Nat) => step.id ++ "/run_" ++ toString i
  let st := { st with trace := st.trace ++ (List.range n).map (fun i => (rowId i, 0)) }
  let anyFail := (List.range n).any (fun i => (ok (rowId i) 0).exit ≠ 0)
  if anyFail then
    (setSS st step.id { ss0 with status := "failed" }, false)
  else
    let st := setSS st step.id { ss0 with status := "done", exitCode := 0 }
    let saved := saveCache step { stepId := step.id, runType := "strings" }
      now st.cacheStore
    ({ st with cacheStore := saved.1 }, true)

/-- The zero `SubState` of an absent sub-slot. -/
def SubState.zero : SubState := {}

/-- One sub-run of `runParallelSubRuns`: skip when already done and not
sensitive, otherwise execute once (no retry), record the fresh sub-state and
publish `PIPE_<S>_<R>` on success (sensitive or not). -/
def runSubOne (step : Step) (ok : Oracle)
    (acc : RunnerSt × List (String × SubState) × Bool) (sr : SubRun) :
    RunnerSt × List (String × SubState) × Bool :=
  let existing := (lookupA acc.2.1 sr.id).getD SubState.zero
  if existing.status = "done" ∧ ¬ sr.sensitive then acc
  else
    let rid := step.id ++ "/" ++ sr.id
    let st := { acc.1 with trace := acc.1.trace ++ [(rid, 0)] }
    let o := ok rid 0
    if o.exit ≠ 0 then
      (st, setA acc.2.1 sr.id
        { status := "failed", exitCode := o.exit, output := "", sensitive := false },
        true)
    else
      let sub : SubState :=
        { status := "done", exitCode := 0,
          output := if ¬ sr.sensitive then o.out else "",
          sensitive := sr.sensitive }
      (setEnvR st (envKey [step.id, sr.id]) (trimNewline o.out),
        setA acc.2.1 sr.id sub, acc.2.2)

/-- `runParallelSubRuns`. -/
def runParallelSubRuns (step : Step) (ok : Oracle) (now : Nat) (st : RunnerSt) :
    RunnerSt × Bool :=
  let ss0 := getSS st step.id
  let st := setSS st step.id { ss0 with status := "running" }
  let res := step.run.subRuns.foldl (runSubOne step ok) (st, ss0.subSteps, false)
  let st := res.1
  if res.2.2 then
    (setSS st step.id { ss0 with status := "failed", subSteps := res.2.1 }, false)
  else
    let st := setSS st step.id
      { ss0 with status := "done", exitCode := 0, subSteps := res.2.1 }
    let subOutputs := step.run.subRuns.map (fun sr =>
      let sub := (lookupA res.2.1 sr.id).getD SubState.zero
      ({ id := sr.id, output := sub.output, sensitive := sub.sensitive,
         exitCode := sub.exitCode } : CacheSubEntry))
    let saved := saveCache step
      { stepId := step.id, sensitive := step.sensitive, runType := "subruns",
        subOutputs := subOutputs } now st.cacheStore
    ({ st with cacheStore := saved.1 }, true)

/-- `tryCache`: on a valid hit restore env vars (skipping sensitive outputs
and empty outputs), mark the step done in state, report the hit. -/
def tryCache (step : Step) (now : Nat) (st : RunnerSt) : RunnerSt × Bool :=
  if ¬ step.cached.enabled then (st, false)
  else
    match st.cacheStore step.id with
    | none => (st, false)
    | some entry =>
      if ¬ cacheEntryValid entry now then (st, false)
      else
        let st :=
          if ¬ entry.sensitive then
            let st1 :=
              if entry.output ≠ "" then
                setEnvR st (envKey [step.id]) (trimNewline entry.output)
              else st
            entry.subOutputs.foldl
              (fun st sub =>
                if ¬ sub.sensitive ∧ sub.output ≠ "" then
                  setEnvR st (envKey [step.id, sub.id]) (trimNewline sub.output)
                else st)
              st1
          else st
        let ss := getSS st step.id
        let ss := { ss with
          status := "done", exitCode := 0, sensitive := step.sensitive,
          output := if ¬ step.sensitive then entry.output else ss.output }
        (setSS st step.id ss, true)

/-- `runStep`: resume skip for done non-sensitive steps, then the cache
check, then dispatch by variant (`IsSingle` first, as in the Go switch). -/
def runStep (step : Step) (ok : Oracle) (now : Nat) (st : RunnerSt) :
    RunnerSt × Bool :=
  let ss := getSS st step.id
  if ss.status = "done" ∧ ¬ step.sensitive then (st, true)
  else
    let hit := tryCache step now st
    if hit.2 then (hit.1, true)
    else if step.run.isSingle then runSingle step ok now hit.1
    else if step.run.isStrings then runParallelStrings step ok now hit.1
    else if step.run.isSubRuns then runParallelSubRuns step ok now hit.1
    else (hit.1, false)

/-- `runInteractive`: skip when already done (sensitive or not); otherwise run
`sh -c step.Run.Single` attached to the terminal — no capture, no env
publication, no cache. -/
def runInteractive (step : Step) (ok : Oracle) (st : RunnerSt) :
    RunnerSt × Bool :=
  let ss := getSS st step.id
  if ss.status = "done" then (st, true)
  else
    let st := setSS st step.id { ss with status := "running" }
    let st := { st with trace := st.trace ++ [(step.id, 0)] }
    let o := ok step.id 0
    if o.exit = 0 then
      (setSS st step.id { ss with status := "done", exitCode := 0 }, true)
    else
      (setSS st step.id { ss with status := "failed", exitCode := o.exit }, false)

/-- The sub-run loop body of `RestoreEnvFromState`. -/
def restoreSubEnv (stepId : String) (st : RunnerSt) (p : String × SubState) :
    RunnerSt :=
  if p.2.status = "done" ∧ ¬ p.2.sensitive ∧ p.2.output ≠ "" then
    setEnvR st (envKey [stepId, p.1]) (trimNewline p.2.output)
  else st

/-- The per-step body of `RestoreEnvFromState`. -/
def restoreStepEnv (st : RunnerSt) (step : Step) : RunnerSt :=
  match st.steps step.id with
  | none => st
  | some ss =>
    if ss.status = "done" ∧ ¬ ss.sensitive then
      let st1 :=
        if ss.output ≠ "" then
          setEnvR st (envKey [step.id]) (trimNewline ss.output)
        else st
      ss.subSteps.foldl (restoreSubEnv step.id) st1
    else st

/-- `RestoreEnvFromState`: for every pipeline step whose stored state is done
and not sensitive, republish its trimmed output (and its sub-runs' outputs)
— but only when the stored output is non-empty. -/
def restoreEnv (steps : List Step) (st : RunnerSt) : RunnerSt :=
  steps.foldl restoreStepEnv st

/-! ## Scheduler (`Run`, `cascadeFail`) -/

/-- `model.Pipeline` (the fields the scheduler reads). -/
structure Pipeline where
  name : String
  steps : List Step

/-- `findStep`: fall back to a zero `Step` carrying only the id. -/
def stepById (steps : List Step) (id : String) : Step :=
  (steps.find? (fun s => s.id = id)).getD
    { id := id, run := ⟨"", [], []⟩, dependsOn := [], sensitive := false,
      retry := 0, cached := ⟨false, ""⟩, interactive := false }

/-- The state of one `cascadeFail` BFS. -/
structure CascSt where
  failedSet : String → Bool
  rs : RunnerSt
  cascaded : List String
  queue : List String

/-- Visiting one dependent inside the cascade BFS: skip the interactive step
and already-failed steps; otherwise mark failed in the run state (keeping the
other slot fields), remember it, and enqueue it. -/
def cascadeVisit (excl : String) (c : CascSt) (dep : String) : CascSt :=
  if dep = excl ∨ c.failedSet dep then c
  else
    let ss := getSS c.rs dep
    { failedSet := fun k => if k = dep then true else c.failedSet k
      rs := setSS c.rs dep { ss with status := "failed" }
      cascaded := c.cascaded ++ [dep]
      queue := c.queue ++ [dep] }

/-- The BFS loop of `cascadeFail`. -/
def cascadeLoop (dependents : String → List String) (excl : String) :
    Nat → CascSt → CascSt
  | 0, c => c
  | fuel + 1, c =>
    match c.queue with
    | [] => c
    | curr :: rest =>
      cascadeLoop dependents excl fuel
        ((dependents curr).foldl (cascadeVisit excl) { c with queue := rest })

/-- `cascadeFail` from a failed step id. -/
def cascadeFail (dependents : String → List String) (excl failedId : String)
    (fuel : Nat) (failedSet : String → Bool) (rs : RunnerSt) : CascSt :=
  cascadeLoop dependents excl fuel
    { failedSet := failedSet, rs := rs, cascaded := [], queue := [failedId] }

/-- The state of the dispatch loop of `Run`.  The Go code keeps a `completed`
counter; the model keeps the lists of steps completed through `runStep`
(`processed`) and through the cascade (`cascaded`). -/
structure DispatchSt where
  rs : RunnerSt
  inDeg : String → Int
  queue : List String
  processed : List String
  cascaded : List String
  failedSet : String → Bool
  failedAny : Bool

/-- One completion event of the dispatch loop: run the queue head; on success
decrement each dependent (skipping the interactive step and failed steps) and
enqueue those reaching zero; on failure mark it failed and cascade. -/
def dispatchStep (steps : List Step) (g : Graph) (iId : String) (ok : Oracle)
    (now : Nat) (cascFuel : Nat) (d : DispatchSt) : DispatchSt :=
  match d.queue with
  | [] => d
  | id :: rest =>
    let step := stepById steps id
    let r := runStep step ok now d.rs
    if r.2 then
      let res := (g.dependents id).foldl
        (fun (acc : (String → Int) × List String) dep =>
          if dep = iId ∨ d.failedSet dep then acc
          else
            let v := acc.1 dep - 1
            (fun k => if k = dep then v else acc.1 k,
              if v = 0 then acc.2 ++ [dep] else acc.2))
        (d.inDeg, rest)
      { d with rs := r.1, inDeg := res.1, queue := res.2,
               processed := d.processed ++ [id] }
    else
      let fs0 := fun k => if k = id then true else d.failedSet k
      let c := cascadeFail g.dependents iId id cascFuel fs0 r.1
      { d with rs := c.rs, queue := rest, processed := d.processed ++ [id],
               cascaded := d.cascaded ++ c.cascaded, failedSet := c.failedSet,
               failedAny := true }

/-- The dispatch loop with fuel; it runs while ready steps remain queued. -/
def dispatchLoop (steps : List Step) (g : Graph) (iId : String) (ok : Oracle)
    (now : Nat) (cascFuel : Nat) : Nat → DispatchSt → DispatchSt
  | 0, d => d
  | fuel + 1, d =>
    match d.queue with
    | [] => d
    | _ :: _ =>
      dispatchLoop steps g iId ok now cascFuel fuel
        (dispatchStep steps g iId ok now cascFuel d)

/-- The id of the interactive step, `""` when there is none (the Go code's
zero-string sentinel; loader-validated step ids are never empty). -/
def interactiveId (steps : List Step) : String :=
  match steps.find? (fun s => s.interactive) with
  | some s => s.id
  | none => ""

/-- The initial dispatch state: a working copy of the in-degrees and the
seeded ready queue (in `Order` order, excluding the interactive step). -/
def initDispatch (g : Graph) (iId : String) (rs : RunnerSt) : DispatchSt :=
  { rs := rs
    inDeg := g.inDegree
    queue := g.order.filter (fun id => id ≠ iId ∧ g.inDegree id = 0)
    processed := []
    cascaded := []
    failedSet := fun _ => false
    failedAny := false }

/-- `Runner.Run`: build the graph, dispatch every non-interactive step, then
— only after full success — run the interactive step, and record the final
run status.  The worker pool is sequentialised; the semaphore bounds
parallelism only and does not affect the final state. -/
def runPipeline (p : Pipeline) (ok : Oracle) (now : Nat) (rs0 : RunnerSt) :
    RunnerSt × Bool :=
  match buildGraph p.steps with
  | .error _ => (rs0, false)
  | .ok g =>
    let iId := interactiveId p.steps
    let fuel := p.steps.length + 1
    let d := dispatchLoop p.steps g iId ok now fuel fuel (initDispatch g iId rs0)
    if d.failedAny then
      ({ d.rs with runStatus := "failed" }, false)
    else
      match p.steps.find? (fun s => s.interactive) with
      | some istep =>
        let ri := runInteractive istep ok d.rs
        if ri.2 then ({ ri.1 with runStatus := "done" }, true)
        else ({ ri.1 with runStatus := "failed" }, false)
      | none => ({ d.rs with runStatus := "done" }, true)

/-- A resumed run as the CLI performs it: `RestoreEnvFromState`, then `Run`.
(For a fresh run the state map is empty and the restore pass is a no-op.) -/
def runWithRestore (p : Pipeline) (ok : Oracle) (now : Nat) (rs0 : RunnerSt) :
    RunnerSt × Bool :=
  runPipeline p ok now (restoreEnv p.steps rs0)

/-! ## Statement-support definitions -/

/-- The stdout `runSingle` captures: the output of the last attempt the retry
loop executed. -/
def lastCapture (step : Step) (ok : Oracle) : String :=
  (ok step.id ((retryRun (fun i => (ok step.id i).exit = 0) (step.retry + 1)).1 - 1)).out

/-- `v` is a transitive dependent of `u` (a non-empty path of `dependents`
edges leads from `u` to `v`). -/
inductive Reaches (dependents : String → List String) : String → String → Prop
  | edge {u v : String} : v ∈ dependents u → Reaches dependents u v
  | tail {u w v : String} : w ∈ dependents u → Reaches dependents w v →
      Reaches dependents u v

/-- `v` has a transitive dependency on some step whose own execution fails
under the oracle-derived per-step verdict `okStep`. -/
def hasFailingAnc (dependents : String → List String) (okStep : String → Bool)
    (order : List String) (v : String) : Prop :=
  ∃ u ∈ order, okStep u = false ∧ Reaches dependents u v

/-- The fresh-run verdict of one step: does the retry loop of a
single-command step find a zero exit?  (For strings/sub-runs steps: do all
children exit zero?) -/
def stepVerdictOf (step : Step) (ok : Oracle) : Bool :=
  if step.run.isSingle then
    (retryRun (fun i => (ok step.id i).exit = 0) (step.retry + 1)).2
  else if step.run.isStrings then
    ¬ (List.range step.run.strs.length).any
      (fun i => (ok (step.id ++ "/run_" ++ toString i) 0).exit ≠ 0)
  else if step.run.isSubRuns then
    ¬ step.run.subRuns.any (fun sr => (ok (step.id ++ "/" ++ sr.id) 0).exit ≠ 0)
  else false

/-- The fresh-run per-step verdict by step id. -/
def stepVerdict (steps : List Step) (ok : Oracle) (id : String) : Bool :=
  stepVerdictOf (stepById steps id) ok

/-- `v` owns the UI row id `r`: the row is the step itself or one of its
children (`<step>/run_<i>` or `<step>/<sub>`). -/
def ownsRow (v r : String) : Prop :=
  r = v ∨ ∃ t, r = v ++ "/" ++ t

/-- The empty runner state a fresh run starts from (`state.NewRunState` plus
an env map holding no `PIPE_<step>` keys, an empty cache and no trace). -/
def freshRunnerSt (env0 : String → Option String) : RunnerSt :=
  { steps := fun _ => none, runStatus := "running", env := env0,
    cacheStore := fun _ => none, trace := [] }

/-- The `from -> to` dedup keys are injective on the step ids (holds for any
loader-valid ids, which contain neither spaces nor `>`); decidable, so
witnesses discharge it by computation. -/
def EdgeKeyInj (ids : List String) : Prop :=
  ∀ f ∈ ids, ∀ t ∈ ids, ∀ f2 ∈ ids, ∀ t2 ∈ ids,
    edgeKeyStr f t = edgeKeyStr f2 t2 → f = f2 ∧ t = t2

/-- The consistency invariant of the edge-building state of `Build`. -/
structure EdgeInv (ids : List String) (st : BuildSt) : Prop where
  key_mem : ∀ f ∈ ids, ∀ t ∈ ids, (edgeKeyStr f t ∈ st.edgeSet ↔ f ∈ st.deps t)
  keys_dom : ∀ x ∈ st.edgeSet, ∃ f t, f ∈ ids ∧ t ∈ ids ∧ x = edgeKeyStr f t
  dep_dom : ∀ t f, f ∈ st.deps t → f ∈ ids ∧ t ∈ ids
  dep_dpt : ∀ f t, f ∈ st.deps t ↔ t ∈ st.dependents f
  dep_nodup : ∀ t, (st.deps t).Nodup
  dpt_nodup : ∀ f, (st.dependents f).Nodup
  indeg_len : ∀ t, st.inDeg t = (st.deps t).length

/-- The invariant of the Kahn peeling loop of `detectCycle`. -/
structure KahnInv (order : List String) (dependents : String → List String)
    (st : KahnSt) : Prop where
  queue_sub : ∀ v ∈ st.queue, v ∈ order
  proc_sub : ∀ v ∈ st.processed, v ∈ order
  queue_nodup : st.queue.Nodup
  proc_nodup : st.processed.Nodup
  disj : ∀ v ∈ st.queue, v ∉ st.processed
  queue_nonpos : ∀ v ∈ st.queue, st.inDeg v ≤ 0
  proc_nonpos : ∀ v ∈ st.processed, st.inDeg v ≤ 0
  covered : ∀ v ∈ order, st.inDeg v ≤ 0 → v ∈ st.queue ∨ v ∈ st.processed

/-- The Kahn loop invariant strengthened with in-degree accounting and the
topological-prefix property of the processed list. -/
structure KahnTopo (order : List String) (deps dependents : String → List String)
    (st : KahnSt) : Prop where
  base : KahnInv order dependents st
  cnt : ∀ v ∈ order, st.inDeg v = ((deps v).length : Int) -
    (((deps v).filter (fun u => u ∈ st.processed)).length : Int)
  topo : ∀ l1 v l2, st.processed = l1 ++ v :: l2 → ∀ u ∈ deps v, u ∈ l1

/-- The invariant of one `cascadeFail` BFS, relative to the pre-state
(`fs0`, `rs`) and the starting failed step. -/
structure CascInv (ids : List String) (dependents : String → List String)
    (excl failedId : String) (fs0 : String → Bool) (rs : RunnerSt)
    (c : CascSt) : Prop where
  fs_iff : ∀ v, c.failedSet v = true ↔ (fs0 v = true ∨ v ∈ c.cascaded)
  c_nodup : c.cascaded.Nodup
  c_sub : ∀ v ∈ c.cascaded, v ∈ ids
  c_new : ∀ v ∈ c.cascaded, fs0 v = false
  c_excl : ∀ v ∈ c.cascaded, v ≠ excl
  c_reach : ∀ v ∈ c.cascaded, Reaches dependents failedId v
  q_fail : ∀ v ∈ c.queue, c.failedSet v = true
  q_src : ∀ v ∈ c.queue, v = failedId ∨ v ∈ c.cascaded
  rs_loc : ∀ k, k ∉ c.cascaded → c.rs.steps k = rs.steps k
  rs_st : ∀ v ∈ c.cascaded, (getSS c.rs v).status = "failed"
  rs_env : c.rs.env = rs.env
  rs_cache : c.rs.cacheStore = rs.cacheStore
  rs_trace : c.rs.trace = rs.trace
  rs_status : c.rs.runStatus = rs.runStatus

/-- The invariant of the dispatch loop of `Run`, for a fresh (non-resumed)
run without an interactive step. -/
structure DispatchInv (ids : List String) (deps dpts : String → List String)
    (V : String → Bool) (d : DispatchSt) : Prop where
  q_sub : ∀ v ∈ d.queue, v ∈ ids
  p_sub : ∀ v ∈ d.processed, v ∈ ids
  c_sub : ∀ v ∈ d.cascaded, v ∈ ids
  q_nodup : d.queue.Nodup
  p_nodup : d.processed.Nodup
  c_nodup : d.cascaded.Nodup
  qp_disj : ∀ v ∈ d.queue, v ∉ d.processed
  qc_disj : ∀ v ∈ d.queue, v ∉ d.cascaded
  pc_disj : ∀ v ∈ d.processed, v ∉ d.cascaded
  fs_iff : ∀ v, d.failedSet v = true ↔
    ((v ∈ d.processed ∧ V v = false) ∨ v ∈ d.cascaded)
  fs_closed : ∀ u, d.failedSet u = true → ∀ v ∈ dpts u, d.failedSet v = true
  st_done : ∀ v ∈ d.processed, V v = true → (getSS d.rs v).status = "done"
  st_fail : ∀ v ∈ d.processed, V v = false → (getSS d.rs v).status = "failed"
  st_casc : ∀ v ∈ d.cascaded, (getSS d.rs v).status = "failed"
  st_none : ∀ v, v ∉ d.processed → v ∉ d.cascaded → d.rs.steps v = none
  proc_good : ∀ v ∈ d.processed, ¬ hasFailingAnc dpts V ids v
  q_good : ∀ v ∈ d.queue, ¬ hasFailingAnc dpts V ids v
  c_bad : ∀ v ∈ d.cascaded, hasFailingAnc dpts V ids v
  cache_dom : ∀ k, d.rs.cacheStore k ≠ none → k ∈ d.processed
  tr_own : ∀ r ∈ d.rs.trace, ∃ v ∈ d.processed, ownsRow v r.1
  tr_ran : ∀ v ∈ d.processed, ∃ r ∈ d.rs.trace, ownsRow v r.1
  q_zero : ∀ v ∈ d.queue, d.inDeg v = 0
  pq_deps : ∀ v, (v ∈ d.processed ∨ v ∈ d.queue) → ∀ u ∈ deps v,
    u ∈ d.processed ∧ V u = true
  ind_cnt : ∀ v ∈ ids, v ∉ d.processed → v ∉ d.cascaded →
    d.inDeg v = ((deps v).length : Int) -
      (((deps v).filter (fun u => decide (u ∈ d.processed) && V u)).length : Int)
  cov : ∀ v ∈ ids, v ∉ d.processed → v ∉ d.cascaded → v ∉ d.queue →
    0 < d.inDeg v

/-- The concrete failing pipeline of the claim: `a` fails. -/
def exC1A : Step :=
  { id := "a", run := ⟨"exit 1", [], []⟩, dependsOn := [],
    sensitive := false, retry := 0, cached := ⟨false, ""⟩, interactive := false }

/-- The concrete dependent step `b` (depends on `a`). -/
def exC1B : Step :=
  { id := "b", run := ⟨"printf b", [], []⟩, dependsOn := ["a"],
    sensitive := false, retry := 0, cached := ⟨false, ""⟩, interactive := false }

/-- The concrete independent step `c`. -/
def exC1C : Step :=
  { id := "c", run := ⟨"printf c", [], []⟩, dependsOn := [],
    sensitive := false, retry := 0, cached := ⟨false, ""⟩, interactive := false }

/-- The oracle of the concrete a/b/c run: only `a`'s command exits
non-zero. -/
def exC1Ok : Oracle := fun r _ => if r = "a" then ⟨1, ""⟩ else ⟨0, "out"⟩

/-- The concrete a/b/c pipeline of the claim. -/
def exC1P : Pipeline := { name := "abc", steps := [exC1A, exC1B, exC1C] }

/-- Extract the graph of a successful `Build` (junk on error). -/
def graphOf (e : Except String Graph) : Graph :=
  match e with
  | .ok g => g
  | .error _ => { deps := fun _ => [], dependents := fun _ => [],
                  inDegree := fun _ => 0, order := [], warningList := [] }

/-- The warning list `Build` produces: one line per unknown `depends_on`
reference, in step order. -/
def unknownDepWarnings (steps : List Step) : List String :=
  (steps.map (fun s =>
    (s.dependsOn.filter (fun d => ¬ (steps.map (·.id)).contains d)).map
      (fun d => "step " ++ quoteGo s.id ++ ": unknown dependency " ++
        quoteGo d ++ " (ignored)"))).flatten

/-- Concrete steps of spec scenario A: `build` consumes
`$PIPE_GET_VERSION` (an implicit edge) and the unresolved `$PIPE_NOPE`. -/
def exGetVersion : Step :=
  { id := "get-version", run := ⟨"git describe --tags", [], []⟩,
    dependsOn := [], sensitive := false, retry := 0,
    cached := ⟨false, ""⟩, interactive := false }

/-- The consuming step of spec scenario A. -/
def exBuild : Step :=
  { id := "build",
    run := ⟨"go build -ldflags $PIPE_GET_VERSION $PIPE_NOPE", [], []⟩,
    dependsOn := [], sensitive := false, retry := 0,
    cached := ⟨false, ""⟩, interactive := false }

/-- Concrete cyclic steps: `a` and `b` depend on each other, `b` also names
the unknown step `zz`, `c` is independent. -/
def exCycA : Step :=
  { id := "a", run := ⟨"printf a", [], []⟩, dependsOn := ["b"],
    sensitive := false, retry := 0, cached := ⟨false, ""⟩, interactive := false }

/-- Second member of the concrete cycle. -/
def exCycB : Step :=
  { id := "b", run := ⟨"printf b", [], []⟩, dependsOn := ["a", "zz"],
    sensitive := false, retry := 0, cached := ⟨false, ""⟩, interactive := false }

/-- The independent third step next to the concrete cycle. -/
def exCycC : Step :=
  { id := "c", run := ⟨"printf c", [], []⟩, dependsOn := [],
    sensitive := false, retry := 0, cached := ⟨false, ""⟩, interactive := false }

/-- The env–state synchronisation the claim asserts: every non-sensitive
single-command step recorded `done` has `PIPE_<S>` equal, as a Go map read, to
its stored output with trailing newlines trimmed. -/
def EnvOutSync (steps : List Step) (rs : RunnerSt) : Prop :=
  ∀ s ∈ steps, s.run.isSingle = true → s.sensitive = false →
    (getSS rs s.id).status = "done" →
    (rs.env (envKey [s.id])).getD "" =
      trimNewline ((getSS rs s.id).output)

/-- A concrete successful single-command step with a trailing newline in its
stdout. -/
def exC3S : Step :=
  { id := "hello", run := ⟨"printf hi", [], []⟩, dependsOn := [],
    sensitive := false, retry := 0, cached := ⟨false, ""⟩, interactive := false }

/-- The one-step pipeline around `exC3S`. -/
def exC3P : Pipeline := { name := "hello", steps := [exC3S] }

/-- The oracle of the concrete run: every child exits 0 printing `hi`
followed by a newline. -/
def exC3Ok : Oracle := fun _ _ => ⟨0, "hi\n"⟩

/-! # Theorems -/

/-! ## Association-list lemmas -/

theorem lookupA_nil {α : Type} (k : String) :
    lookupA ([] : List (String × α)) k = none := rfl

theorem lookupA_cons {α : Type} (p : String × α) (m : List (String × α))
    (k : String) :
    lookupA (p :: m) k = if p.1 = k then some p.2 else lookupA m k := by
  by_cases h : p.1 = k <;> simp [lookupA, List.find?_cons, h]

theorem lookupA_append {α : Type} (m1 m2 : List (String × α)) (k : String) :
    lookupA (m1 ++ m2) k =
      match lookupA m1 k with
      | some v => some v
      | none => lookupA m2 k := by
  induction m1 with
  | nil => simp [lookupA_nil]
  | cons p m ih =>
    rw [List.cons_append, lookupA_cons, lookupA_cons]
    by_cases h : p.1 = k
    · simp [h]
    · simp [h, ih]

theorem lookupA_map_replace_ne {α : Type} (m : List (String × α)) (k q : String)
    (v : α) (hq : q ≠ k) :
    lookupA (m.map (fun p => if p.1 = k then (k, v) else p)) q = lookupA m q := by
  induction m with
  | nil => rfl
  | cons p m ih =>
    rw [List.map_cons, lookupA_cons, lookupA_cons]
    by_cases hp : p.1 = k
    · have h1 : ((k, v) : String × α).1 ≠ q := fun h => hq h.symm
      have h2 : p.1 ≠ q := by rw [hp]; exact fun h => hq h.symm
      simp [hp, h1, h2, ih]
    · simp [hp, ih]

theorem lookupA_map_replace_hit {α : Type} (m : List (String × α)) (k : String)
    (v : α) (hany : m.any (fun p => p.1 = k)) :
    lookupA (m.map (fun p => if p.1 = k then (k, v) else p)) k = some v := by
  induction m with
  | nil => simp at hany
  | cons p m ih =>
    rw [List.map_cons, lookupA_cons]
    by_cases hp : p.1 = k
    · simp [hp]
    · have hm : m.any (fun r => r.1 = k) := by
        rcases List.any_eq_true.mp hany with ⟨r, hr, hrk⟩
        rcases List.mem_cons.mp hr with h | h
        · exact absurd (of_decide_eq_true (h ▸ hrk)) hp
        · exact List.any_eq_true.mpr ⟨r, h, hrk⟩
      simp [hp, ih hm]

theorem lookupA_none_of_not_any {α : Type} (m : List (String × α)) (k : String)
    (hany : ¬ m.any (fun p => p.1 = k)) :
    lookupA m k = none := by
  unfold lookupA
  rw [List.find?_eq_none.mpr]
  · rfl
  · intro p hp hdec
    exact hany (List.any_eq_true.mpr ⟨p, hp, hdec⟩)

theorem lookupA_setA {α : Type} (m : List (String × α)) (k : String) (v : α)
    (q : String) :
    lookupA (setA m k v) q = if q = k then some v else lookupA m q := by
  unfold setA
  by_cases hany : m.any (fun p => p.1 = k)
  · rw [if_pos hany]
    by_cases hq : q = k
    · subst hq
      simp [lookupA_map_replace_hit m q v hany]
    · simp [hq, lookupA_map_replace_ne m k q v hq]
  · rw [if_neg hany]
    rw [lookupA_append]
    by_cases hq : q = k
    · subst hq
      simp [lookupA_none_of_not_any m q hany, lookupA_cons]
    · have : lookupA [(k, v)] q = none := by
        have : k ≠ q := fun h => hq h.symm
        simp [lookupA_cons, this, lookupA_nil]
      cases h : lookupA m q <;> simp [hq, h, this]

/-! ## C2 — cache save on invalid `expire_after` -/

/-- C2 (counterexample): for a cache-enabled step whose `expire_after` is the
invalid string `"banana"`, `saveCache` emits the warning but writes no cache
entry at all — the store still has no entry for the step, contradicting the
claim that the step is cached without an expiry. -/
theorem c2_invalid_expiry_writes_nothing_cex :
    (saveCache
        { id := "s", run := ⟨"x", [], []⟩, dependsOn := [], sensitive := false,
          retry := 0, cached := ⟨true, "banana"⟩, interactive := false }
        { stepId := "s" } 100 (fun _ => none)).1 "s" = none ∧
    (saveCache
        { id := "s", run := ⟨"x", [], []⟩, dependsOn := [], sensitive := false,
          retry := 0, cached := ⟨true, "banana"⟩, interactive := false }
        { stepId := "s" } 100 (fun _ => none)).2 ≠ [] := by
  constructor
  · rfl
  · decide

/-- C2 (amended): when a cache-enabled step's `expire_after` string is
invalid, `saveCache` emits a warning and returns without writing any cache
entry — the store is unchanged and no entry (with or without expiry) is
created. -/
theorem saveCache_invalid_expiry_skips_write (step : Step) (entry : CacheEntry)
    (now : Nat) (store : String → Option CacheEntry)
    (hen : step.cached.enabled = true)
    (herr : parseExpiry step.cached.expireAfter now = .error ()) :
    saveCache step entry now store =
      (store, ["[" ++ step.id ++ "] cache warning: invalid expiry " ++
        quoteGo step.cached.expireAfter]) := by
  unfold saveCache
  rw [hen]
  simp [herr]

/-- C2 witness: the amended theorem applied to a concrete step with expiry
string `"banana"`. -/
theorem saveCache_invalid_expiry_skips_write_witness :
    saveCache
        { id := "s", run := ⟨"x", [], []⟩, dependsOn := [], sensitive := false,
          retry := 0, cached := ⟨true, "banana"⟩, interactive := false }
        { stepId := "s" } 100 (fun _ => none) =
      ((fun _ => none), ["[s] cache warning: invalid expiry \"banana\""]) := by
  have h := saveCache_invalid_expiry_skips_write
    { id := "s", run := ⟨"x", [], []⟩, dependsOn := [], sensitive := false,
      retry := 0, cached := ⟨true, "banana"⟩, interactive := false }
    { stepId := "s" } 100 (fun _ => none) rfl rfl
  exact h

/-! ## C4 — resume skip semantics of `runStep` -/

theorem tryCache_miss (step : Step) (now : Nat) (st : RunnerSt)
    (h : step.cached.enabled = false ∨ st.cacheStore step.id = none ∨
      (∀ e, st.cacheStore step.id = some e → cacheEntryValid e now = false)) :
    tryCache step now st = (st, false) := by
  unfold tryCache
  rcases h with h | h | h
  · simp [h]
  · cases he : step.cached.enabled
    · simp
    · simp [h]
  · cases he : step.cached.enabled
    · simp
    · cases hc : st.cacheStore step.id with
      | none => simp [hc]
      | some e => simp [hc, h e hc]

theorem runSingle_trace (step : Step) (ok : Oracle) (now : Nat) (st : RunnerSt) :
    (runSingle step ok now st).1.trace =
      st.trace ++ (List.range
          ((retryRun (fun i => (ok step.id i).exit = 0) (step.retry + 1)).1)).map
        (fun i => (step.id, i)) := by
  unfold runSingle
  dsimp only
  split <;> rfl

theorem retryRun_attempts_pos (f : Nat → Bool) (n : Nat) :
    1 ≤ (retryRun f (n + 1)).1 := by
  unfold retryRun
  cases h : (List.range (n + 1)).find? f
  · simp
  · simp

/-- C4 (amended): for a step whose prior `StepState.status` is `done`: if the
step is not sensitive, `runStep` returns success immediately — state, env,
cache and trace are untouched and nothing executes; if the step is sensitive
and no valid cache entry short-circuits it, a single-command step is
re-executed (its command runs at least once, starting with attempt 0). -/
theorem runStep_resume_skip_and_reexecute (step : Step) (ok : Oracle)
    (now : Nat) (st : RunnerSt)
    (hdone : (getSS st step.id).status = "done") :
    (step.sensitive = false → runStep step ok now st = (st, true)) ∧
    (step.sensitive = true →
      (step.cached.enabled = false ∨ st.cacheStore step.id = none ∨
        (∀ e, st.cacheStore step.id = some e → cacheEntryValid e now = false)) →
      step.run.isSingle = true →
      ∃ l, (runStep step ok now st).1.trace = st.trace ++ (step.id, 0) :: l) := by
  constructor
  · intro hs
    unfold runStep
    simp [hdone, hs]
  · intro hs hc hsingle
    have hrs : runStep step ok now st = runSingle step ok now st := by
      unfold runStep
      rw [tryCache_miss step now st hc]
      simp [hs, hsingle]
    rw [hrs, runSingle_trace]
    obtain ⟨n, hn⟩ : ∃ n,
        (retryRun (fun i => (ok step.id i).exit = 0) (step.retry + 1)).1 = n + 1 := by
      have := retryRun_attempts_pos (fun i => (ok step.id i).exit = 0) step.retry
      exact ⟨_, (Nat.succ_pred_eq_of_pos this).symm⟩
    rw [hn, List.range_succ_eq_map, List.map_cons]
    exact ⟨_, rfl⟩

/-- C4 witness: the amended theorem at a concrete resumed state — a
non-sensitive done step is skipped wholesale, and a sensitive done step with
no cache entry re-runs its command. -/
theorem runStep_resume_skip_and_reexecute_witness :
    (runStep
      { id := "a", run := ⟨"printf x", [], []⟩, dependsOn := [],
        sensitive := false, retry := 0, cached := ⟨false, ""⟩, interactive := false }
      (fun _ _ => ⟨0, "x"⟩) 0
      { steps := fun k => if k = "a" then
          some { status := "done", output := "x" } else none,
        runStatus := "running", env := fun _ => none,
        cacheStore := fun _ => none, trace := [] } =
      ({ steps := fun k => if k = "a" then
          some { status := "done", output := "x" } else none,
         runStatus := "running", env := fun _ => none,
         cacheStore := fun _ => none, trace := [] }, true)) ∧
    (∃ l, (runStep
      { id := "tok", run := ⟨"printf s", [], []⟩, dependsOn := [],
        sensitive := true, retry := 0, cached := ⟨false, ""⟩, interactive := false }
      (fun _ _ => ⟨0, "s"⟩) 0
      { steps := fun k => if k = "tok" then
          some { status := "done", sensitive := true } else none,
        runStatus := "running", env := fun _ => none,
        cacheStore := fun _ => none, trace := [] }).1.trace =
      [] ++ ("tok", 0) :: l) := by
  constructor
  · exact (runStep_resume_skip_and_reexecute
      { id := "a", run := ⟨"printf x", [], []⟩, dependsOn := [],
        sensitive := false, retry := 0, cached := ⟨false, ""⟩, interactive := false }
      (fun _ _ => ⟨0, "x"⟩) 0
      { steps := fun k => if k = "a" then
          some { status := "done", output := "x" } else none,
        runStatus := "running", env := fun _ => none,
        cacheStore := fun _ => none, trace := [] }
      rfl).1 rfl
  · exact (runStep_resume_skip_and_reexecute
      { id := "tok", run := ⟨"printf s", [], []⟩, dependsOn := [],
        sensitive := true, retry := 0, cached := ⟨false, ""⟩, interactive := false }
      (fun _ _ => ⟨0, "s"⟩) 0
      { steps := fun k => if k = "tok" then
          some { status := "done", sensitive := true } else none,
        runStatus := "running", env := fun _ => none,
        cacheStore := fun _ => none, trace := [] }
      rfl).2 rfl (Or.inl rfl) rfl

/-- C4 (counterexample): a sensitive step whose prior status is `done` and
which carries a valid cache entry is *not* re-executed: `runStep` reports
success while the execution trace stays empty (the cache hit short-circuits
it), contradicting the claim that a sensitive done step is always
re-executed. -/
theorem c4_sensitive_done_cached_not_reexecuted_cex :
    (runStep
      { id := "tok", run := ⟨"printf s", [], []⟩, dependsOn := [],
        sensitive := true, retry := 0, cached := ⟨true, ""⟩, interactive := false }
      (fun _ _ => ⟨0, "s"⟩) 0
      { steps := fun k => if k = "tok" then
          some { status := "done", sensitive := true } else none,
        runStatus := "running", env := fun _ => none,
        cacheStore := fun k => if k = "tok" then
          some { stepId := "tok", sensitive := true, runType := "single" } else none,
        trace := [] }).2 = true ∧
    (runStep
      { id := "tok", run := ⟨"printf s", [], []⟩, dependsOn := [],
        sensitive := true, retry := 0, cached := ⟨true, ""⟩, interactive := false }
      (fun _ _ => ⟨0, "s"⟩) 0
      { steps := fun k => if k = "tok" then
          some { status := "done", sensitive := true } else none,
        runStatus := "running", env := fun _ => none,
        cacheStore := fun k => if k = "tok" then
          some { stepId := "tok", sensitive := true, runType := "single" } else none,
        trace := [] }).1.trace = [] := by
  exact ⟨rfl, rfl⟩

/-! ## C10 — restore republishes only non-empty outputs -/

theorem setEnvR_env (st : RunnerSt) (k v K : String) :
    (setEnvR st k v).env K = if K = k then some v else st.env K := rfl

theorem restoreSubEnv_steps (stepId : String) (st : RunnerSt)
    (p : String × SubState) : (restoreSubEnv stepId st p).steps = st.steps := by
  unfold restoreSubEnv
  split <;> rfl

theorem restoreSubFold_steps (stepId : String) (l : List (String × SubState))
    (st : RunnerSt) :
    (l.foldl (restoreSubEnv stepId) st).steps = st.steps := by
  induction l generalizing st with
  | nil => rfl
  | cons p l ih => rw [List.foldl_cons, ih, restoreSubEnv_steps]

theorem restoreStepEnv_steps (st : RunnerSt) (step : Step) :
    (restoreStepEnv st step).steps = st.steps := by
  unfold restoreStepEnv
  split
  · rfl
  · split
    · rw [restoreSubFold_steps]
      split <;> rfl
    · rfl

theorem restoreSubEnv_env_changed (stepId : String) (st : RunnerSt)
    (p : String × SubState) (K : String)
    (h : (restoreSubEnv stepId st p).env K ≠ st.env K) :
    p.2.status = "done" ∧ p.2.sensitive = false ∧ p.2.output ≠ "" ∧
      K = envKey [stepId, p.1] := by
  unfold restoreSubEnv at h
  split at h
  · next hcond =>
    rw [setEnvR_env] at h
    by_cases hk : K = envKey [stepId, p.1]
    · refine ⟨hcond.1, ?_, hcond.2.2, hk⟩
      cases hs : p.2.sensitive
      · rfl
      · exact absurd hs hcond.2.1
    · rw [if_neg hk] at h
      exact absurd rfl h
  · exact absurd rfl h

theorem restoreSubFold_env_changed (stepId : String)
    (l : List (String × SubState)) (st : RunnerSt) (K : String)
    (h : (l.foldl (restoreSubEnv stepId) st).env K ≠ st.env K) :
    ∃ p ∈ l, p.2.status = "done" ∧ p.2.sensitive = false ∧ p.2.output ≠ "" ∧
      K = envKey [stepId, p.1] := by
  induction l generalizing st with
  | nil => exact absurd rfl h
  | cons p l ih =>
    rw [List.foldl_cons] at h
    by_cases hmid : (restoreSubEnv stepId st p).env K = st.env K
    · rw [← hmid] at h
      rcases ih (restoreSubEnv stepId st p) h with ⟨q, hq, hprop⟩
      exact ⟨q, List.mem_cons_of_mem p hq, hprop⟩
    · exact ⟨p, List.mem_cons_self p l, restoreSubEnv_env_changed stepId st p K hmid⟩

theorem restoreStepEnv_env_changed (st : RunnerSt) (step : Step) (K : String)
    (h : (restoreStepEnv st step).env K ≠ st.env K) :
    ∃ ss, st.steps step.id = some ss ∧ ss.status = "done" ∧
      ss.sensitive = false ∧
      ((ss.output ≠ "" ∧ K = envKey [step.id]) ∨
        ∃ p ∈ ss.subSteps, p.2.status = "done" ∧ p.2.sensitive = false ∧
          p.2.output ≠ "" ∧ K = envKey [step.id, p.1]) := by
  unfold restoreStepEnv at h
  split at h
  · exact absurd rfl h
  · next ss hss =>
    split at h
    · next hcond =>
      have hsens : ss.sensitive = false := by
        cases hs : ss.sensitive
        · rfl
        · exact absurd hs hcond.2
      refine ⟨ss, hss, hcond.1, hsens, ?_⟩
      by_cases hmid :
          (if ss.output ≠ "" then
            setEnvR st (envKey [step.id]) (trimNewline ss.output)
          else st).env K = st.env K
      · rw [← hmid] at h
        rcases restoreSubFold_env_changed step.id ss.subSteps _ K h with ⟨p, hp, hprop⟩
        exact Or.inr ⟨p, hp, hprop⟩
      · left
        by_cases hout : ss.output ≠ ""
        · rw [if_pos hout, setEnvR_env] at hmid
          by_cases hk : K = envKey [step.id]
          · exact ⟨hout, hk⟩
          · rw [if_neg hk] at hmid
            exact absurd rfl hmid
        · rw [if_neg hout] at hmid
          exact absurd rfl hmid
    · exact absurd rfl h

theorem restoreEnv_env_changed (steps : List Step) (st : RunnerSt) (K : String)
    (h : (restoreEnv steps st).env K ≠ st.env K) :
    ∃ s ∈ steps, ∃ ss, st.steps s.id = some ss ∧ ss.status = "done" ∧
      ss.sensitive = false ∧
      ((ss.output ≠ "" ∧ K = envKey [s.id]) ∨
        ∃ p ∈ ss.subSteps, p.2.status = "done" ∧ p.2.sensitive = false ∧
          p.2.output ≠ "" ∧ K = envKey [s.id, p.1]) := by
  induction steps generalizing st with
  | nil => exact absurd rfl h
  | cons s l ih =>
    rw [restoreEnv, List.foldl_cons] at h
    by_cases hmid : (restoreStepEnv st s).env K = st.env K
    · rw [show l.foldl restoreStepEnv (restoreStepEnv st s) =
          restoreEnv l (restoreStepEnv st s) from rfl, ← hmid] at h
      rcases ih (restoreStepEnv st s) h with ⟨t, ht, ss, hss, hprop⟩
      rw [restoreStepEnv_steps] at hss
      exact ⟨t, List.mem_cons_of_mem s ht, ss, hss, hprop⟩
    · rcases restoreStepEnv_env_changed st s K hmid with ⟨ss, hss, hprop⟩
      exact ⟨s, List.mem_cons_self s l, ss, hss, hprop⟩

theorem env_cacheSet (st : RunnerSt) (c : String → Option CacheEntry)
    (K : String) :
    ({ st with cacheStore := c } : RunnerSt).env K = st.env K := rfl

theorem runSingle_publishes (step : Step) (ok : Oracle) (now : Nat)
    (st : RunnerSt) (h : (runSingle step ok now st).2 = true) :
    (runSingle step ok now st).1.env (envKey [step.id]) =
      some (trimNewline (lastCapture step ok)) := by
  unfold runSingle at h ⊢
  dsimp only at h ⊢
  split at h
  · simp at h
  · next hcond =>
    rw [if_neg hcond]
    unfold lastCapture
    simp [env_cacheSet, setEnvR_env]

/-- C10: `RestoreEnvFromState` republishes an env var only from a done,
non-sensitive step (or sub-run) whose stored output is non-empty — an empty
stored output never adds an entry on resume — whereas a fresh successful
execution of a single-command step always publishes `PIPE_<S>`, even when the
captured (trimmed) stdout is the empty string. -/
theorem restore_empty_skipped_but_runSingle_publishes
    (steps : List Step) (st : RunnerSt) (K : String)
    (step : Step) (ok : Oracle) (now : Nat) (st2 : RunnerSt) :
    ((restoreEnv steps st).env K ≠ st.env K →
      ∃ s ∈ steps, ∃ ss, st.steps s.id = some ss ∧ ss.status = "done" ∧
        ss.sensitive = false ∧
        ((ss.output ≠ "" ∧ K = envKey [s.id]) ∨
          ∃ p ∈ ss.subSteps, p.2.status = "done" ∧ p.2.sensitive = false ∧
            p.2.output ≠ "" ∧ K = envKey [s.id, p.1])) ∧
    ((runSingle step ok now st2).2 = true →
      (runSingle step ok now st2).1.env (envKey [step.id]) =
        some (trimNewline (lastCapture step ok))) :=
  ⟨restoreEnv_env_changed steps st K,
   runSingle_publishes step ok now st2⟩

/-- C10 witness: a state where step `b` is done with output `"x\n"` — restore
changes the env at `PIPE_B` (instantiating the hypothesis) — and a successful
`runSingle` of a step whose stdout is empty still publishes its key as the
empty string. -/
theorem restore_empty_skipped_but_runSingle_publishes_witness :
    ((restoreEnv
        [{ id := "b", run := ⟨"printf x", [], []⟩, dependsOn := [],
           sensitive := false, retry := 0, cached := ⟨false, ""⟩,
           interactive := false }]
        { steps := fun k => if k = "b" then
            some { status := "done", output := "x\n" } else none,
          runStatus := "running", env := fun _ => none,
          cacheStore := fun _ => none, trace := [] }).env "PIPE_B" ≠
      ({ steps := fun k => if k = "b" then
            some { status := "done", output := "x\n" } else none,
         runStatus := "running", env := fun _ => none,
         cacheStore := fun _ => none, trace := [] } : RunnerSt).env "PIPE_B") ∧
    (∃ s, s ∈ ([{ id := "b", run := ⟨"printf x", [], []⟩, dependsOn := [],
                  sensitive := false, retry := 0, cached := ⟨false, ""⟩,
                  interactive := false }] : List Step) ∧ ∃ ss,
        ({ steps := fun k => if k = "b" then
            some { status := "done", output := "x\n" } else none,
           runStatus := "running", env := fun _ => none,
           cacheStore := fun _ => none, trace := [] } : RunnerSt).steps
          s.id = some ss ∧
        ss.status = "done" ∧ ss.sensitive = false ∧
        ((ss.output ≠ "" ∧ "PIPE_B" = envKey [s.id]) ∨
          ∃ p ∈ ss.subSteps, p.2.status = "done" ∧ p.2.sensitive = false ∧
            p.2.output ≠ "" ∧ "PIPE_B" = envKey [s.id, p.1])) ∧
    (runSingle
        { id := "q", run := ⟨"true", [], []⟩, dependsOn := [],
          sensitive := false, retry := 0, cached := ⟨false, ""⟩,
          interactive := false }
        (fun _ _ => ⟨0, ""⟩) 0 (freshRunnerSt (fun _ => none))).1.env
      (envKey ["q"]) = some "" := by
  have h := restore_empty_skipped_but_runSingle_publishes
    [{ id := "b", run := ⟨"printf x", [], []⟩, dependsOn := [],
       sensitive := false, retry := 0, cached := ⟨false, ""⟩,
       interactive := false }]
    { steps := fun k => if k = "b" then
        some { status := "done", output := "x\n" } else none,
      runStatus := "running", env := fun _ => none,
      cacheStore := fun _ => none, trace := [] }
    "PIPE_B"
    { id := "q", run := ⟨"true", [], []⟩, dependsOn := [],
      sensitive := false, retry := 0, cached := ⟨false, ""⟩,
      interactive := false }
    (fun _ _ => ⟨0, ""⟩) 0 (freshRunnerSt (fun _ => none))
  have hch : (restoreEnv
      [{ id := "b", run := ⟨"printf x", [], []⟩, dependsOn := [],
         sensitive := false, retry := 0, cached := ⟨false, ""⟩,
         interactive := false }]
      { steps := fun k => if k = "b" then
          some { status := "done", output := "x\n" } else none,
        runStatus := "running", env := fun _ => none,
        cacheStore := fun _ => none, trace := [] }).env "PIPE_B" ≠
      ({ steps := fun k => if k = "b" then
          some { status := "done", output := "x\n" } else none,
         runStatus := "running", env := fun _ => none,
         cacheStore := fun _ => none, trace := [] } : RunnerSt).env "PIPE_B" := by
    decide
  refine ⟨hch, h.1 hch, ?_⟩
  have hq := h.2 rfl
  simpa using hq

/-! ## C6 / C7 — variable-resolution precedence -/

theorem lookup_defaults_fold (tmpl : String → Option String)
    (l m0 : List (String × String)) (N : String) :
    lookupA (l.foldl
        (fun m p => setA m (varEnvKey p.1) (renderVarValue tmpl p.2)) m0) N =
      match l.reverse.find? (fun p => varEnvKey p.1 = N) with
      | some p => some (renderVarValue tmpl p.2)
      | none => lookupA m0 N := by
  induction l generalizing m0 with
  | nil => rfl
  | cons p l ih =>
    rw [List.foldl_cons, ih, List.reverse_cons, List.find?_append]
    cases h : l.reverse.find? (fun q => varEnvKey q.1 = N) with
    | some q => simp [Option.or]
    | none =>
      by_cases hp : varEnvKey p.1 = N
      · simp [Option.or, List.find?_cons_of_pos, hp, lookupA_setA]
      · have : ¬ (N = varEnvKey p.1) := fun h2 => hp h2.symm
        simp [Option.or, List.find?_cons_of_neg, hp, lookupA_setA, this]

theorem applyVarSource_eq (declared : String → Bool) (u : Bool) (w : String)
    (acc : List (String × String) × List String) (p : String × String) :
    applyVarSource declared u w acc p =
      if u ∨ declared (varEnvKey p.1) then
        (setA acc.1 (varEnvKey p.1) p.2, acc.2)
      else (acc.1, acc.2 ++ [quoteGo p.1 ++ w]) := rfl

theorem lookup_guarded_fold (declared : String → Bool) (u : Bool) (w : String)
    (l : List (String × String)) (m0 : List (String × String))
    (w0 : List String) (N : String) :
    lookupA (l.foldl (applyVarSource declared u w) (m0, w0)).1 N =
      if u ∨ declared N then
        match l.reverse.find? (fun p => varEnvKey p.1 = N) with
        | some p => some p.2
        | none => lookupA m0 N
      else lookupA m0 N := by
  induction l generalizing m0 w0 with
  | nil => split <;> rfl
  | cons p l ih =>
    rw [List.foldl_cons, applyVarSource_eq]
    by_cases hg : (u ∨ declared (varEnvKey p.1))
    · rw [if_pos hg, ih, List.reverse_cons, List.find?_append]
      by_cases hN : (u ∨ declared N)
      · rw [if_pos hN, if_pos hN]
        cases h : l.reverse.find? (fun q => varEnvKey q.1 = N) with
        | some q => simp [Option.or]
        | none =>
          by_cases hp : varEnvKey p.1 = N
          · simp [Option.or, List.find?_cons_of_pos, hp, lookupA_setA]
          · have : ¬ (N = varEnvKey p.1) := fun h2 => hp h2.symm
            simp [Option.or, List.find?_cons_of_neg, hp, lookupA_setA, this]
      · rw [if_neg hN, if_neg hN]
        have hp : ¬ (varEnvKey p.1 = N) := by
          intro h
          exact hN (h ▸ hg)
        have : ¬ (N = varEnvKey p.1) := fun h2 => hp h2.symm
        simp [lookupA_setA, this]
    · rw [if_neg hg, ih]
      by_cases hN : (u ∨ declared N)
      · rw [if_pos hN, if_pos hN, List.reverse_cons, List.find?_append]
        cases h : l.reverse.find? (fun q => varEnvKey q.1 = N) with
        | some q => simp [Option.or]
        | none =>
          have hp : ¬ (varEnvKey p.1 = N) := by
            intro h2
            exact hg (h2 ▸ hN)
          simp [Option.or, List.find?_cons_of_neg, hp]
      · rw [if_neg hN, if_neg hN]

theorem lookup_host_map (host : String → Option String)
    (m : List (String × String)) (N : String) :
    lookupA (m.map (hostOverride host)) N =
      match lookupA m N with
      | some v => some ((host N).getD v)
      | none => none := by
  induction m with
  | nil => rfl
  | cons p m ih =>
    rw [List.map_cons, lookupA_cons, lookupA_cons]
    have hkey : (hostOverride host p).1 = p.1 := by
      unfold hostOverride
      cases host p.1 <;> rfl
    rw [hkey]
    by_cases hp : p.1 = N
    · rw [if_pos hp, if_pos hp]
      unfold hostOverride
      rw [hp]
      cases h : host N <;> simp [h]
    · rw [if_neg hp, if_neg hp, ih]

theorem find?_reverse_of_unique (l : List (String × String)) (N : String)
    (hnodup : (l.map (fun p => varEnvKey p.1)).Nodup) :
    l.reverse.find? (fun p => varEnvKey p.1 = N) =
      l.find? (fun p => varEnvKey p.1 = N) := by
  cases h : l.find? (fun p => varEnvKey p.1 = N) with
  | none =>
    rw [List.find?_eq_none] at h ⊢
    intro x hx
    exact h x (List.mem_reverse.mp hx)
  | some q =>
    have hq := List.mem_of_find?_eq_some h
    cases h2 : l.reverse.find? (fun p => varEnvKey p.1 = N) with
    | none =>
      rw [List.find?_eq_none] at h2
      exact absurd (List.find?_some h) (h2 q (List.mem_reverse.mpr hq))
    | some r =>
      have hr := List.mem_reverse.mp (List.mem_of_find?_eq_some h2)
      have hqp' := List.find?_some h
      have hrp' := List.find?_some h2
      have hqp : varEnvKey q.1 = N := of_decide_eq_true hqp'
      have hrp : varEnvKey r.1 = N := of_decide_eq_true hrp'
      rw [List.inj_on_of_nodup_map hnodup hr hq (hrp.trans hqp.symm)]

/-- C6: for every declared variable key `K` (with the per-source normalised
key lists duplicate-free, as Go map keys are), the resolved value of
`PIPE_VAR_<K>` comes from the highest-precedence source providing `K`:
CLI override, else host environment, else dot-file value, else the (rendered)
declared default. -/
theorem resolveVars_precedence (tmpl host : String → Option String)
    (yamlVars dotFileVars cliOverrides : List (String × String))
    (K d : String) (hmem : (K, d) ∈ yamlVars)
    (hy : (yamlVars.map (fun p => varEnvKey p.1)).Nodup)
    (hd : (dotFileVars.map (fun p => varEnvKey p.1)).Nodup)
    (hc : (cliOverrides.map (fun p => varEnvKey p.1)).Nodup) :
    lookupA (resolveVars tmpl host yamlVars dotFileVars cliOverrides).1
        (varEnvKey K) =
      some
        (match cliOverrides.find? (fun p => varEnvKey p.1 = varEnvKey K) with
         | some p => p.2
         | none =>
           match host (varEnvKey K) with
           | some v => v
           | none =>
             match dotFileVars.find? (fun p => varEnvKey p.1 = varEnvKey K) with
             | some p => p.2
             | none => renderVarValue tmpl d) := by
  have hdecl : yamlVars.any (fun p => varEnvKey p.1 = varEnvKey K) = true :=
    List.any_eq_true.mpr ⟨(K, d), hmem, decide_eq_true rfl⟩
  have hN : (unsafeVarsOn host = true ∨
      yamlVars.any (fun p => varEnvKey p.1 = varEnvKey K) = true) :=
    Or.inr hdecl
  unfold resolveVars
  rw [lookup_guarded_fold, if_pos hN, find?_reverse_of_unique _ _ hc]
  have hdefault :
      lookupA (yamlVars.foldl
          (fun m p => setA m (varEnvKey p.1) (renderVarValue tmpl p.2)) [])
        (varEnvKey K) = some (renderVarValue tmpl d) := by
    rw [lookup_defaults_fold, find?_reverse_of_unique _ _ hy]
    cases h : yamlVars.find? (fun p => varEnvKey p.1 = varEnvKey K) with
    | none =>
      rw [List.find?_eq_none] at h
      exact absurd (decide_eq_true rfl) (h (K, d) hmem)
    | some q =>
      have hq := List.mem_of_find?_eq_some h
      have hqp' := List.find?_some h
      have hqp : varEnvKey q.1 = varEnvKey K := of_decide_eq_true hqp'
      have : q = (K, d) := List.inj_on_of_nodup_map hy hq hmem hqp
      rw [this]
  have hstep2 :
      lookupA (dotFileVars.foldl
          (applyVarSource
            (fun envName => yamlVars.any (fun p => varEnvKey p.1 = envName))
            (unsafeVarsOn host)
            " from dot_file has no effect — not declared in vars")
          (yamlVars.foldl
            (fun m p => setA m (varEnvKey p.1) (renderVarValue tmpl p.2)) [],
            [])).1 (varEnvKey K) =
      some
        (match dotFileVars.find? (fun p => varEnvKey p.1 = varEnvKey K) with
         | some p => p.2
         | none => renderVarValue tmpl d) := by
    rw [lookup_guarded_fold, if_pos hN, find?_reverse_of_unique _ _ hd]
    cases h : dotFileVars.find? (fun p => varEnvKey p.1 = varEnvKey K) with
    | none => exact hdefault
    | some q => rfl
  rw [lookup_host_map, hstep2]
  cases hcli : cliOverrides.find? (fun p => varEnvKey p.1 = varEnvKey K) with
  | some q => rfl
  | none =>
    cases hh : host (varEnvKey K) <;> simp [hh]

/-- C6 witness: the precedence theorem at a concrete instance where all four
sources provide the declared key `k` — the CLI override wins. -/
theorem resolveVars_precedence_witness :
    lookupA (resolveVars (fun _ => none)
        (fun n => if n = "PIPE_VAR_K" then some "hostv" else none)
        [("k", "def")] [("k", "dotv")] [("k", "cliv")]).1
      (varEnvKey "k") =
      some
        (match [("k", "cliv")].find?
            (fun p => varEnvKey p.1 = varEnvKey "k") with
         | some p => p.2
         | none =>
           match (fun n => if n = "PIPE_VAR_K" then some "hostv" else none)
               (varEnvKey "k") with
           | some v => v
           | none =>
             match [("k", "dotv")].find?
                 (fun p => varEnvKey p.1 = varEnvKey "k") with
             | some p => p.2
             | none => renderVarValue (fun _ => none) "def") := by
  exact resolveVars_precedence (fun _ => none)
    (fun n => if n = "PIPE_VAR_K" then some "hostv" else none)
    [("k", "def")] [("k", "dotv")] [("k", "cliv")] "k" "def"
    (List.mem_singleton_self _) (by decide) (by decide) (by decide)

/-- C7 (counterexample): with the escape hatch `PIPE_EXPERIMENTAL_UNSAFE_VARS`
set, an *undeclared* key `FOO` introduced by the dot file (value `"a"`) is
overridden by the host environment's `PIPE_VAR_FOO="b"` in source (3): the
final resolved value is the host value `"b"`, so a host entry for an
undeclared key does enter the resolved map through source (3). -/
theorem c7_host_env_overrides_undeclared_cex :
    (resolveVars (fun _ => none)
      (fun k => if k = "PIPE_EXPERIMENTAL_UNSAFE_VARS" then some "1"
        else if k = "PIPE_VAR_FOO" then some "b" else none)
      [] [("FOO", "a")] []).1 = [("PIPE_VAR_FOO", "b")] := by
  decide

/-- C7 (amended): source (3) overrides exactly the names already present
after sources (1)–(2).  Without the escape hatch an undeclared name never
appears in the resolved map at all (so no host value enters for it); with the
escape hatch set, a dot-file-introduced undeclared name is subject to the
host-environment override of source (3), and an undeclared name absent from
the dot file and CLI still never appears. -/
theorem resolveVars_host_undeclared (tmpl host : String → Option String)
    (yamlVars dotFileVars cliOverrides : List (String × String))
    (N : String) (hv : String)
    (hundecl : ∀ p ∈ yamlVars, varEnvKey p.1 ≠ N) :
    (unsafeVarsOn host = false →
      lookupA (resolveVars tmpl host yamlVars dotFileVars cliOverrides).1 N =
        none) ∧
    (unsafeVarsOn host = true →
      (∀ p ∈ dotFileVars, varEnvKey p.1 ≠ N) →
      (∀ p ∈ cliOverrides, varEnvKey p.1 ≠ N) →
      lookupA (resolveVars tmpl host yamlVars dotFileVars cliOverrides).1 N =
        none) ∧
    (unsafeVarsOn host = true →
      (dotFileVars.map (fun p => varEnvKey p.1)).Nodup →
      (∃ p ∈ dotFileVars, varEnvKey p.1 = N) →
      (∀ p ∈ cliOverrides, varEnvKey p.1 ≠ N) →
      host N = some hv →
      lookupA (resolveVars tmpl host yamlVars dotFileVars cliOverrides).1 N =
        some hv) := by
  have hnotdecl : yamlVars.any (fun p => varEnvKey p.1 = N) = false := by
    rw [List.any_eq_false]
    intro p hp
    simp [hundecl p hp]
  have hdefaultN :
      lookupA (yamlVars.foldl
          (fun m p => setA m (varEnvKey p.1) (renderVarValue tmpl p.2)) []) N =
      none := by
    rw [lookup_defaults_fold]
    cases h : yamlVars.reverse.find? (fun p => varEnvKey p.1 = N) with
    | none => rfl
    | some q =>
      have hq := List.mem_reverse.mp (List.mem_of_find?_eq_some h)
      have hqp' := List.find?_some h
      exact absurd (of_decide_eq_true hqp') (hundecl q hq)
  refine ⟨?_, ?_, ?_⟩
  · intro hu
    unfold resolveVars
    simp [lookup_guarded_fold, lookup_host_map, hu, hnotdecl, hdefaultN]
  · intro hu hdot hcli
    unfold resolveVars
    have hfinddot : dotFileVars.reverse.find? (fun p => varEnvKey p.1 = N) =
        none := by
      rw [List.find?_eq_none]
      intro p hp
      simp [hdot p (List.mem_reverse.mp hp)]
    have hfindcli : cliOverrides.reverse.find? (fun p => varEnvKey p.1 = N) =
        none := by
      rw [List.find?_eq_none]
      intro p hp
      simp [hcli p (List.mem_reverse.mp hp)]
    simp [lookup_guarded_fold, lookup_host_map, hfinddot, hfindcli, hdefaultN]
  · intro hu hdnodup hex hcli hhost
    unfold resolveVars
    have hcond : (unsafeVarsOn host = true ∨
        yamlVars.any (fun p => varEnvKey p.1 = N) = true) := Or.inl hu
    have hfindcli : cliOverrides.reverse.find? (fun p => varEnvKey p.1 = N) =
        none := by
      rw [List.find?_eq_none]
      intro p hp
      simp [hcli p (List.mem_reverse.mp hp)]
    rw [lookup_guarded_fold, if_pos hcond, hfindcli, lookup_host_map,
      lookup_guarded_fold, if_pos hcond, find?_reverse_of_unique _ _ hdnodup]
    rcases hex with ⟨p, hp, hpN⟩
    cases h : dotFileVars.find? (fun q => varEnvKey q.1 = N) with
    | none =>
      rw [List.find?_eq_none] at h
      exact absurd (decide_eq_true hpN) (h p hp)
    | some q => simp [hhost]

/-- C7 witness: the amended theorem at concrete inputs — without the escape
hatch the undeclared name stays absent, and with the hatch a dot-file
-introduced undeclared name takes the host value. -/
theorem resolveVars_host_undeclared_witness :
    lookupA (resolveVars (fun _ => none)
        (fun k => if k = "PIPE_VAR_FOO" then some "b" else none)
        [] [("FOO", "a")] []).1 "PIPE_VAR_FOO" = none ∧
    lookupA (resolveVars (fun _ => none)
        (fun k => if k = "PIPE_EXPERIMENTAL_UNSAFE_VARS" then some "1"
          else if k = "PIPE_VAR_FOO" then some "b" else none)
        [] [("FOO", "a")] []).1 "PIPE_VAR_FOO" = some "b" := by
  constructor
  · exact (resolveVars_host_undeclared (fun _ => none)
      (fun k => if k = "PIPE_VAR_FOO" then some "b" else none)
      [] [("FOO", "a")] [] "PIPE_VAR_FOO" "b"
      (by intro p hp; cases hp)).1 rfl
  · exact ((resolveVars_host_undeclared (fun _ => none)
      (fun k => if k = "PIPE_EXPERIMENTAL_UNSAFE_VARS" then some "1"
        else if k = "PIPE_VAR_FOO" then some "b" else none)
      [] [("FOO", "a")] [] "PIPE_VAR_FOO" "b"
      (by intro p hp; cases hp)).2.2 rfl (by decide)
      ⟨("FOO", "a"), List.mem_singleton_self _, by decide⟩
      (by intro p hp; cases hp) rfl)

/-! ## C9 — dot-file value quoting and comment stripping -/

theorem dotKeyChar_not_space (c : Char) (h : dotKeyChar c = true) :
    isGoSpace c = false := by
  by_contra hs
  have hs' : isGoSpace c = true := by
    cases hval : isGoSpace c
    · exact absurd hval hs
    · rfl
  simp only [isGoSpace] at hs'
  rcases of_decide_eq_true hs' with h6 | h6 | h6 | h6 | h6 | h6 <;>
    (subst h6; exact absurd h (by decide))

theorem dotKeyChar_ne_eq (c : Char) (h : dotKeyChar c = true) : c ≠ '=' := by
  rintro rfl
  exact absurd h (by decide)

theorem dotKeyChar_ne_hash (c : Char) (h : dotKeyChar c = true) : c ≠ '#' := by
  rintro rfl
  exact absurd h (by decide)

theorem dropWhile_eq_self_of_head {α : Type} (p : α → Bool) (l : List α)
    (h : ∀ c, l.head? = some c → p c = false) : l.dropWhile p = l := by
  cases l with
  | nil => rfl
  | cons a l =>
    rw [List.dropWhile_cons, h a rfl]
    simp

theorem dropWhile_fix_head {α : Type} (p : α → Bool) (l : List α)
    (h : l.dropWhile p = l) : ∀ c, l.head? = some c → p c = false := by
  intro c hc
  cases l with
  | nil => cases hc
  | cons a l =>
    have hca : a = c := by
      simpa using hc
    subst hca
    by_contra hp
    have hp' : p a = true := by
      cases hval : p a
      · exact absurd hval hp
      · rfl
    rw [List.dropWhile_cons, if_pos hp'] at h
    have hlen := congrArg List.length h
    have hle := (List.dropWhile_sublist p (l := l)).length_le
    simp only [List.length_cons] at hlen
    omega

theorem validKey_chars (k : String) (hk : validDotFileKey k = true) :
    (¬ k.toList.isEmpty) ∧ ∀ c ∈ k.toList, dotKeyChar c = true := by
  simp only [validDotFileKey] at hk
  have h := of_decide_eq_true hk
  refine ⟨?_, ?_⟩
  · have := h.1
    simpa using this
  · intro c hc
    exact List.all_eq_true.mp h.2 c hc

theorem trimSpaceList_fix (l : List Char)
    (h1 : l.dropWhile isGoSpace = l)
    (h2 : l.reverse.dropWhile isGoSpace = l.reverse) :
    trimSpaceList l = l := by
  unfold trimSpaceList
  rw [h1, h2, List.reverse_reverse]

theorem key_line_take7_ne (l rest : List Char)
    (hall : ∀ c ∈ l, dotKeyChar c = true) :
    (l ++ '=' :: rest).take 7 ≠ "export ".toList := by
  intro heq
  by_cases hlen : l.length ≤ 6
  · have h1 : (l ++ '=' :: rest)[l.length]? = some '=' := by
      rw [List.getElem?_append_right (Nat.le_refl _)]
      simp
    have h2 : ((l ++ '=' :: rest).take 7)[l.length]? = some '=' := by
      rw [List.getElem?_take_of_lt (by omega)]
      exact h1
    rw [heq] at h2
    set n := l.length with hn
    interval_cases n <;> exact absurd h2 (by decide)
  · have h1 : (l ++ '=' :: rest)[6]? = l[6]? :=
      List.getElem?_append_left (by omega)
    have h2 : ((l ++ '=' :: rest).take 7)[6]? = some ' ' := by
      rw [heq]
      rfl
    rw [List.getElem?_take_of_lt (by omega), h1] at h2
    exact absurd (hall ' ' (List.getElem?_mem h2)) (by decide)

theorem stripExportKw_key_line (l rest : List Char)
    (hall : ∀ c ∈ l, dotKeyChar c = true) :
    stripExportKw (String.mk (l ++ '=' :: rest)) =
      String.mk (l ++ '=' :: rest) := by
  unfold stripExportKw
  rw [if_neg]
  exact key_line_take7_ne l rest hall

theorem findIdx?_key_line (l rest : List Char)
    (hall : ∀ c ∈ l, dotKeyChar c = true) (i : Nat) :
    (l ++ '=' :: rest).findIdx? (· = '=') i = some (i + l.length) := by
  induction l generalizing i with
  | nil => simp
  | cons c l ih =>
    have hc := dotKeyChar_ne_eq c (hall c (List.mem_cons_self c l))
    rw [List.cons_append, List.findIdx?_cons, if_neg (by simpa using hc),
      ih (fun d hd => hall d (List.mem_cons_of_mem c hd)) (i + 1)]
    congr 1
    simp only [List.length_cons]
    omega

theorem trimSpace_of_key (k : String) (hk : validDotFileKey k = true) :
    trimSpace k = k := by
  rcases validKey_chars k hk with ⟨-, hall⟩
  have h1 : k.toList.dropWhile isGoSpace = k.toList :=
    dropWhile_eq_self_of_head _ _ (fun c hc =>
      dotKeyChar_not_space c (hall c (by
        cases hl : k.toList with
        | nil => rw [hl] at hc; cases hc
        | cons a t =>
          rw [hl] at hc
          have hac : a = c := by simpa using hc
          rw [← hac]
          exact List.mem_cons_self a t)))
  have h2 : k.toList.reverse.dropWhile isGoSpace = k.toList.reverse :=
    dropWhile_eq_self_of_head _ _ (fun c hc =>
      dotKeyChar_not_space c (hall c (by
        have : c ∈ k.toList.reverse := by
          cases hl : k.toList.reverse with
          | nil => rw [hl] at hc; cases hc
          | cons a t =>
            rw [hl] at hc
            have hac : a = c := by simpa using hc
            rw [← hac]
            exact List.mem_cons_self a t
        exact List.mem_reverse.mp this)))
  show String.mk (trimSpaceList k.toList) = k
  rw [trimSpaceList_fix _ h1 h2]
  rfl

theorem trimSpace_key_line (k v : String) (hk : validDotFileKey k = true)
    (hv2 : v.toList.reverse.dropWhile isGoSpace = v.toList.reverse) :
    trimSpace (k ++ "=" ++ v) = k ++ "=" ++ v := by
  rcases validKey_chars k hk with ⟨hne, hall⟩
  have hlist : (k ++ "=" ++ v).toList = k.toList ++ '=' :: v.toList := by
    show (k.toList ++ ['=']) ++ v.toList = k.toList ++ '=' :: v.toList
    rw [List.append_assoc]
    rfl
  obtain ⟨c, kt, hkt⟩ : ∃ c kt, k.toList = c :: kt := by
    cases hl : k.toList with
    | nil => rw [hl] at hne; exact absurd rfl hne
    | cons a t => exact ⟨a, t, rfl⟩
  have h1 : ((k ++ "=" ++ v).toList).dropWhile isGoSpace =
      (k ++ "=" ++ v).toList := by
    rw [hlist, hkt]
    exact dropWhile_eq_self_of_head _ _ (fun d hd => by
      have hdc : c = d := by simpa using hd
      subst hdc
      exact dotKeyChar_not_space c (hall c (hkt ▸ List.mem_cons_self c kt)))
  have h2 : ((k ++ "=" ++ v).toList).reverse.dropWhile isGoSpace =
      ((k ++ "=" ++ v).toList).reverse := by
    rw [hlist]
    have hrev : (k.toList ++ '=' :: v.toList).reverse =
        v.toList.reverse ++ '=' :: k.toList.reverse := by
      rw [List.reverse_append, List.reverse_cons, List.append_assoc]
      rfl
    rw [hrev, List.dropWhile_append]
    cases hvl : v.toList.reverse with
    | nil =>
      simp only [List.dropWhile_nil, List.isEmpty_nil, if_pos]
      rw [dropWhile_eq_self_of_head _ _ (fun d hd => by
        have heqd : '=' = d := by simpa using hd
        subst heqd
        decide)]
      rfl
    | cons d t =>
      have hfix : (d :: t).dropWhile isGoSpace = d :: t := by
        rw [← hvl, hv2, hvl]
      have hd : isGoSpace d = false :=
        dropWhile_fix_head _ _ hfix d rfl
      rw [List.dropWhile_cons, hd]
      simp
  show String.mk (trimSpaceList (k ++ "=" ++ v).toList) = k ++ "=" ++ v
  rw [trimSpaceList_fix _ h1 h2]
  rfl

theorem trimSpace_of_trimmed (v : String)
    (hv1 : v.toList.dropWhile isGoSpace = v.toList)
    (hv2 : v.toList.reverse.dropWhile isGoSpace = v.toList.reverse) :
    trimSpace v = v := by
  show String.mk (trimSpaceList v.toList) = v
  rw [trimSpaceList_fix _ hv1 hv2]
  rfl

/-- C9: for a dot-file line `KEY=VALUE` with a valid key (`VALUE` given in
its whitespace-trimmed form): the parsed value is `unquoteDotValue VALUE`,
which (a) strips a matching pair of surrounding double or single quotes and
keeps the enclosed text verbatim — any `#` inside survives — and
(b) otherwise cuts the value at the first `#` (trimming the whitespace left
before the comment) or keeps it unchanged when no `#` occurs. -/
theorem parseDotFile_value_semantics (k v : String)
    (hk : validDotFileKey k = true)
    (hv1 : v.toList.dropWhile isGoSpace = v.toList)
    (hv2 : v.toList.reverse.dropWhile isGoSpace = v.toList.reverse) :
    lookupA (parseDotFile [k ++ "=" ++ v]).1 k = some (unquoteDotValue v) ∧
    (2 ≤ v.toList.length →
      ((v.toList.head? = some '"' ∧ v.toList.getLast? = some '"') ∨
        (v.toList.head? = some '\'' ∧ v.toList.getLast? = some '\'')) →
      unquoteDotValue v = String.mk ((v.toList.drop 1).dropLast)) ∧
    (¬ (2 ≤ v.toList.length ∧
        ((v.toList.head? = some '"' ∧ v.toList.getLast? = some '"') ∨
          (v.toList.head? = some '\'' ∧ v.toList.getLast? = some '\''))) →
      (∀ i, v.toList.findIdx? (· = '#') = some i →
        unquoteDotValue v = trimSpace (String.mk (v.toList.take i))) ∧
      (v.toList.findIdx? (· = '#') = none → unquoteDotValue v = v)) := by
  rcases validKey_chars k hk with ⟨hne, hall⟩
  obtain ⟨c, kt, hkt⟩ : ∃ c kt, k.toList = c :: kt := by
    cases hl : k.toList with
    | nil => rw [hl] at hne; exact absurd rfl hne
    | cons a t => exact ⟨a, t, rfl⟩
  refine ⟨?_, ?_, ?_⟩
  · show lookupA (parseDotLine ([], []) (k ++ "=" ++ v)).1 k =
      some (unquoteDotValue v)
    unfold parseDotLine
    dsimp only
    rw [trimSpace_key_line k v hk hv2]
    have hlist : (k ++ "=" ++ v).toList = k.toList ++ '=' :: v.toList := by
      show (k.toList ++ ['=']) ++ v.toList = k.toList ++ '=' :: v.toList
      rw [List.append_assoc]
      rfl
    have hnotskip : ¬ ((k ++ "=" ++ v).toList.isEmpty = true ∨
        (k ++ "=" ++ v).toList.head? = some '#') := by
      rw [hlist, hkt]
      rintro (h | h)
      · simp at h
      · have : c = '#' := by simpa using h
        exact absurd this
          (dotKeyChar_ne_hash c (hall c (hkt ▸ List.mem_cons_self c kt)))
    rw [if_neg hnotskip]
    have hstrip : stripExportKw (k ++ "=" ++ v) = k ++ "=" ++ v := by
      have hmk : (k ++ "=" ++ v) = String.mk (k.toList ++ '=' :: v.toList) := by
        rw [← hlist]
        rfl
      rw [hmk, stripExportKw_key_line k.toList v.toList hall]
    rw [hstrip]
    have hfind : (k ++ "=" ++ v).toList.findIdx? (· = '=') =
        some k.toList.length := by
      rw [hlist]
      have := findIdx?_key_line k.toList v.toList hall 0
      simpa using this
    rw [hfind]
    have htake : (k ++ "=" ++ v).toList.take k.toList.length = k.toList := by
      rw [hlist]
      exact List.take_left k.toList ('=' :: v.toList)
    have hdrop : (k ++ "=" ++ v).toList.drop (k.toList.length + 1) =
        v.toList := by
      rw [hlist]
      have : k.toList ++ '=' :: v.toList = (k.toList ++ ['=']) ++ v.toList := by
        simp
      rw [this]
      exact List.drop_left' (by simp)
    dsimp only
    rw [htake, hdrop]
    have hkey : trimSpace (String.mk k.toList) = k := trimSpace_of_key k hk
    rw [hkey]
    have hval : trimSpace (String.mk v.toList) = v :=
      trimSpace_of_trimmed v hv1 hv2
    rw [hval, if_neg (by rw [hk]; intro h; exact h rfl)]
    show lookupA (setA [] k (unquoteDotValue v)) k = some (unquoteDotValue v)
    rw [lookupA_setA, if_pos rfl]
  · intro hlen hpair
    unfold unquoteDotValue
    rw [if_pos hlen, if_pos hpair]
  · intro hnot
    constructor
    · intro i hi
      unfold unquoteDotValue
      have hbody : stripInlineComment v = trimSpace (String.mk (v.toList.take i)) := by
        unfold stripInlineComment
        rw [hi]
      by_cases hlen : 2 ≤ v.toList.length
      · rw [if_pos hlen, if_neg (fun hp => hnot ⟨hlen, hp⟩)]
        exact hbody
      · rw [if_neg hlen]
        exact hbody
    · intro hi
      unfold unquoteDotValue
      have hbody : stripInlineComment v = v := by
        unfold stripInlineComment
        rw [hi]
      by_cases hlen : 2 ≤ v.toList.length
      · rw [if_pos hlen, if_neg (fun hp => hnot ⟨hlen, hp⟩)]
        exact hbody
      · rw [if_neg hlen]
        exact hbody

/-- C9 witness: the theorem applied to the three concrete lines
`K="a # b"`, `K2=hello # comment` and `K3=plain`. -/
theorem parseDotFile_value_semantics_witness :
    lookupA (parseDotFile ["K=\"a # b\""]).1 "K" =
      some (unquoteDotValue "\"a # b\"") ∧
    unquoteDotValue "\"a # b\"" = "a # b" ∧
    lookupA (parseDotFile ["K2=hello # comment"]).1 "K2" =
      some (unquoteDotValue "hello # comment") ∧
    unquoteDotValue "hello # comment" = "hello" ∧
    lookupA (parseDotFile ["K3=plain"]).1 "K3" =
      some (unquoteDotValue "plain") ∧
    unquoteDotValue "plain" = "plain" := by
  refine ⟨?_, by decide, ?_, by decide, ?_, ?_⟩
  · exact (parseDotFile_value_semantics "K" "\"a # b\"" (by decide) (by decide)
      (by decide)).1
  · exact (parseDotFile_value_semantics "K2" "hello # comment" (by decide)
      (by decide) (by decide)).1
  · exact (parseDotFile_value_semantics "K3" "plain" (by decide) (by decide)
      (by decide)).1
  · exact ((parseDotFile_value_semantics "K3" "plain" (by decide) (by decide)
      (by decide)).2.2 (by decide)).2 (by decide)

/-! ## C5 / C8 — DAG builder: edge bookkeeping -/

theorem edgeInv_init (ids : List String) :
    EdgeInv ids ⟨[], fun _ => [], fun _ => [], fun _ => 0⟩ := by
  refine ⟨?_, ?_, ?_, ?_, ?_, ?_, ?_⟩ <;> simp

theorem addEdge_inv (ids : List String) (st : BuildSt) (f0 t0 : String)
    (hinv : EdgeInv ids st) (hinj : EdgeKeyInj ids)
    (hf0 : f0 ∈ ids) (ht0 : t0 ∈ ids) :
    EdgeInv ids (addEdge st f0 t0) ∧
    (∀ f t, f ∈ (addEdge st f0 t0).deps t ↔
      f ∈ st.deps t ∨ (f = f0 ∧ t = t0)) := by
  unfold addEdge
  by_cases hk : edgeKeyStr f0 t0 ∈ st.edgeSet
  · rw [if_pos hk]
    refine ⟨hinv, fun f t => ?_⟩
    constructor
    · exact Or.inl
    · rintro (h | ⟨rfl, rfl⟩)
      · exact h
      · exact (hinv.key_mem f hf0 t ht0).mp hk
  · rw [if_neg hk]
    have hnf : f0 ∉ st.deps t0 := fun h =>
      hk ((hinv.key_mem f0 hf0 t0 ht0).mpr h)
    refine ⟨⟨?_, ?_, ?_, ?_, ?_, ?_, ?_⟩, ?_⟩
    · intro f hf t ht
      dsimp only
      rw [List.mem_cons]
      by_cases hft : f = f0 ∧ t = t0
      · rcases hft with ⟨rfl, rfl⟩
        rw [if_pos rfl]
        simp
      · have hkey : edgeKeyStr f t ≠ edgeKeyStr f0 t0 := by
          intro h
          exact hft (hinj f hf t ht f0 hf0 t0 ht0 h)
        constructor
        · rintro (h | h)
          · exact absurd h hkey
          · have := (hinv.key_mem f hf t ht).mp h
            by_cases htt : t = t0
            · subst htt
              rw [if_pos rfl, List.mem_append]
              exact Or.inl this
            · rw [if_neg htt]
              exact this
        · intro h
          right
          apply (hinv.key_mem f hf t ht).mpr
          by_cases htt : t = t0
          · subst htt
            rw [if_pos rfl, List.mem_append] at h
            rcases h with h | h
            · exact h
            · have : f = f0 := by simpa using h
              exact absurd ⟨this, rfl⟩ hft
          · rw [if_neg htt] at h
            exact h
    · intro x hx
      dsimp only at hx
      rcases List.mem_cons.mp hx with h | h
      · exact ⟨f0, t0, hf0, ht0, h⟩
      · exact hinv.keys_dom x h
    · intro t f hf
      dsimp only at hf
      by_cases htt : t = t0
      · subst htt
        rw [if_pos rfl, List.mem_append] at hf
        rcases hf with h | h
        · exact hinv.dep_dom _ _ h
        · have : f = f0 := by simpa using h
          exact ⟨this ▸ hf0, ht0⟩
      · rw [if_neg htt] at hf
        exact hinv.dep_dom _ _ hf
    · intro f t
      dsimp only
      by_cases htt : t = t0 <;> by_cases hff : f = f0
      · subst htt hff
        rw [if_pos rfl, if_pos rfl, List.mem_append, List.mem_append]
        simp [hinv.dep_dpt f t]
      · subst htt
        rw [if_pos rfl, if_neg hff, List.mem_append]
        have hne : ¬ (f ∈ ([f0] : List String)) := by simpa using hff
        rw [hinv.dep_dpt f t]
        constructor
        · rintro (h | h)
          · exact h
          · exact absurd h hne
        · exact Or.inl
      · subst hff
        rw [if_neg htt, if_pos rfl, List.mem_append]
        have hne : ¬ (t ∈ ([t0] : List String)) := by simpa using htt
        rw [hinv.dep_dpt f t]
        constructor
        · exact Or.inl
        · rintro (h | h)
          · exact h
          · exact absurd h hne
      · rw [if_neg htt, if_neg hff]
        exact hinv.dep_dpt f t
    · intro t
      dsimp only
      by_cases htt : t = t0
      · subst htt
        rw [if_pos rfl]
        exact List.Nodup.append (hinv.dep_nodup t) (List.nodup_singleton f0)
          (by
            intro a ha hb
            have : a = f0 := by simpa using hb
            subst this
            exact hnf ha)
      · rw [if_neg htt]
        exact hinv.dep_nodup t
    · intro f
      dsimp only
      by_cases hff : f = f0
      · subst hff
        rw [if_pos rfl]
        refine List.Nodup.append (hinv.dpt_nodup f) (List.nodup_singleton t0) ?_
        intro a ha hb
        have hat : a = t0 := by simpa using hb
        subst hat
        exact hnf ((hinv.dep_dpt f a).mpr ha)
      · rw [if_neg hff]
        exact hinv.dpt_nodup f
    · intro t
      dsimp only
      by_cases htt : t = t0
      · subst htt
        rw [if_pos rfl, if_pos rfl, List.length_append]
        rw [hinv.indeg_len t]
        simp
      · rw [if_neg htt, if_neg htt]
        exact hinv.indeg_len t
    · intro f t
      dsimp only
      by_cases htt : t = t0
      · subst htt
        rw [if_pos rfl, List.mem_append]
        constructor
        · rintro (h | h)
          · exact Or.inl h
          · have : f = f0 := by simpa using h
            exact Or.inr ⟨this, rfl⟩
        · rintro (h | ⟨rfl, -⟩)
          · exact Or.inl h
          · simp
      · rw [if_neg htt]
        constructor
        · exact Or.inl
        · rintro (h | ⟨rfl, rfl⟩)
          · exact h
          · exact absurd rfl htt

theorem subRunsFold_mem (ids : List String) (sid : String) (hs : sid ∈ ids)
    (l : List SubRun) :
    ∀ (m1 : String → Option String), (∀ r p, m1 r = some p → p ∈ ids) →
    ∀ r p, (l.foldl
        (fun m2 sr => fun k => if k = envKey [sid, sr.id] then some sid else m2 k)
        m1) r = some p → p ∈ ids := by
  induction l with
  | nil => intro m1 hm1; exact hm1
  | cons sr rest ih =>
    intro m1 hm1
    rw [List.foldl_cons]
    apply ih
    intro r p h
    split at h
    · cases h
      exact hs
    · exact hm1 r p h

theorem envToStepStep_mem (ids : List String) (s : Step) (hs : s.id ∈ ids)
    (m : String → Option String) (hm : ∀ r p, m r = some p → p ∈ ids) :
    ∀ r p, envToStepStep m s r = some p → p ∈ ids := by
  intro r p
  unfold envToStepStep
  have base : ∀ r p, (fun k => if k = envKey [s.id] then some s.id else m k) r
      = some p → p ∈ ids := by
    intro r p h
    dsimp only at h
    split at h
    · cases h
      exact hs
    · exact hm r p h
  split
  · exact fun h => subRunsFold_mem ids s.id hs s.run.subRuns _ base r p h
  · exact fun h => base r p h

theorem envToStep_mem (steps : List Step) :
    ∀ r p, envToStep steps r = some p → p ∈ steps.map (·.id) := by
  have main : ∀ (l : List Step), (∀ s ∈ l, s.id ∈ steps.map (·.id)) →
      ∀ (m : String → Option String),
      (∀ r p, m r = some p → p ∈ steps.map (·.id)) →
      ∀ r p, (l.foldl envToStepStep m) r = some p → p ∈ steps.map (·.id) := by
    intro l
    induction l with
    | nil => intro _ m hm; exact hm
    | cons s rest ih =>
      intro hsub m hm
      rw [List.foldl_cons]
      exact ih (fun t ht => hsub t (List.mem_cons_of_mem s ht)) _
        (envToStepStep_mem _ s (hsub s (List.mem_cons_self s rest)) m hm)
  exact main steps (fun s hs => List.mem_map_of_mem _ hs) _ (fun r p h => by cases h)

theorem implicitFold_inv (ids : List String) (e2s : String → Option String)
    (s : Step) (hinj : EdgeKeyInj ids) (hsid : s.id ∈ ids)
    (he2s : ∀ r p, e2s r = some p → p ∈ ids) (l : List String) :
    ∀ st : BuildSt, EdgeInv ids st →
    EdgeInv ids (l.foldl
      (fun st ref =>
        match e2s ref with
        | some producer =>
          if producer ≠ s.id then addEdge st producer s.id else st
        | none => st) st) ∧
    (∀ f t, f ∈ (l.foldl
      (fun st ref =>
        match e2s ref with
        | some producer =>
          if producer ≠ s.id then addEdge st producer s.id else st
        | none => st) st).deps t ↔
      f ∈ st.deps t ∨ (t = s.id ∧ f ≠ s.id ∧ ∃ r ∈ l, e2s r = some f)) := by
  induction l with
  | nil =>
    intro st hinv
    exact ⟨hinv, fun f t => by simp⟩
  | cons r l ih =>
    intro st hinv
    rw [List.foldl_cons]
    cases hr : e2s r with
    | none =>
      dsimp only
      rcases ih st hinv with ⟨h1, h2⟩
      refine ⟨h1, fun f t => ?_⟩
      rw [h2 f t]
      constructor
      · rintro (h | ⟨ht, hf, rr, hrr, hre⟩)
        · exact Or.inl h
        · exact Or.inr ⟨ht, hf, rr, List.mem_cons_of_mem r hrr, hre⟩
      · rintro (h | ⟨ht, hf, rr, hrr, hre⟩)
        · exact Or.inl h
        · rcases List.mem_cons.mp hrr with hcase | hcase
          · rw [hcase, hr] at hre
            cases hre
          · exact Or.inr ⟨ht, hf, rr, hcase, hre⟩
    | some p =>
      dsimp only
      by_cases hp : p ≠ s.id
      · rw [if_pos hp]
        have hpids : p ∈ ids := he2s r p hr
        rcases addEdge_inv ids st p s.id hinv hinj hpids hsid with ⟨hinv1, hiff1⟩
        rcases ih (addEdge st p s.id) hinv1 with ⟨h1, h2⟩
        refine ⟨h1, fun f t => ?_⟩
        rw [h2 f t, hiff1 f t]
        constructor
        · rintro ((h | ⟨rfl, rfl⟩) | ⟨ht, hf, rr, hrr, hre⟩)
          · exact Or.inl h
          · exact Or.inr ⟨rfl, hp, r, List.mem_cons_self r l, hr⟩
          · exact Or.inr ⟨ht, hf, rr, List.mem_cons_of_mem r hrr, hre⟩
        · rintro (h | ⟨ht, hf, rr, hrr, hre⟩)
          · exact Or.inl (Or.inl h)
          · rcases List.mem_cons.mp hrr with hcase | hcase
            · rw [hcase, hr] at hre
              cases hre
              exact Or.inl (Or.inr ⟨rfl, ht⟩)
            · exact Or.inr ⟨ht, hf, rr, hcase, hre⟩
      · rw [if_neg hp]
        rcases ih st hinv with ⟨h1, h2⟩
        refine ⟨h1, fun f t => ?_⟩
        rw [h2 f t]
        constructor
        · rintro (h | ⟨ht, hf, rr, hrr, hre⟩)
          · exact Or.inl h
          · exact Or.inr ⟨ht, hf, rr, List.mem_cons_of_mem r hrr, hre⟩
        · rintro (h | ⟨ht, hf, rr, hrr, hre⟩)
          · exact Or.inl h
          · rcases List.mem_cons.mp hrr with hcase | hcase
            · rw [hcase, hr] at hre
              cases hre
              simp at hp
              exact absurd hp hf
            · exact Or.inr ⟨ht, hf, rr, hcase, hre⟩

theorem addImplicitDeps_inv (ids : List String) (e2s : String → Option String)
    (s : Step) (hinj : EdgeKeyInj ids) (hsid : s.id ∈ ids)
    (he2s : ∀ r p, e2s r = some p → p ∈ ids) (st : BuildSt)
    (hinv : EdgeInv ids st) :
    EdgeInv ids (addImplicitDeps e2s s st) ∧
    (∀ f t, f ∈ (addImplicitDeps e2s s st).deps t ↔
      f ∈ st.deps t ∨
        (t = s.id ∧ f ≠ s.id ∧ ∃ r ∈ findPipeRefs s, e2s r = some f)) :=
  implicitFold_inv ids e2s s hinj hsid he2s (findPipeRefs s) st hinv

theorem explicitFold_ok (ids : List String) (s : Step) (hinj : EdgeKeyInj ids)
    (hsid : s.id ∈ ids) (l : List String) (hself : s.id ∉ l) :
    ∀ (st : BuildSt) (ws : List String), EdgeInv ids st →
    ∃ st2 ws2,
      l.foldlM (addExplicitDep ids s) (st, ws) = Except.ok (st2, ws2) ∧
      EdgeInv ids st2 ∧
      (∀ f t, f ∈ st2.deps t ↔
        f ∈ st.deps t ∨ (t = s.id ∧ f ∈ l ∧ f ∈ ids)) ∧
      ws2 = ws ++ (l.filter (fun d => ¬ ids.contains d)).map
        (fun d => "step " ++ quoteGo s.id ++ ": unknown dependency " ++
          quoteGo d ++ " (ignored)") := by
  induction l with
  | nil =>
    intro st ws hinv
    exact ⟨st, ws, rfl, hinv, fun f t => by simp, by simp⟩
  | cons d l ih =>
    intro st ws hinv
    have hd_ne : d ≠ s.id := fun h => hself (h ▸ List.mem_cons_self d l)
    have hself2 : s.id ∉ l := fun h => hself (List.mem_cons_of_mem d h)
    rw [List.foldlM_cons]
    by_cases hdi : ids.contains d
    · have hdids : d ∈ ids := List.elem_iff.mp hdi
      have hhead : addExplicitDep ids s (st, ws) d =
          Except.ok (addEdge st d s.id, ws) := by
        unfold addExplicitDep
        rw [if_neg hd_ne, if_pos hdi]
      rw [hhead]
      rcases addEdge_inv ids st d s.id hinv hinj hdids hsid with ⟨hinv1, hiff1⟩
      rcases ih hself2 (addEdge st d s.id) ws hinv1 with ⟨st2, ws2, hfold, hinv2, hiff2, hws2⟩
      refine ⟨st2, ws2, hfold, hinv2, ?_, ?_⟩
      · intro f t
        rw [hiff2 f t, hiff1 f t]
        constructor
        · rintro ((h | ⟨hfd, hts⟩) | ⟨ht, hf, hfi⟩)
          · exact Or.inl h
          · exact Or.inr ⟨hts, hfd ▸ List.mem_cons_self d l, hfd ▸ hdids⟩
          · exact Or.inr ⟨ht, List.mem_cons_of_mem d hf, hfi⟩
        · rintro (h | ⟨ht, hf, hfi⟩)
          · exact Or.inl (Or.inl h)
          · rcases List.mem_cons.mp hf with hcase | hcase
            · exact Or.inl (Or.inr ⟨hcase, ht⟩)
            · exact Or.inr ⟨ht, hcase, hfi⟩
      · rw [hws2, List.filter_cons, if_neg (by simpa using hdi)]
    · have hhead : addExplicitDep ids s (st, ws) d =
          Except.ok (st, ws ++ ["step " ++ quoteGo s.id ++
            ": unknown dependency " ++ quoteGo d ++ " (ignored)"]) := by
        unfold addExplicitDep
        rw [if_neg hd_ne, if_neg hdi]
      rw [hhead]
      rcases ih hself2 st (ws ++ ["step " ++ quoteGo s.id ++ ": unknown dependency " ++
        quoteGo d ++ " (ignored)"]) hinv with ⟨st2, ws2, hfold, hinv2, hiff2, hws2⟩
      refine ⟨st2, ws2, hfold, hinv2, ?_, ?_⟩
      · intro f t
        rw [hiff2 f t]
        constructor
        · rintro (h | ⟨ht, hf, hfi⟩)
          · exact Or.inl h
          · exact Or.inr ⟨ht, List.mem_cons_of_mem d hf, hfi⟩
        · rintro (h | ⟨ht, hf, hfi⟩)
          · exact Or.inl h
          · rcases List.mem_cons.mp hf with hcase | hcase
            · exfalso
              rw [hcase] at hfi
              exact hdi (List.elem_iff.mpr hfi)
            · exact Or.inr ⟨ht, hcase, hfi⟩
      · rw [hws2, List.filter_cons, if_pos (by simpa using hdi), List.map_cons,
          List.append_assoc]
        rfl

theorem buildFold_ok (steps : List Step)
    (hinj : EdgeKeyInj (steps.map (·.id))) :
    ∀ (l : List Step), (∀ s ∈ l, s.id ∈ steps.map (·.id)) →
    (∀ s ∈ l, s.id ∉ s.dependsOn) →
    ∀ (st : BuildSt) (ws : List String), EdgeInv (steps.map (·.id)) st →
    ∃ st2 ws2,
      l.foldlM
        (fun acc s => do
          let acc1 ← s.dependsOn.foldlM
            (addExplicitDep (steps.map (·.id)) s) acc
          pure (addImplicitDeps (envToStep steps) s acc1.1, acc1.2))
        (st, ws) = Except.ok (st2, ws2) ∧
      EdgeInv (steps.map (·.id)) st2 ∧
      (∀ f t, f ∈ st2.deps t ↔ f ∈ st.deps t ∨ ∃ s ∈ l, t = s.id ∧
        ((f ∈ s.dependsOn ∧ f ∈ steps.map (·.id)) ∨
         (f ≠ s.id ∧ ∃ r ∈ findPipeRefs s, envToStep steps r = some f))) ∧
      ws2 = ws ++ (l.map (fun s =>
        (s.dependsOn.filter (fun d => ¬ (steps.map (·.id)).contains d)).map
          (fun d => "step " ++ quoteGo s.id ++ ": unknown dependency " ++
            quoteGo d ++ " (ignored)"))).flatten := by
  intro l
  induction l with
  | nil =>
    intro _ _ st ws hinv
    exact ⟨st, ws, rfl, hinv, fun f t => by simp, by simp⟩
  | cons s l ih =>
    intro hsub hself st ws hinv
    have hsid : s.id ∈ steps.map (·.id) := hsub s (List.mem_cons_self s l)
    have hsde : s.id ∉ s.dependsOn := hself s (List.mem_cons_self s l)
    rcases explicitFold_ok (steps.map (·.id)) s hinj hsid s.dependsOn hsde st ws
      hinv with ⟨st1, ws1, hf1, hinv1, hiff1, hws1⟩
    rcases addImplicitDeps_inv (steps.map (·.id)) (envToStep steps) s hinj hsid
      (envToStep_mem steps) st1 hinv1 with ⟨hinv1b, hiff1b⟩
    rcases ih (fun t ht => hsub t (List.mem_cons_of_mem s ht))
      (fun t ht => hself t (List.mem_cons_of_mem s ht))
      (addImplicitDeps (envToStep steps) s st1) ws1 hinv1b with
      ⟨st2, ws2, hf2, hinv2, hiff2, hws2⟩
    refine ⟨st2, ws2, ?_, hinv2, ?_, ?_⟩
    · rw [List.foldlM_cons]
      rw [hf1]
      exact hf2
    · intro f t
      rw [hiff2 f t, hiff1b f t, hiff1 f t]
      constructor
      · rintro (((h0 | ⟨ht, hfm, hfi⟩) | ⟨ht, hne, hr⟩) | ⟨s2, hs2, hrest⟩)
        · exact Or.inl h0
        · exact Or.inr ⟨s, List.mem_cons_self s l, ht, Or.inl ⟨hfm, hfi⟩⟩
        · exact Or.inr ⟨s, List.mem_cons_self s l, ht, Or.inr ⟨hne, hr⟩⟩
        · exact Or.inr ⟨s2, List.mem_cons_of_mem s hs2, hrest⟩
      · rintro (h0 | ⟨s2, hs2, ht, hcase⟩)
        · exact Or.inl (Or.inl (Or.inl h0))
        · rcases List.mem_cons.mp hs2 with hs2e | hs2m
          · subst hs2e
            rcases hcase with ⟨hfm, hfi⟩ | ⟨hne, hr⟩
            · exact Or.inl (Or.inl (Or.inr ⟨ht, hfm, hfi⟩))
            · exact Or.inl (Or.inr ⟨ht, hne, hr⟩)
          · exact Or.inr ⟨s2, hs2m, ht, hcase⟩
    · rw [hws2, hws1, List.map_cons, List.flatten_cons, List.append_assoc]

theorem buildRaw_ok (steps : List Step)
    (hinj : EdgeKeyInj (steps.map (·.id)))
    (hself : ∀ s ∈ steps, s.id ∉ s.dependsOn) :
    ∃ st, buildRaw steps = Except.ok (st, unknownDepWarnings steps) ∧
      EdgeInv (steps.map (·.id)) st ∧
      (∀ f t, f ∈ st.deps t ↔ ∃ s ∈ steps, t = s.id ∧
        ((f ∈ s.dependsOn ∧ f ∈ steps.map (·.id)) ∨
         (f ≠ s.id ∧ ∃ r ∈ findPipeRefs s, envToStep steps r = some f))) := by
  rcases buildFold_ok steps hinj steps (fun s hs => List.mem_map_of_mem _ hs)
    hself ⟨[], fun _ => [], fun _ => [], fun _ => 0⟩ [] (edgeInv_init _) with
    ⟨st2, ws2, hfold, hinv2, hiff2, hws2⟩
  have hws : ws2 = unknownDepWarnings steps := by
    rw [hws2, List.nil_append]
    rfl
  refine ⟨st2, hws ▸ hfold, hinv2, ?_⟩
  intro f t
  rw [hiff2 f t]
  constructor
  · rintro (h | h)
    · exact absurd h (List.not_mem_nil f)
    · exact h
  · exact Or.inr

/-- C5: for every self-dependency-free pipeline whose `from -> to` dedup keys
are injective on its step ids, the edge-collection phase of `Build` succeeds,
and a dependency edge `P → S` exists exactly when `S` declares `P` in
`depends_on` (and `P` is a known step id) or some `$PIPE_X`/`$\x7bPIPE_X\x7d`
token of a shell command of `S` resolves through the env-name map to the
producing step `P ≠ S`; tokens resolving to no producer add no edge, every
deps list is duplicate-free, and the warning list consists exactly of the
unknown-`depends_on` warnings (so unresolved tokens add no warning). -/
theorem build_implicit_edges (steps : List Step)
    (hinj : EdgeKeyInj (steps.map (·.id)))
    (hself : ∀ s ∈ steps, s.id ∉ s.dependsOn) :
    ∃ st ws, buildRaw steps = Except.ok (st, ws) ∧
      (∀ f t, f ∈ st.deps t ↔ ∃ s ∈ steps, t = s.id ∧
        ((f ∈ s.dependsOn ∧ f ∈ steps.map (·.id)) ∨
         (f ≠ s.id ∧ ∃ r ∈ findPipeRefs s, envToStep steps r = some f))) ∧
      (∀ t, (st.deps t).Nodup) ∧
      ws = unknownDepWarnings steps := by
  rcases buildRaw_ok steps hinj hself with ⟨st, hraw, hinv, hiff⟩
  exact ⟨st, unknownDepWarnings steps, hraw, hiff, hinv.dep_nodup, rfl⟩

/-- C5 witness: the hypotheses hold for the two concrete scenario-A steps,
and the characterisation applies to them. -/
theorem build_implicit_edges_witness :
    EdgeKeyInj ([exGetVersion, exBuild].map (·.id)) ∧
    (∀ s ∈ [exGetVersion, exBuild], s.id ∉ s.dependsOn) ∧
    (∃ st ws, buildRaw [exGetVersion, exBuild] = Except.ok (st, ws) ∧
      (∀ f t, f ∈ st.deps t ↔ ∃ s ∈ [exGetVersion, exBuild], t = s.id ∧
        ((f ∈ s.dependsOn ∧ f ∈ [exGetVersion, exBuild].map (·.id)) ∨
         (f ≠ s.id ∧ ∃ r ∈ findPipeRefs s,
            envToStep [exGetVersion, exBuild] r = some f))) ∧
      (∀ t, (st.deps t).Nodup) ∧
      ws = unknownDepWarnings [exGetVersion, exBuild]) :=
  ⟨by unfold EdgeKeyInj; decide, by decide,
    build_implicit_edges [exGetVersion, exBuild]
      (by unfold EdgeKeyInj; decide) (by decide)⟩

/-! ## C8 — cycle detection -/

theorem kahnVisit_inv (order : List String) (dependents : String → List String)
    (P : List String) (dep : String) (hdep : dep ∈ order)
    (iD : String → Int) (q : List String)
    (h : KahnInv order dependents ⟨iD, q, P⟩) :
    KahnInv order dependents
      ⟨fun k => if k = dep then iD dep - 1 else iD k,
        if iD dep - 1 = 0 then q ++ [dep] else q, P⟩ := by
  by_cases hc : iD dep - 1 = 0
  · have hd1 : iD dep = 1 := by omega
    have hdq : dep ∉ q := fun hm => by
      have hx : iD dep ≤ 0 := h.queue_nonpos dep hm
      omega
    have hdp : dep ∉ P := fun hm => by
      have hx : iD dep ≤ 0 := h.proc_nonpos dep hm
      omega
    rw [if_pos hc]
    refine ⟨?_, h.proc_sub, ?_, h.proc_nodup, ?_, ?_, ?_, ?_⟩
    · intro v hv
      rcases List.mem_append.mp hv with hm | hm
      · exact h.queue_sub v hm
      · rw [List.mem_singleton] at hm
        exact hm ▸ hdep
    · exact h.queue_nodup.append (List.nodup_singleton dep)
        (fun a ha hb => by
          rw [List.mem_singleton] at hb
          exact hdq (hb ▸ ha))
    · intro v hv
      rcases List.mem_append.mp hv with hm | hm
      · exact h.disj v hm
      · rw [List.mem_singleton] at hm
        exact hm ▸ hdp
    · intro v hv
      show (if v = dep then iD dep - 1 else iD v) ≤ 0
      rcases List.mem_append.mp hv with hm | hm
      · by_cases hvd : v = dep
        · rw [if_pos hvd]; omega
        · rw [if_neg hvd]; exact h.queue_nonpos v hm
      · rw [List.mem_singleton] at hm
        rw [if_pos hm]; omega
    · intro v hv
      show (if v = dep then iD dep - 1 else iD v) ≤ 0
      by_cases hvd : v = dep
      · rw [if_pos hvd]
        have hx : iD v ≤ 0 := h.proc_nonpos v hv
        rw [hvd] at hx
        omega
      · rw [if_neg hvd]; exact h.proc_nonpos v hv
    · intro v hv hle
      by_cases hvd : v = dep
      · exact Or.inl (List.mem_append_right q (hvd ▸ List.mem_singleton_self dep))
      · replace hle : (if v = dep then iD dep - 1 else iD v) ≤ 0 := hle
        rw [if_neg hvd] at hle
        rcases h.covered v hv hle with hm | hm
        · exact Or.inl (List.mem_append_left _ hm)
        · exact Or.inr hm
  · rw [if_neg hc]
    refine ⟨h.queue_sub, h.proc_sub, h.queue_nodup, h.proc_nodup, h.disj,
      ?_, ?_, ?_⟩
    · intro v hv
      show (if v = dep then iD dep - 1 else iD v) ≤ 0
      by_cases hvd : v = dep
      · rw [if_pos hvd]
        have hx : iD v ≤ 0 := h.queue_nonpos v hv
        rw [hvd] at hx
        omega
      · rw [if_neg hvd]; exact h.queue_nonpos v hv
    · intro v hv
      show (if v = dep then iD dep - 1 else iD v) ≤ 0
      by_cases hvd : v = dep
      · rw [if_pos hvd]
        have hx : iD v ≤ 0 := h.proc_nonpos v hv
        rw [hvd] at hx
        omega
      · rw [if_neg hvd]; exact h.proc_nonpos v hv
    · intro v hv hle
      replace hle : (if v = dep then iD dep - 1 else iD v) ≤ 0 := hle
      by_cases hvd : v = dep
      · rw [if_pos hvd] at hle
        have hle2 : iD v ≤ 0 := by rw [hvd]; omega
        exact h.covered v hv hle2
      · rw [if_neg hvd] at hle
        exact h.covered v hv hle

theorem kahnFold_inv (order : List String) (dependents : String → List String)
    (P : List String) :
    ∀ (ds : List String), (∀ d ∈ ds, d ∈ order) →
    ∀ (acc : (String → Int) × List String),
    KahnInv order dependents ⟨acc.1, acc.2, P⟩ →
    KahnInv order dependents
      ⟨(ds.foldl
          (fun (acc : (String → Int) × List String) dep =>
            let d := acc.1 dep - 1
            (fun k => if k = dep then d else acc.1 k,
              if d = 0 then acc.2 ++ [dep] else acc.2))
          acc).1,
        (ds.foldl
          (fun (acc : (String → Int) × List String) dep =>
            let d := acc.1 dep - 1
            (fun k => if k = dep then d else acc.1 k,
              if d = 0 then acc.2 ++ [dep] else acc.2))
          acc).2, P⟩ := by
  intro ds
  induction ds with
  | nil => exact fun _ acc h => h
  | cons dep ds ih =>
    intro hds acc hacc
    rw [List.foldl_cons]
    exact ih (fun d hd => hds d (List.mem_cons_of_mem dep hd)) _
      (kahnVisit_inv order dependents P dep (hds dep (List.mem_cons_self dep ds))
        acc.1 acc.2 hacc)

theorem kahnStep_inv (order : List String) (dependents : String → List String)
    (hdom : ∀ u, ∀ v ∈ dependents u, v ∈ order)
    (iD : String → Int) (curr : String) (rest P : List String)
    (hinv : KahnInv order dependents ⟨iD, curr :: rest, P⟩) :
    KahnInv order dependents (kahnStep dependents ⟨iD, curr :: rest, P⟩) ∧
    (kahnStep dependents ⟨iD, curr :: rest, P⟩).processed = P ++ [curr] := by
  have hmid : KahnInv order dependents ⟨iD, rest, P ++ [curr]⟩ := by
    refine ⟨?_, ?_, ?_, ?_, ?_, ?_, ?_, ?_⟩
    · exact fun v hv => hinv.queue_sub v (List.mem_cons_of_mem curr hv)
    · intro v hv
      rcases List.mem_append.mp hv with hm | hm
      · exact hinv.proc_sub v hm
      · rw [List.mem_singleton] at hm
        exact hm ▸ hinv.queue_sub curr (List.mem_cons_self curr rest)
    · exact (List.nodup_cons.mp hinv.queue_nodup).2
    · exact hinv.proc_nodup.append (List.nodup_singleton curr)
        (fun a ha hb => by
          rw [List.mem_singleton] at hb
          exact hinv.disj curr (List.mem_cons_self curr rest) (hb ▸ ha))
    · intro v hv hvp
      rcases List.mem_append.mp hvp with hm | hm
      · exact hinv.disj v (List.mem_cons_of_mem curr hv) hm
      · rw [List.mem_singleton] at hm
        exact (List.nodup_cons.mp hinv.queue_nodup).1 (hm ▸ hv)
    · exact fun v hv => hinv.queue_nonpos v (List.mem_cons_of_mem curr hv)
    · intro v hv
      rcases List.mem_append.mp hv with hm | hm
      · exact hinv.proc_nonpos v hm
      · rw [List.mem_singleton] at hm
        exact hm ▸ hinv.queue_nonpos curr (List.mem_cons_self curr rest)
    · intro v hv hle
      rcases hinv.covered v hv hle with hm | hm
      · rcases List.mem_cons.mp hm with hm2 | hm2
        · exact Or.inr (List.mem_append_right P
            (hm2 ▸ List.mem_singleton_self curr))
        · exact Or.inl hm2
      · exact Or.inr (List.mem_append_left _ hm)
  exact ⟨kahnFold_inv order dependents (P ++ [curr]) (dependents curr)
    (hdom curr) (iD, rest) hmid, rfl⟩

theorem kahnInv_proc_len (order : List String)
    (dependents : String → List String) (st : KahnSt)
    (h : KahnInv order dependents st) :
    st.processed.length ≤ order.length := by
  have h1 : st.processed.length = st.processed.toFinset.card :=
    (List.toFinset_card_of_nodup h.proc_nodup).symm
  have h2 : st.processed.toFinset ⊆ order.toFinset := by
    intro x hx
    rw [List.mem_toFinset] at hx ⊢
    exact h.proc_sub x hx
  have h3 := Finset.card_le_card h2
  have h4 := List.toFinset_card_le order
  omega

theorem kahnLoop_inv (order : List String) (dependents : String → List String)
    (hdom : ∀ u, ∀ v ∈ dependents u, v ∈ order) :
    ∀ (fuel : Nat) (st : KahnSt), KahnInv order dependents st →
    order.length + 1 ≤ st.processed.length + fuel →
    (kahnLoop dependents fuel st).queue = [] ∧
    KahnInv order dependents (kahnLoop dependents fuel st) := by
  intro fuel
  induction fuel with
  | zero =>
    intro st hinv hfu
    have := kahnInv_proc_len order dependents st hinv
    omega
  | succ fuel ih =>
    intro st hinv hfu
    obtain ⟨iD, q, P⟩ := st
    cases q with
    | nil => exact ⟨rfl, hinv⟩
    | cons curr rest =>
      rcases kahnStep_inv order dependents hdom iD curr rest P hinv with
        ⟨hsi, hsp⟩
      have hlen : (kahnStep dependents ⟨iD, curr :: rest, P⟩).processed.length
          = P.length + 1 := by
        rw [hsp]
        simp
      have hrec := ih (kahnStep dependents ⟨iD, curr :: rest, P⟩) hsi (by
        rw [hlen]
        simp only [KahnSt.processed] at hfu
        omega)
      exact hrec

theorem kahnInit_inv (order : List String)
    (dependents : String → List String) (inDeg : String → Int)
    (hord : order.Nodup) (hnn : ∀ v, 0 ≤ inDeg v) :
    KahnInv order dependents
      ⟨inDeg, order.filter (fun id => inDeg id = 0), []⟩ := by
  refine ⟨?_, ?_, ?_, ?_, ?_, ?_, ?_, ?_⟩
  · exact fun v hv => (List.mem_filter.mp hv).1
  · exact fun v hv => absurd hv (List.not_mem_nil v)
  · exact hord.filter _
  · exact List.nodup_nil
  · exact fun v _ hv => absurd hv (List.not_mem_nil v)
  · intro v hv
    have h2 := (List.mem_filter.mp hv).2
    have h3 : inDeg v = 0 := by simpa using h2
    show inDeg v ≤ 0
    omega
  · exact fun v hv => absurd hv (List.not_mem_nil v)
  · intro v hv hle
    refine Or.inl (List.mem_filter.mpr ⟨hv, ?_⟩)
    have h0 := hnn v
    have hle2 : inDeg v ≤ 0 := hle
    have h1 : inDeg v = 0 := le_antisymm hle2 h0
    simpa using h1

theorem kahnRun_inv (order : List String)
    (dependents : String → List String) (inDeg : String → Int)
    (hord : order.Nodup) (hnn : ∀ v, 0 ≤ inDeg v)
    (hdom : ∀ u, ∀ v ∈ dependents u, v ∈ order) :
    (kahnRun order dependents inDeg).queue = [] ∧
    KahnInv order dependents (kahnRun order dependents inDeg) := by
  unfold kahnRun
  exact kahnLoop_inv order dependents hdom (order.length + 1)
    ⟨inDeg, order.filter (fun id => inDeg id = 0), []⟩
    (kahnInit_inv order dependents inDeg hord hnn)
    (by simp)

theorem detectCycle_spec (order : List String)
    (dependents : String → List String) (inDeg : String → Int)
    (hord : order.Nodup) (hnn : ∀ v, 0 ≤ inDeg v)
    (hdom : ∀ u, ∀ v ∈ dependents u, v ∈ order) :
    ((∃ v ∈ order, 0 < (kahnRun order dependents inDeg).inDeg v) →
      detectCycle order dependents inDeg = Except.error
        ("dependency cycle detected among steps: " ++ String.intercalate ", "
          (order.filter
            (fun id => (kahnRun order dependents inDeg).inDeg id > 0)))) ∧
    ((∀ v ∈ order, (kahnRun order dependents inDeg).inDeg v ≤ 0) →
      detectCycle order dependents inDeg = Except.ok ()) := by
  rcases kahnRun_inv order dependents inDeg hord hnn hdom with ⟨hqe, hinv⟩
  constructor
  · rintro ⟨v, hv, hpos⟩
    have hvp : v ∉ (kahnRun order dependents inDeg).processed := fun hm => by
      have := hinv.proc_nonpos v hm
      omega
    have hlt : (kahnRun order dependents inDeg).processed.length
        < order.length := by
      have h1 : (kahnRun order dependents inDeg).processed.length
          = (kahnRun order dependents inDeg).processed.toFinset.card :=
        (List.toFinset_card_of_nodup hinv.proc_nodup).symm
      have h2 : (kahnRun order dependents inDeg).processed.toFinset
          ⊆ order.toFinset.erase v := by
        intro x hx
        rw [List.mem_toFinset] at hx
        rw [Finset.mem_erase]
        exact ⟨fun he => hvp (he ▸ hx), List.mem_toFinset.mpr (hinv.proc_sub x hx)⟩
      have h3 := Finset.card_le_card h2
      have h4 : (order.toFinset.erase v).card < order.toFinset.card :=
        Finset.card_erase_lt_of_mem (List.mem_toFinset.mpr hv)
      have h5 := List.toFinset_card_le order
      omega
    unfold detectCycle
    rw [if_pos hlt]
  · intro hall
    have hsub : ∀ v ∈ order, v ∈ (kahnRun order dependents inDeg).processed := by
      intro v hv
      rcases hinv.covered v hv (hall v hv) with hm | hm
      · rw [hqe] at hm
        exact absurd hm (List.not_mem_nil v)
      · exact hm
    have hge : ¬ (kahnRun order dependents inDeg).processed.length
        < order.length := by
      have h1 : order.length = order.toFinset.card :=
        (List.toFinset_card_of_nodup hord).symm
      have h2 : order.toFinset
          ⊆ (kahnRun order dependents inDeg).processed.toFinset := by
        intro x hx
        rw [List.mem_toFinset] at hx ⊢
        exact hsub x hx
      have h3 := Finset.card_le_card h2
      have h4 := List.toFinset_card_le (kahnRun order dependents inDeg).processed
      omega
    unfold detectCycle
    rw [if_neg hge]

theorem buildGraph_eq_raw (steps : List Step) (st : BuildSt) (ws : List String)
    (hraw : buildRaw steps = Except.ok (st, ws)) :
    buildGraph steps =
      (detectCycle (steps.map (·.id)) st.dependents st.inDeg) >>= (fun _ =>
        Except.ok { deps := st.deps, dependents := st.dependents,
                    inDegree := st.inDeg, order := steps.map (·.id),
                    warningList := ws }) := by
  unfold buildGraph
  rw [hraw]
  rfl

/-- C8: for every pipeline with duplicate-free, self-dependency-free step ids
(with injective `from -> to` keys), the edge-collection phase succeeds — an
unknown `depends_on` reference is only a warning — and `Build` then fails
exactly when the Kahn peeling of `detectCycle` leaves some step with positive
in-degree, the error message listing precisely the steps still carrying
positive in-degree; otherwise `Build` returns the graph carrying the
unknown-dependency warnings. -/
theorem buildGraph_cycle_error (steps : List Step)
    (hord : (steps.map (·.id)).Nodup)
    (hinj : EdgeKeyInj (steps.map (·.id)))
    (hself : ∀ s ∈ steps, s.id ∉ s.dependsOn) :
    ∃ st, buildRaw steps = Except.ok (st, unknownDepWarnings steps) ∧
      ((∃ v ∈ steps.map (·.id),
          0 < (kahnRun (steps.map (·.id)) st.dependents st.inDeg).inDeg v) →
        buildGraph steps = Except.error
          ("dependency cycle detected among steps: " ++
            String.intercalate ", " ((steps.map (·.id)).filter (fun id =>
              (kahnRun (steps.map (·.id)) st.dependents st.inDeg).inDeg id
                > 0)))) ∧
      ((∀ v ∈ steps.map (·.id),
          (kahnRun (steps.map (·.id)) st.dependents st.inDeg).inDeg v ≤ 0) →
        ∃ g, buildGraph steps = Except.ok g ∧
          g.warningList = unknownDepWarnings steps) := by
  rcases buildRaw_ok steps hinj hself with ⟨st, hraw, hinv, _⟩
  have hnn : ∀ v, 0 ≤ st.inDeg v := by
    intro v
    rw [hinv.indeg_len v]
    exact Int.natCast_nonneg _
  have hdom : ∀ u, ∀ v ∈ st.dependents u, v ∈ steps.map (·.id) := by
    intro u v hv
    have hd : u ∈ st.deps v := (hinv.dep_dpt u v).mpr hv
    exact (hinv.dep_dom v u hd).2
  rcases detectCycle_spec (steps.map (·.id)) st.dependents st.inDeg hord hnn
    hdom with ⟨herr, hok⟩
  refine ⟨st, hraw, ?_, ?_⟩
  · intro hex
    rw [buildGraph_eq_raw steps st (unknownDepWarnings steps) hraw,
      herr hex]
    rfl
  · intro hall
    refine ⟨{ deps := st.deps, dependents := st.dependents,
              inDegree := st.inDeg, order := steps.map (·.id),
              warningList := unknownDepWarnings steps }, ?_, rfl⟩
    rw [buildGraph_eq_raw steps st (unknownDepWarnings steps) hraw, hok hall]
    rfl

/-- C8 witness: the concrete cyclic pipeline `a ↔ b` with independent `c` and
unknown reference `zz`: the hypotheses hold, the theorem applies, and `Build`
concretely reports the cycle naming exactly `a` and `b`. -/
theorem buildGraph_cycle_error_witness :
    ([exCycA, exCycB, exCycC].map (·.id)).Nodup ∧
    EdgeKeyInj ([exCycA, exCycB, exCycC].map (·.id)) ∧
    (∀ s ∈ [exCycA, exCycB, exCycC], s.id ∉ s.dependsOn) ∧
    (∃ st, buildRaw [exCycA, exCycB, exCycC] =
        Except.ok (st, unknownDepWarnings [exCycA, exCycB, exCycC]) ∧
      ((∃ v ∈ [exCycA, exCycB, exCycC].map (·.id),
          0 < (kahnRun ([exCycA, exCycB, exCycC].map (·.id)) st.dependents
            st.inDeg).inDeg v) →
        buildGraph [exCycA, exCycB, exCycC] = Except.error
          ("dependency cycle detected among steps: " ++
            String.intercalate ", "
              (([exCycA, exCycB, exCycC].map (·.id)).filter (fun id =>
                (kahnRun ([exCycA, exCycB, exCycC].map (·.id)) st.dependents
                  st.inDeg).inDeg id > 0)))) ∧
      ((∀ v ∈ [exCycA, exCycB, exCycC].map (·.id),
          (kahnRun ([exCycA, exCycB, exCycC].map (·.id)) st.dependents
            st.inDeg).inDeg v ≤ 0) →
        ∃ g, buildGraph [exCycA, exCycB, exCycC] = Except.ok g ∧
          g.warningList = unknownDepWarnings [exCycA, exCycB, exCycC])) ∧
    buildGraph [exCycA, exCycB, exCycC] =
      Except.error "dependency cycle detected among steps: a, b" :=
  ⟨by decide, by unfold EdgeKeyInj; decide, by decide,
    buildGraph_cycle_error [exCycA, exCycB, exCycC]
      (by decide) (by unfold EdgeKeyInj; decide) (by decide),
    by rfl⟩

/-! ## C1 — cascade failure of transitive dependents -/

theorem length_filter_switch {p q : String → Bool} (c : String)
    (hc : q c = true) (hpc : p c = false)
    (hne : ∀ u, u ≠ c → q u = p u) :
    ∀ l : List String, l.Nodup →
    (l.filter q).length = (l.filter p).length + (if c ∈ l then 1 else 0) := by
  intro l
  induction l with
  | nil => simp
  | cons x xs ih =>
    intro hnd
    rcases List.nodup_cons.mp hnd with ⟨hx, hxs⟩
    by_cases hxc : x = c
    · subst hxc
      rw [List.filter_cons_of_pos hc, List.filter_cons_of_neg (by simp [hpc])]
      have hfx : xs.filter q = xs.filter p :=
        List.filter_congr (fun a ha => hne a (fun h => hx (h ▸ ha)))
      rw [hfx, if_pos (List.mem_cons_self x xs)]
      simp only [List.length_cons]
    · have hq : q x = p x := hne x hxc
      have hif : (if c ∈ x :: xs then 1 else 0) = (if c ∈ xs then 1 else 0) := by
        by_cases hcm : c ∈ xs
        · rw [if_pos hcm, if_pos (List.mem_cons_of_mem x hcm)]
        · rw [if_neg hcm, if_neg (fun h => by
            rcases List.mem_cons.mp h with h1 | h1
            · exact hxc h1.symm
            · exact hcm h1)]
      cases hpx : p x
      · rw [List.filter_cons_of_neg (by rw [hq, hpx]; simp),
          List.filter_cons_of_neg (by rw [hpx]; simp), ih hxs, hif]
      · rw [List.filter_cons_of_pos (by rw [hq, hpx]),
          List.filter_cons_of_pos hpx]
        simp only [List.length_cons]
        rw [ih hxs, hif]
        omega

theorem append_singleton_eq {α : Type} (l1 l2 P : List α) (v c : α)
    (h : l1 ++ v :: l2 = P ++ [c]) :
    (l1 = P ∧ v = c ∧ l2 = []) ∨
    (∃ l2a, l2 = l2a ++ [c] ∧ P = l1 ++ v :: l2a) := by
  rcases List.eq_nil_or_concat l2 with h2 | ⟨l2a, a, h2⟩
  · subst h2
    rcases List.append_inj' h rfl with ⟨hP, hv⟩
    exact Or.inl ⟨hP, by simpa using hv, rfl⟩
  · subst h2
    rw [List.concat_eq_append] at h
    have h' : (l1 ++ v :: l2a) ++ [a] = P ++ [c] := by
      rw [List.append_assoc]
      exact h
    rcases List.append_inj' h' rfl with ⟨hP, ha⟩
    have hac : a = c := by simpa using ha
    exact Or.inr ⟨l2a, by rw [List.concat_eq_append, hac], hP.symm⟩

theorem toList_slash (a b : String) :
    (a ++ "/" ++ b).toList = a.toList ++ '/' :: b.toList := by
  show (a.toList ++ ['/']) ++ b.toList = a.toList ++ '/' :: b.toList
  rw [List.append_assoc]
  rfl

theorem slash_split_unique (x : List Char) (sx : ¬ '/' ∈ x) :
    ∀ (y : List Char), ¬ '/' ∈ y →
    ∀ s t : List Char, x ++ '/' :: s = y ++ '/' :: t → x = y := by
  induction x with
  | nil =>
    intro y sy s t h
    cases y with
    | nil => rfl
    | cons d ys =>
      injection h with h1 _
      exact absurd (h1 ▸ List.mem_cons_self d ys) sy
  | cons c xs ih =>
    intro y sy s t h
    cases y with
    | nil =>
      injection h with h1 _
      exact absurd (h1 ▸ List.mem_cons_self c xs) sx
    | cons d ys =>
      injection h with h1 h2
      rw [h1, ih (fun hm => sx (List.mem_cons_of_mem c hm)) ys
        (fun hm => sy (List.mem_cons_of_mem d hm)) s t h2]

theorem ownsRow_disj (u v : String) (huv : u ≠ v)
    (hu : ¬ '/' ∈ u.toList) (hv2 : ¬ '/' ∈ v.toList) (r : String)
    (h : ownsRow u r) : ¬ ownsRow v r := by
  rintro (rfl | ⟨t2, rfl⟩)
  · rcases h with h | ⟨t, h⟩
    · exact huv h.symm
    · have := congrArg String.toList h
      rw [toList_slash] at this
      exact hv2 (this ▸ List.mem_append_right _ (List.mem_cons_self _ _))
  · rcases h with h | ⟨t, h⟩
    · have := congrArg String.toList h
      rw [toList_slash] at this
      exact hu (this ▸ List.mem_append_right _ (List.mem_cons_self _ _))
    · have heq := congrArg String.toList h
      rw [toList_slash, toList_slash] at heq
      have := slash_split_unique v.toList hv2 u.toList hu t2.toList t.toList
        heq
      exact huv (String.ext this.symm)

theorem reaches_snoc (d : String → List String) (u w v : String)
    (h : Reaches d u w) (he : v ∈ d w) : Reaches d u v := by
  revert he
  induction h with
  | edge hm => exact fun he => Reaches.tail hm (Reaches.edge he)
  | tail hm _ ih => exact fun he => Reaches.tail hm (ih he)

theorem reaches_last (d : String → List String) (u v : String)
    (h : Reaches d u v) : ∃ w, v ∈ d w ∧ (w = u ∨ Reaches d u w) := by
  induction h with
  | edge hm => exact ⟨_, hm, Or.inl rfl⟩
  | tail hm _ ih =>
    rcases ih with ⟨x, hx, hxw⟩
    refine ⟨x, hx, Or.inr ?_⟩
    rcases hxw with rfl | hxr
    · exact Reaches.edge hm
    · exact Reaches.tail hm hxr

theorem kahnFold_inDeg : ∀ (ds : List String), ds.Nodup →
    ∀ (acc : (String → Int) × List String) (v : String),
    (ds.foldl
      (fun (acc : (String → Int) × List String) dep =>
        let d := acc.1 dep - 1
        (fun k => if k = dep then d else acc.1 k,
          if d = 0 then acc.2 ++ [dep] else acc.2)) acc).1 v =
      if v ∈ ds then acc.1 v - 1 else acc.1 v := by
  intro ds
  induction ds with
  | nil => intro _ acc v; simp
  | cons dep ds ih =>
    intro hnd acc v
    rcases List.nodup_cons.mp hnd with ⟨hd, hds⟩
    rw [List.foldl_cons, ih hds]
    by_cases hv : v ∈ ds
    · rw [if_pos hv, if_pos (List.mem_cons_of_mem dep hv)]
      have hvd : v ≠ dep := fun h => hd (h ▸ hv)
      show (if v = dep then acc.1 dep - 1 else acc.1 v) - 1 = acc.1 v - 1
      rw [if_neg hvd]
    · rw [if_neg hv]
      by_cases hvd : v = dep
      · rw [if_pos (by rw [hvd]; exact List.mem_cons_self dep ds)]
        show (if v = dep then acc.1 dep - 1 else acc.1 v) = acc.1 v - 1
        rw [if_pos hvd, hvd]
      · rw [if_neg (by
          intro h
          rcases List.mem_cons.mp h with h | h
          · exact hvd h
          · exact hv h)]
        show (if v = dep then acc.1 dep - 1 else acc.1 v) = acc.1 v
        rw [if_neg hvd]

theorem kahnStep_topo (order : List String)
    (deps dependents : String → List String)
    (hdd : ∀ u v, u ∈ deps v ↔ v ∈ dependents u)
    (hdn : ∀ v, (deps v).Nodup)
    (hdptn : ∀ u, (dependents u).Nodup)
    (hdom : ∀ v u, u ∈ deps v → u ∈ order ∧ v ∈ order)
    (iD : String → Int) (curr : String) (rest P : List String)
    (hinv : KahnTopo order deps dependents ⟨iD, curr :: rest, P⟩) :
    KahnTopo order deps dependents
      (kahnStep dependents ⟨iD, curr :: rest, P⟩) := by
  have hdomdpt : ∀ u, ∀ v ∈ dependents u, v ∈ order := fun u v hv =>
    (hdom v u ((hdd u v).mpr hv)).2
  rcases kahnStep_inv order dependents hdomdpt iD curr rest P hinv.base with
    ⟨hbase, hproc⟩
  have hcur_o : curr ∈ order :=
    hinv.base.queue_sub curr (List.mem_cons_self curr rest)
  have hcur_np : curr ∉ P :=
    hinv.base.disj curr (List.mem_cons_self curr rest)
  have h0 : iD curr ≤ 0 :=
    hinv.base.queue_nonpos curr (List.mem_cons_self curr rest)
  have hcnt : iD curr = ((deps curr).length : Int) -
      (((deps curr).filter (fun u => u ∈ P)).length : Int) := hinv.cnt curr hcur_o
  have hle := List.length_filter_le (fun u => decide (u ∈ P)) (deps curr)
  have hflen : ((deps curr).filter (fun u => u ∈ P)).length
      = (deps curr).length := by omega
  have hsubP : ∀ u ∈ deps curr, u ∈ P := by
    have hsl : (deps curr).filter (fun u => u ∈ P) = deps curr :=
      (List.filter_sublist _).eq_of_length hflen
    intro u hu
    have hmem : u ∈ (deps curr).filter (fun u => u ∈ P) := by
      rw [hsl]
      exact hu
    simpa using (List.mem_filter.mp hmem).2
  have hID : (kahnStep dependents ⟨iD, curr :: rest, P⟩).inDeg =
      ((dependents curr).foldl
        (fun (acc : (String → Int) × List String) dep =>
          let d := acc.1 dep - 1
          (fun k => if k = dep then d else acc.1 k,
            if d = 0 then acc.2 ++ [dep] else acc.2)) (iD, rest)).1 := rfl
  refine ⟨hbase, ?_, ?_⟩
  · intro v hv
    rw [hID, kahnFold_inDeg (dependents curr) (hdptn curr) (iD, rest) v, hproc]
    have hcount := length_filter_switch curr
      (decide_eq_true (List.mem_append_right P (List.mem_singleton_self curr)))
      (decide_eq_false hcur_np)
      (fun u hu => (decide_eq_decide).mpr (by
        rw [List.mem_append, List.mem_singleton]
        exact ⟨fun h => h.elim id (fun h2 => absurd h2 hu), Or.inl⟩))
      (deps v) (hdn v)
    have hold : iD v = ((deps v).length : Int) -
        (((deps v).filter (fun u => u ∈ P)).length : Int) := hinv.cnt v hv
    by_cases hvd : v ∈ dependents curr
    · rw [if_pos hvd]
      have hcd : curr ∈ deps v := (hdd curr v).mpr hvd
      rw [if_pos hcd] at hcount
      show iD v - 1 = _
      omega
    · rw [if_neg hvd]
      have hcd : curr ∉ deps v := fun h => hvd ((hdd curr v).mp h)
      rw [if_neg hcd] at hcount
      show iD v = _
      omega
  · intro l1 v l2 hpr u hu
    rw [hproc] at hpr
    rcases append_singleton_eq l1 l2 P v curr hpr.symm with
      ⟨hl1, hvc, _⟩ | ⟨l2a, _, hP2⟩
    · subst hl1
      subst hvc
      exact hsubP u hu
    · exact hinv.topo l1 v l2a hP2 u hu

theorem kahnLoop_topo (order : List String)
    (deps dependents : String → List String)
    (hdd : ∀ u v, u ∈ deps v ↔ v ∈ dependents u)
    (hdn : ∀ v, (deps v).Nodup)
    (hdptn : ∀ u, (dependents u).Nodup)
    (hdom : ∀ v u, u ∈ deps v → u ∈ order ∧ v ∈ order) :
    ∀ (fuel : Nat) (st : KahnSt), KahnTopo order deps dependents st →
    KahnTopo order deps dependents (kahnLoop dependents fuel st) := by
  intro fuel
  induction fuel with
  | zero => exact fun st h => h
  | succ fuel ih =>
    intro st h
    obtain ⟨iD, q, P⟩ := st
    cases q with
    | nil => exact h
    | cons curr rest =>
      exact ih _ (kahnStep_topo order deps dependents hdd hdn hdptn hdom
        iD curr rest P h)

theorem kahn_topo_final (order : List String)
    (deps dependents : String → List String) (inDeg : String → Int)
    (hord : order.Nodup)
    (hdd : ∀ u v, u ∈ deps v ↔ v ∈ dependents u)
    (hdn : ∀ v, (deps v).Nodup)
    (hdptn : ∀ u, (dependents u).Nodup)
    (hdom : ∀ v u, u ∈ deps v → u ∈ order ∧ v ∈ order)
    (hnn : ∀ v, 0 ≤ inDeg v)
    (hinit : ∀ v ∈ order, inDeg v = ((deps v).length : Int))
    (hok : detectCycle order dependents inDeg = Except.ok ()) :
    (∀ v ∈ order, v ∈ (kahnRun order dependents inDeg).processed) ∧
    (∀ l1 v l2, (kahnRun order dependents inDeg).processed = l1 ++ v :: l2 →
      ∀ u ∈ deps v, u ∈ l1) := by
  have hinitinv : KahnTopo order deps dependents
      ⟨inDeg, order.filter (fun id => inDeg id = 0), []⟩ := by
    refine ⟨kahnInit_inv order dependents inDeg hord hnn, ?_, ?_⟩
    · intro v hv
      show inDeg v = _
      rw [hinit v hv]
      simp
    · intro l1 v l2 h
      cases l1 <;> simp at h
  have htopo : KahnTopo order deps dependents
      (kahnRun order dependents inDeg) := by
    unfold kahnRun
    exact kahnLoop_topo order deps dependents hdd hdn hdptn hdom
      (order.length + 1) _ hinitinv
  have hnlt : ¬ (kahnRun order dependents inDeg).processed.length
      < order.length := by
    intro hlt
    unfold detectCycle at hok
    rw [if_pos hlt] at hok
    cases hok
  refine ⟨?_, htopo.topo⟩
  have h1 : (kahnRun order dependents inDeg).processed.toFinset.card
      = (kahnRun order dependents inDeg).processed.length :=
    List.toFinset_card_of_nodup htopo.base.proc_nodup
  have h2 : (kahnRun order dependents inDeg).processed.toFinset
      ⊆ order.toFinset := by
    intro x hx
    rw [List.mem_toFinset] at hx ⊢
    exact htopo.base.proc_sub x hx
  have h3 : order.toFinset.card = order.length :=
    List.toFinset_card_of_nodup hord
  have h4 : order.toFinset = (kahnRun order dependents inDeg).processed.toFinset :=
    (Finset.eq_of_subset_of_card_le h2 (by omega)).symm
  intro v hv
  have : v ∈ (kahnRun order dependents inDeg).processed.toFinset := by
    rw [← h4, List.mem_toFinset]
    exact hv
  rwa [List.mem_toFinset] at this

theorem strAppend_assoc (a b c : String) : a ++ b ++ c = a ++ (b ++ c) := by
  apply String.ext
  show (a.toList ++ b.toList) ++ c.toList = a.toList ++ (b.toList ++ c.toList)
  rw [List.append_assoc]

theorem saveCache_other (step : Step) (entry : CacheEntry) (now : Nat)
    (store : String → Option CacheEntry) (k : String)
    (hk : k ≠ entry.stepId) :
    (saveCache step entry now store).1 k = store k := by
  unfold saveCache
  split
  · rfl
  · split
    · rfl
    · split <;> simp [hk]

theorem setSS_steps_ne (st : RunnerSt) (id : String) (ss : StepState)
    (k : String) (hk : k ≠ id) : (setSS st id ss).steps k = st.steps k := by
  unfold setSS
  simp [hk]

theorem runSingle_verdict (step : Step) (ok : Oracle) (now : Nat)
    (rs : RunnerSt) :
    (runSingle step ok now rs).2 =
      (retryRun (fun i => (ok step.id i).exit = 0) (step.retry + 1)).2 := by
  unfold runSingle
  cases hres : (retryRun (fun i => (ok step.id i).exit = 0) (step.retry + 1)).2 <;>
    simp [hres]

theorem runSingle_steps_ne (step : Step) (ok : Oracle) (now : Nat)
    (rs : RunnerSt) (k : String) (hk : k ≠ step.id) :
    (runSingle step ok now rs).1.steps k = rs.steps k := by
  unfold runSingle
  cases hres : (retryRun (fun i => (ok step.id i).exit = 0) (step.retry + 1)).2 <;>
    simp [hres, setSS, setEnvR, hk]

theorem runSingle_cache_ne (step : Step) (ok : Oracle) (now : Nat)
    (rs : RunnerSt) (k : String) (hk : k ≠ step.id) :
    (runSingle step ok now rs).1.cacheStore k = rs.cacheStore k := by
  unfold runSingle
  cases hres : (retryRun (fun i => (ok step.id i).exit = 0) (step.retry + 1)).2
  · simp [hres, setSS]
  · simp [hres, setSS, setEnvR]
    exact saveCache_other step _ now rs.cacheStore k hk

theorem runSingle_rows (step : Step) (ok : Oracle) (now : Nat)
    (rs : RunnerSt) :
    ∃ rows, (runSingle step ok now rs).1.trace = rs.trace ++ rows ∧
      rows ≠ [] ∧ ∀ p ∈ rows, ownsRow step.id p.1 := by
  refine ⟨(List.range
      (retryRun (fun i => (ok step.id i).exit = 0) (step.retry + 1)).1).map
        (fun i => (step.id, i)), runSingle_trace step ok now rs, ?_, ?_⟩
  · have hpos := retryRun_attempts_pos (fun i => (ok step.id i).exit = 0)
      step.retry
    intro h
    have h2 := congrArg List.length h
    simp at h2
    omega
  · intro p hp
    rcases List.mem_map.mp hp with ⟨i, _, rfl⟩
    exact Or.inl rfl

theorem runSingle_status (step : Step) (ok : Oracle) (now : Nat)
    (rs : RunnerSt) :
    ((runSingle step ok now rs).2 = true →
      (getSS (runSingle step ok now rs).1 step.id).status = "done") ∧
    ((runSingle step ok now rs).2 = false →
      (getSS (runSingle step ok now rs).1 step.id).status = "failed") := by
  constructor
  · intro h
    rw [runSingle_verdict] at h
    unfold runSingle getSS
    simp only [h]
    simp [setSS, setEnvR]
  · intro h
    rw [runSingle_verdict] at h
    unfold runSingle getSS
    simp only [h]
    simp [setSS]

theorem runParallelStrings_verdict (step : Step) (ok : Oracle) (now : Nat)
    (rs : RunnerSt) :
    (runParallelStrings step ok now rs).2 =
      (¬ (List.range step.run.strs.length).any
        (fun i => (ok (step.id ++ "/run_" ++ toString i) 0).exit ≠ 0) :
          Bool) := by
  unfold runParallelStrings
  cases hany : (List.range step.run.strs.length).any
      (fun i => (ok (step.id ++ "/run_" ++ toString i) 0).exit ≠ 0) <;>
    simp only [hany] <;> simp

theorem runParallelStrings_steps_ne (step : Step) (ok : Oracle) (now : Nat)
    (rs : RunnerSt) (k : String) (hk : k ≠ step.id) :
    (runParallelStrings step ok now rs).1.steps k = rs.steps k := by
  unfold runParallelStrings
  cases hany : (List.range step.run.strs.length).any
      (fun i => (ok (step.id ++ "/run_" ++ toString i) 0).exit ≠ 0) <;>
    simp only [hany] <;> simp [setSS, hk]

theorem runParallelStrings_cache_ne (step : Step) (ok : Oracle) (now : Nat)
    (rs : RunnerSt) (k : String) (hk : k ≠ step.id) :
    (runParallelStrings step ok now rs).1.cacheStore k = rs.cacheStore k := by
  unfold runParallelStrings
  cases hany : (List.range step.run.strs.length).any
      (fun i => (ok (step.id ++ "/run_" ++ toString i) 0).exit ≠ 0)
  · simp only [hany]
    simp [setSS]
    exact saveCache_other step _ now rs.cacheStore k hk
  · simp only [hany]
    simp [setSS]

theorem runParallelStrings_rows (step : Step) (ok : Oracle) (now : Nat)
    (rs : RunnerSt) (hne : step.run.strs ≠ []) :
    ∃ rows, (runParallelStrings step ok now rs).1.trace = rs.trace ++ rows ∧
      rows ≠ [] ∧ ∀ p ∈ rows, ownsRow step.id p.1 := by
  refine ⟨(List.range step.run.strs.length).map
      (fun i => (step.id ++ "/run_" ++ toString i, 0)), ?_, ?_, ?_⟩
  · unfold runParallelStrings
    cases hany : (List.range step.run.strs.length).any
        (fun i => (ok (step.id ++ "/run_" ++ toString i) 0).exit ≠ 0) <;>
      simp only [hany] <;> simp [setSS]
  · intro h
    have h2 := congrArg List.length h
    simp at h2
    exact hne h2
  · intro p hp
    rcases List.mem_map.mp hp with ⟨i, _, rfl⟩
    refine Or.inr ⟨"run_" ++ toString i, ?_⟩
    show step.id ++ "/run_" ++ toString i = step.id ++ "/" ++ ("run_" ++ toString i)
    have h1 : step.id ++ "/run_" = step.id ++ "/" ++ "run_" := by
      rw [strAppend_assoc]
      rfl
    rw [h1, strAppend_assoc (step.id ++ "/") "run_" (toString i)]

theorem runParallelStrings_status (step : Step) (ok : Oracle) (now : Nat)
    (rs : RunnerSt) :
    ((runParallelStrings step ok now rs).2 = true →
      (getSS (runParallelStrings step ok now rs).1 step.id).status = "done") ∧
    ((runParallelStrings step ok now rs).2 = false →
      (getSS (runParallelStrings step ok now rs).1 step.id).status =
        "failed") := by
  cases hany : (List.range step.run.strs.length).any
      (fun i => (ok (step.id ++ "/run_" ++ toString i) 0).exit ≠ 0)
  · constructor
    · intro _
      unfold runParallelStrings getSS
      simp only [hany]
      simp [setSS]
    · intro h
      rw [runParallelStrings_verdict] at h
      rw [hany] at h
      cases h
  · constructor
    · intro h
      rw [runParallelStrings_verdict] at h
      rw [hany] at h
      cases h
    · intro _
      unfold runParallelStrings getSS
      simp only [hany]
      simp [setSS]

theorem subFold_spec (step : Step) (ok : Oracle) :
    ∀ (l : List SubRun) (acc : RunnerSt × List (String × SubState) × Bool),
    (∀ sid ss, lookupA acc.2.1 sid = some ss → ss.status = "done" →
      (ok (step.id ++ "/" ++ sid) 0).exit = 0) →
    (l.foldl (runSubOne step ok) acc).2.2 =
      (acc.2.2 || l.any
        (fun sr => (ok (step.id ++ "/" ++ sr.id) 0).exit ≠ 0)) ∧
    (l.foldl (runSubOne step ok) acc).1.steps = acc.1.steps ∧
    (l.foldl (runSubOne step ok) acc).1.cacheStore = acc.1.cacheStore ∧
    (l.foldl (runSubOne step ok) acc).1.runStatus = acc.1.runStatus ∧
    (∃ rows, (l.foldl (runSubOne step ok) acc).1.trace =
        acc.1.trace ++ rows ∧ ∀ p ∈ rows, ownsRow step.id p.1) := by
  intro l
  induction l with
  | nil =>
    intro acc _
    exact ⟨by simp, rfl, rfl, rfl, ⟨[], by simp, by simp⟩⟩
  | cons sr tail ih =>
    intro acc hlk
    rw [List.foldl_cons]
    by_cases hskip :
        ((lookupA acc.2.1 sr.id).getD SubState.zero).status = "done" ∧
          ¬ sr.sensitive
    · have hbody : runSubOne step ok acc sr = acc := by
        unfold runSubOne
        rw [if_pos hskip]
      rw [hbody]
      rcases ih acc hlk with ⟨hA, hB, hC, hD, rows, hr1, hr2⟩
      refine ⟨?_, hB, hC, hD, rows, hr1, hr2⟩
      rw [hA, List.any_cons]
      have hex : (ok (step.id ++ "/" ++ sr.id) 0).exit = 0 := by
        rcases hlkup : lookupA acc.2.1 sr.id with _ | ss
        · exfalso
          have hz := hskip.1
          rw [hlkup] at hz
          exact absurd (show ("" : String) = "done" from hz) (by decide)
        · have hz := hskip.1
          rw [hlkup] at hz
          exact hlk sr.id ss hlkup (by simpa using hz)
      simp [hex]
    · by_cases hfail : (ok (step.id ++ "/" ++ sr.id) 0).exit ≠ 0
      · have hbody : runSubOne step ok acc sr =
            ({ acc.1 with
                trace := acc.1.trace ++ [(step.id ++ "/" ++ sr.id, 0)] },
              setA acc.2.1 sr.id
                { status := "failed",
                  exitCode := (ok (step.id ++ "/" ++ sr.id) 0).exit,
                  output := "", sensitive := false }, true) := by
          unfold runSubOne
          rw [if_neg hskip, if_pos hfail]
        rw [hbody]
        have hlk2 : ∀ sid ss, lookupA (setA acc.2.1 sr.id
            { status := "failed",
              exitCode := (ok (step.id ++ "/" ++ sr.id) 0).exit,
              output := "", sensitive := false }) sid = some ss →
            ss.status = "done" →
            (ok (step.id ++ "/" ++ sid) 0).exit = 0 := by
          intro sid ss hl hd
          rw [lookupA_setA] at hl
          by_cases hsid : sid = sr.id
          · rw [if_pos hsid] at hl
            cases hl
            exact absurd (show ("failed" : String) = "done" from hd) (by decide)
          · rw [if_neg hsid] at hl
            exact hlk sid ss hl hd
        rcases ih ({ acc.1 with
            trace := acc.1.trace ++ [(step.id ++ "/" ++ sr.id, 0)] },
          setA acc.2.1 sr.id
            { status := "failed",
              exitCode := (ok (step.id ++ "/" ++ sr.id) 0).exit,
              output := "", sensitive := false }, true) hlk2 with
          ⟨hA, hB, hC, hD, rows, hr1, hr2⟩
        refine ⟨?_, ?_, ?_, ?_, (step.id ++ "/" ++ sr.id, 0) :: rows, ?_, ?_⟩
        · rw [hA]
          simp [hfail]
        · exact hB
        · exact hC
        · exact hD
        · rw [hr1]
          show (acc.1.trace ++ [(step.id ++ "/" ++ sr.id, 0)]) ++ rows = _
          rw [List.append_assoc]
          rfl
        · intro p hp
          rcases List.mem_cons.mp hp with hp | hp
          · rw [hp]
            exact Or.inr ⟨sr.id, rfl⟩
          · exact hr2 p hp
      · have hbody : runSubOne step ok acc sr =
            (setEnvR { acc.1 with
                trace := acc.1.trace ++ [(step.id ++ "/" ++ sr.id, 0)] }
              (envKey [step.id, sr.id])
              (trimNewline (ok (step.id ++ "/" ++ sr.id) 0).out),
              setA acc.2.1 sr.id
                { status := "done", exitCode := 0,
                  output := if ¬ sr.sensitive
                    then (ok (step.id ++ "/" ++ sr.id) 0).out else "",
                  sensitive := sr.sensitive }, acc.2.2) := by
          unfold runSubOne
          rw [if_neg hskip, if_neg hfail]
        rw [hbody]
        have hex0 : (ok (step.id ++ "/" ++ sr.id) 0).exit = 0 := by
          by_contra hc
          exact hfail hc
        have hlk2 : ∀ sid ss, lookupA (setA acc.2.1 sr.id
            { status := "done", exitCode := 0,
              output := if ¬ sr.sensitive
                then (ok (step.id ++ "/" ++ sr.id) 0).out else "",
              sensitive := sr.sensitive }) sid = some ss →
            ss.status = "done" →
            (ok (step.id ++ "/" ++ sid) 0).exit = 0 := by
          intro sid ss hl hd
          rw [lookupA_setA] at hl
          by_cases hsid : sid = sr.id
          · rw [hsid]
            exact hex0
          · rw [if_neg hsid] at hl
            exact hlk sid ss hl hd
        rcases ih (setEnvR { acc.1 with
            trace := acc.1.trace ++ [(step.id ++ "/" ++ sr.id, 0)] }
          (envKey [step.id, sr.id])
          (trimNewline (ok (step.id ++ "/" ++ sr.id) 0).out),
          setA acc.2.1 sr.id
            { status := "done", exitCode := 0,
              output := if ¬ sr.sensitive
                then (ok (step.id ++ "/" ++ sr.id) 0).out else "",
              sensitive := sr.sensitive }, acc.2.2) hlk2 with
          ⟨hA, hB, hC, hD, rows, hr1, hr2⟩
        refine ⟨?_, ?_, ?_, ?_, (step.id ++ "/" ++ sr.id, 0) :: rows, ?_, ?_⟩
        · rw [hA]
          simp [hex0]
        · exact hB
        · exact hC
        · exact hD
        · rw [hr1]
          show (acc.1.trace ++ [(step.id ++ "/" ++ sr.id, 0)]) ++ rows = _
          rw [List.append_assoc]
          rfl
        · intro p hp
          rcases List.mem_cons.mp hp with hp | hp
          · rw [hp]
            exact Or.inr ⟨sr.id, rfl⟩
          · exact hr2 p hp

theorem subFold_rows_ne (step : Step) (ok : Oracle) (sr : SubRun)
    (tail : List SubRun) (st1 : RunnerSt) :
    ∃ rows, ((sr :: tail).foldl (runSubOne step ok)
        (st1, ([] : List (String × SubState)), false)).1.trace
      = st1.trace ++ rows ∧ rows ≠ [] ∧ ∀ p ∈ rows, ownsRow step.id p.1 := by
  rw [List.foldl_cons]
  have hskip : ¬ (((lookupA ([] : List (String × SubState)) sr.id).getD
      SubState.zero).status = "done" ∧ ¬ sr.sensitive) := by
    intro h
    exact absurd (show ("" : String) = "done" from h.1) (by decide)
  by_cases hfail : (ok (step.id ++ "/" ++ sr.id) 0).exit ≠ 0
  · have hbody : runSubOne step ok
        (st1, ([] : List (String × SubState)), false) sr =
        ({ st1 with trace := st1.trace ++ [(step.id ++ "/" ++ sr.id, 0)] },
          setA ([] : List (String × SubState)) sr.id
            { status := "failed",
              exitCode := (ok (step.id ++ "/" ++ sr.id) 0).exit,
              output := "", sensitive := false }, true) := by
      unfold runSubOne
      rw [if_neg hskip, if_pos hfail]
    rw [hbody]
    have hlk2 : ∀ sid ss, lookupA (setA ([] : List (String × SubState)) sr.id
        { status := "failed",
          exitCode := (ok (step.id ++ "/" ++ sr.id) 0).exit,
          output := "", sensitive := false }) sid = some ss →
        ss.status = "done" → (ok (step.id ++ "/" ++ sid) 0).exit = 0 := by
      intro sid ss hl hd
      rw [lookupA_setA] at hl
      by_cases hsid : sid = sr.id
      · rw [if_pos hsid] at hl
        cases hl
        exact absurd (show ("failed" : String) = "done" from hd) (by decide)
      · rw [if_neg hsid, lookupA_nil] at hl
        cases hl
    rcases subFold_spec step ok tail
      ({ st1 with trace := st1.trace ++ [(step.id ++ "/" ++ sr.id, 0)] },
        setA ([] : List (String × SubState)) sr.id
          { status := "failed",
            exitCode := (ok (step.id ++ "/" ++ sr.id) 0).exit,
            output := "", sensitive := false }, true) hlk2 with
      ⟨_, _, _, _, rows, hr1, hr2⟩
    refine ⟨(step.id ++ "/" ++ sr.id, 0) :: rows, ?_, by simp, ?_⟩
    · rw [hr1]
      show (st1.trace ++ [(step.id ++ "/" ++ sr.id, 0)]) ++ rows = _
      rw [List.append_assoc]
      rfl
    · intro p hp
      rcases List.mem_cons.mp hp with hp | hp
      · rw [hp]
        exact Or.inr ⟨sr.id, rfl⟩
      · exact hr2 p hp
  · have hbody : runSubOne step ok
        (st1, ([] : List (String × SubState)), false) sr =
        (setEnvR { st1 with
            trace := st1.trace ++ [(step.id ++ "/" ++ sr.id, 0)] }
          (envKey [step.id, sr.id])
          (trimNewline (ok (step.id ++ "/" ++ sr.id) 0).out),
          setA ([] : List (String × SubState)) sr.id
            { status := "done", exitCode := 0,
              output := if ¬ sr.sensitive
                then (ok (step.id ++ "/" ++ sr.id) 0).out else "",
              sensitive := sr.sensitive }, false) := by
      unfold runSubOne
      rw [if_neg hskip, if_neg hfail]
    rw [hbody]
    have hex0 : (ok (step.id ++ "/" ++ sr.id) 0).exit = 0 := by
      by_contra hc
      exact hfail hc
    have hlk2 : ∀ sid ss, lookupA (setA ([] : List (String × SubState)) sr.id
        { status := "done", exitCode := 0,
          output := if ¬ sr.sensitive
            then (ok (step.id ++ "/" ++ sr.id) 0).out else "",
          sensitive := sr.sensitive }) sid = some ss →
        ss.status = "done" → (ok (step.id ++ "/" ++ sid) 0).exit = 0 := by
      intro sid ss hl hd
      rw [lookupA_setA] at hl
      by_cases hsid : sid = sr.id
      · rw [hsid]
        exact hex0
      · rw [if_neg hsid, lookupA_nil] at hl
        cases hl
    rcases subFold_spec step ok tail
      (setEnvR { st1 with
          trace := st1.trace ++ [(step.id ++ "/" ++ sr.id, 0)] }
        (envKey [step.id, sr.id])
        (trimNewline (ok (step.id ++ "/" ++ sr.id) 0).out),
        setA ([] : List (String × SubState)) sr.id
          { status := "done", exitCode := 0,
            output := if ¬ sr.sensitive
              then (ok (step.id ++ "/" ++ sr.id) 0).out else "",
            sensitive := sr.sensitive }, false) hlk2 with
      ⟨_, _, _, _, rows, hr1, hr2⟩
    refine ⟨(step.id ++ "/" ++ sr.id, 0) :: rows, ?_, by simp, ?_⟩
    · rw [hr1]
      show (st1.trace ++ [(step.id ++ "/" ++ sr.id, 0)]) ++ rows = _
      rw [List.append_assoc]
      rfl
    · intro p hp
      rcases List.mem_cons.mp hp with hp | hp
      · rw [hp]
        exact Or.inr ⟨sr.id, rfl⟩
      · exact hr2 p hp

theorem runParallelSubRuns_fresh (step : Step) (ok : Oracle) (now : Nat)
    (rs : RunnerSt) (hst : rs.steps step.id = none) :
    (runParallelSubRuns step ok now rs).2 =
      (¬ step.run.subRuns.any
        (fun sr => (ok (step.id ++ "/" ++ sr.id) 0).exit ≠ 0) : Bool) ∧
    (∀ k, k ≠ step.id →
      (runParallelSubRuns step ok now rs).1.steps k = rs.steps k) ∧
    (∀ k, k ≠ step.id →
      (runParallelSubRuns step ok now rs).1.cacheStore k = rs.cacheStore k) ∧
    (∃ rows, (runParallelSubRuns step ok now rs).1.trace = rs.trace ++ rows ∧
      (step.run.subRuns ≠ [] → rows ≠ []) ∧
      ∀ p ∈ rows, ownsRow step.id p.1) ∧
    ((runParallelSubRuns step ok now rs).2 = true →
      (getSS (runParallelSubRuns step ok now rs).1 step.id).status =
        "done") ∧
    ((runParallelSubRuns step ok now rs).2 = false →
      (getSS (runParallelSubRuns step ok now rs).1 step.id).status =
        "failed") := by
  have hss0 : getSS rs step.id = StepState.zero := by
    unfold getSS
    rw [hst]
    rfl
  have hrun : runParallelSubRuns step ok now rs =
      (let res := step.run.subRuns.foldl (runSubOne step ok)
        (setSS rs step.id { StepState.zero with status := "running" },
          ([] : List (String × SubState)), false)
      if res.2.2 then
        (setSS res.1 step.id
          { StepState.zero with status := "failed", subSteps := res.2.1 },
          false)
      else
        let st2 := setSS res.1 step.id
          { StepState.zero with
            status := "done", exitCode := 0, subSteps := res.2.1 }
        let saved := saveCache step
          { stepId := step.id, sensitive := step.sensitive,
            runType := "subruns",
            subOutputs := step.run.subRuns.map (fun sr =>
              let sub := (lookupA res.2.1 sr.id).getD SubState.zero
              ({ id := sr.id, output := sub.output,
                 sensitive := sub.sensitive,
                 exitCode := sub.exitCode } : CacheSubEntry)) } now
          st2.cacheStore
        ({ st2 with cacheStore := saved.1 }, true)) := by
    unfold runParallelSubRuns
    rw [hss0]
    rfl
  rw [hrun]
  rcases subFold_spec step ok step.run.subRuns
    (setSS rs step.id { StepState.zero with status := "running" },
      ([] : List (String × SubState)), false)
    (by
      intro sid ss h _
      rw [lookupA_nil] at h
      cases h) with ⟨hA, hB, hC, _, rows0, hr1, hr2⟩
  have hresb : (step.run.subRuns.foldl (runSubOne step ok)
      (setSS rs step.id { StepState.zero with status := "running" },
        ([] : List (String × SubState)), false)).2.2 =
      step.run.subRuns.any
        (fun sr => (ok (step.id ++ "/" ++ sr.id) 0).exit ≠ 0) :=
    hA.trans (Bool.false_or _)
  have htr : ∃ rows, (step.run.subRuns.foldl (runSubOne step ok)
      (setSS rs step.id { StepState.zero with status := "running" },
        ([] : List (String × SubState)), false)).1.trace =
      rs.trace ++ rows ∧
      (step.run.subRuns ≠ [] → rows ≠ []) ∧
      ∀ p ∈ rows, ownsRow step.id p.1 := by
    cases hsr : step.run.subRuns with
    | nil =>
      refine ⟨[], by simp [setSS], fun h => absurd rfl h, by simp⟩
    | cons sr tail =>
      rcases subFold_rows_ne step ok sr tail
        (setSS rs step.id { StepState.zero with status := "running" }) with
        ⟨rows, hrt, hrne, hro⟩
      exact ⟨rows, hrt, fun _ => hrne, hro⟩
  cases hany : step.run.subRuns.any
      (fun sr => (ok (step.id ++ "/" ++ sr.id) 0).exit ≠ 0)
  · have hv : (step.run.subRuns.foldl (runSubOne step ok)
        (setSS rs step.id { StepState.zero with status := "running" },
          ([] : List (String × SubState)), false)).2.2 = false :=
      hresb.trans hany
    simp only [hv, Bool.false_eq_true, if_false]
    refine ⟨rfl, ?_, ?_, ?_, ?_, ?_⟩
    · intro k hk
      show (setSS _ step.id _).steps k = rs.steps k
      rw [setSS_steps_ne _ _ _ k hk, congrFun hB k]
      exact setSS_steps_ne rs step.id _ k hk
    · intro k hk
      show (saveCache step _ now _).1 k = rs.cacheStore k
      rw [saveCache_other step _ now _ k hk]
      show (step.run.subRuns.foldl (runSubOne step ok)
        (setSS rs step.id { StepState.zero with status := "running" },
          ([] : List (String × SubState)), false)).1.cacheStore k =
        rs.cacheStore k
      rw [congrFun hC k]
      rfl
    · exact htr
    · intro _
      show (getSS (setSS _ step.id _) step.id).status = "done"
      unfold getSS setSS
      simp
    · intro h
      simp at h
  · have hv : (step.run.subRuns.foldl (runSubOne step ok)
        (setSS rs step.id { StepState.zero with status := "running" },
          ([] : List (String × SubState)), false)).2.2 = true :=
      hresb.trans hany
    simp only [hv, if_true]
    refine ⟨rfl, ?_, ?_, ?_, ?_, ?_⟩
    · intro k hk
      show (setSS _ step.id _).steps k = rs.steps k
      rw [setSS_steps_ne _ _ _ k hk, congrFun hB k]
      exact setSS_steps_ne rs step.id _ k hk
    · intro k hk
      show (step.run.subRuns.foldl (runSubOne step ok)
        (setSS rs step.id { StepState.zero with status := "running" },
          ([] : List (String × SubState)), false)).1.cacheStore k =
        rs.cacheStore k
      rw [congrFun hC k]
      rfl
    · exact htr
    · intro h
      simp at h
    · intro _
      show (getSS (setSS _ step.id _) step.id).status = "failed"
      unfold getSS setSS
      simp

theorem runStep_fresh (step : Step) (ok : Oracle) (now : Nat) (rs : RunnerSt)
    (hst : rs.steps step.id = none) (hc : rs.cacheStore step.id = none)
    (hvar : step.run.isSingle = true ∨ step.run.isStrings = true ∨
      step.run.isSubRuns = true) :
    (runStep step ok now rs).2 = stepVerdictOf step ok ∧
    (∀ k, k ≠ step.id → (runStep step ok now rs).1.steps k = rs.steps k) ∧
    (∀ k, k ≠ step.id →
      (runStep step ok now rs).1.cacheStore k = rs.cacheStore k) ∧
    (∃ rows, (runStep step ok now rs).1.trace = rs.trace ++ rows ∧
      rows ≠ [] ∧ ∀ p ∈ rows, ownsRow step.id p.1) ∧
    ((runStep step ok now rs).2 = true →
      (getSS (runStep step ok now rs).1 step.id).status = "done") ∧
    ((runStep step ok now rs).2 = false →
      (getSS (runStep step ok now rs).1 step.id).status = "failed") := by
  have hss0 : getSS rs step.id = StepState.zero := by
    unfold getSS
    rw [hst]
    rfl
  have hskip : ¬ ((getSS rs step.id).status = "done" ∧
      ¬ step.sensitive = true) := by
    rw [hss0]
    intro h
    exact absurd (show ("" : String) = "done" from h.1) (by decide)
  have hmiss := tryCache_miss step now rs (Or.inr (Or.inl hc))
  have hrs : runStep step ok now rs =
      (if step.run.isSingle then runSingle step ok now rs
       else if step.run.isStrings then runParallelStrings step ok now rs
       else if step.run.isSubRuns then runParallelSubRuns step ok now rs
       else (rs, false)) := by
    unfold runStep
    rw [if_neg hskip, hmiss]
    rfl
  rw [hrs]
  by_cases hsi : step.run.isSingle = true
  · rw [if_pos hsi]
    have hv : stepVerdictOf step ok =
        (retryRun (fun i => (ok step.id i).exit = 0) (step.retry + 1)).2 := by
      unfold stepVerdictOf
      rw [if_pos hsi]
    exact ⟨(runSingle_verdict step ok now rs).trans hv.symm,
      fun k hk => runSingle_steps_ne step ok now rs k hk,
      fun k hk => runSingle_cache_ne step ok now rs k hk,
      runSingle_rows step ok now rs,
      (runSingle_status step ok now rs).1,
      (runSingle_status step ok now rs).2⟩
  · rw [if_neg hsi]
    by_cases hstr : step.run.isStrings = true
    · rw [if_pos hstr]
      have hv : stepVerdictOf step ok =
          (¬ (List.range step.run.strs.length).any
            (fun i => (ok (step.id ++ "/run_" ++ toString i) 0).exit ≠ 0) :
              Bool) := by
        unfold stepVerdictOf
        rw [if_neg hsi, if_pos hstr]
      have hne : step.run.strs ≠ [] := by
        intro h
        rw [RunField.isStrings, h] at hstr
        simp at hstr
      exact ⟨(runParallelStrings_verdict step ok now rs).trans hv.symm,
        fun k hk => runParallelStrings_steps_ne step ok now rs k hk,
        fun k hk => runParallelStrings_cache_ne step ok now rs k hk,
        runParallelStrings_rows step ok now rs hne,
        (runParallelStrings_status step ok now rs).1,
        (runParallelStrings_status step ok now rs).2⟩
    · rw [if_neg hstr]
      have hsub : step.run.isSubRuns = true := by
        rcases hvar with h | h | h
        · exact absurd h hsi
        · exact absurd h hstr
        · exact h
      rw [if_pos hsub]
      have hv : stepVerdictOf step ok =
          (¬ step.run.subRuns.any
            (fun sr => (ok (step.id ++ "/" ++ sr.id) 0).exit ≠ 0) :
              Bool) := by
        unfold stepVerdictOf
        rw [if_neg hsi, if_neg hstr, if_pos hsub]
      have hne : step.run.subRuns ≠ [] := by
        intro h
        rw [RunField.isSubRuns, h] at hsub
        simp at hsub
      rcases runParallelSubRuns_fresh step ok now rs hst with
        ⟨h1, h2, h3, ⟨rows, hrt, hrn, hro⟩, h5, h6⟩
      exact ⟨h1.trans hv.symm, h2, h3, ⟨rows, hrt, hrn hne, hro⟩, h5, h6⟩

theorem stepById_spec (steps : List Step) (id : String)
    (h : id ∈ steps.map (·.id)) :
    stepById steps id ∈ steps ∧ (stepById steps id).id = id := by
  rcases List.mem_map.mp h with ⟨s, hs, hsid⟩
  unfold stepById
  cases hf : steps.find? (fun s => s.id = id) with
  | none =>
    exfalso
    have hnone := List.find?_eq_none.mp hf s hs
    rw [hsid] at hnone
    simp at hnone
  | some s2 =>
    constructor
    · exact List.mem_of_find?_eq_some hf
    · have hp := List.find?_some hf
      simpa using hp

theorem find_interactive_none (steps : List Step)
    (hni : ∀ s ∈ steps, s.interactive = false) :
    steps.find? (fun s => s.interactive) = none := by
  rw [List.find?_eq_none]
  intro x hx
  simp [hni x hx]

theorem interactiveId_empty (steps : List Step)
    (hni : ∀ s ∈ steps, s.interactive = false) :
    interactiveId steps = "" := by
  unfold interactiveId
  rw [find_interactive_none steps hni]

theorem cascFold_inv (ids : List String) (dependents : String → List String)
    (excl failedId : String) (fs0 : String → Bool) (rs : RunnerSt)
    (hdom : ∀ u, ∀ v ∈ dependents u, v ∈ ids)
    (curr : String)
    (hcurr : curr = failedId ∨ Reaches dependents failedId curr) :
    ∀ (ds : List String), (∀ v ∈ ds, v ∈ dependents curr) →
    ∀ (c : CascSt), CascInv ids dependents excl failedId fs0 rs c →
    (∀ u, c.failedSet u = true → u ∈ c.queue ∨ u = curr ∨
      ∀ v ∈ dependents u, v = excl ∨ c.failedSet v = true) →
    CascInv ids dependents excl failedId fs0 rs
      (ds.foldl (cascadeVisit excl) c) ∧
    (∀ v, c.failedSet v = true →
      (ds.foldl (cascadeVisit excl) c).failedSet v = true) ∧
    (∀ v ∈ c.queue, v ∈ (ds.foldl (cascadeVisit excl) c).queue) ∧
    (∀ u, (ds.foldl (cascadeVisit excl) c).failedSet u = true →
      u ∈ (ds.foldl (cascadeVisit excl) c).queue ∨ u = curr ∨
      ∀ v ∈ dependents u, v = excl ∨
        (ds.foldl (cascadeVisit excl) c).failedSet v = true) ∧
    (∀ v ∈ ds, v = excl ∨
      (ds.foldl (cascadeVisit excl) c).failedSet v = true) ∧
    ((ds.foldl (cascadeVisit excl) c).queue.length + c.cascaded.length =
      c.queue.length + (ds.foldl (cascadeVisit excl) c).cascaded.length) := by
  intro ds
  induction ds with
  | nil =>
    intro _ c hinv hcl
    exact ⟨hinv, fun v hv => hv, fun v hv => hv, hcl, by simp, rfl⟩
  | cons dep ds ih =>
    intro hsub c hinv hcl
    rw [List.foldl_cons]
    by_cases hv : dep = excl ∨ c.failedSet dep = true
    · have hvisit : cascadeVisit excl c dep = c := by
        unfold cascadeVisit
        rw [if_pos hv]
      rw [hvisit]
      rcases ih (fun v hv2 => hsub v (List.mem_cons_of_mem dep hv2)) c hinv
        hcl with ⟨h1, h2, h3, h4, h5, h6⟩
      refine ⟨h1, h2, h3, h4, ?_, h6⟩
      intro v hv2
      rcases List.mem_cons.mp hv2 with hv2 | hv2
      · subst hv2
        rcases hv with hv | hv
        · exact Or.inl hv
        · exact Or.inr (h2 v hv)
      · exact h5 v hv2
    · have hdc : dep ∈ dependents curr := hsub dep (List.mem_cons_self dep ds)
      have hvisit : cascadeVisit excl c dep =
          { failedSet := fun k => if k = dep then true else c.failedSet k,
            rs := setSS c.rs dep
              { getSS c.rs dep with status := "failed" },
            cascaded := c.cascaded ++ [dep],
            queue := c.queue ++ [dep] } := by
        unfold cascadeVisit
        rw [if_neg hv]
      rw [hvisit]
      have hdexcl : dep ≠ excl := fun h => hv (Or.inl h)
      have hdnf : ¬ c.failedSet dep = true := fun h => hv (Or.inr h)
      have hdnc : dep ∉ c.cascaded := fun h =>
        hdnf ((hinv.fs_iff dep).mpr (Or.inr h))
      have hreach : Reaches dependents failedId dep := by
        rcases hcurr with rfl | hr
        · exact Reaches.edge hdc
        · exact reaches_snoc dependents failedId curr dep hr hdc
      have hinv2 : CascInv ids dependents excl failedId fs0 rs
          { failedSet := fun k => if k = dep then true else c.failedSet k,
            rs := setSS c.rs dep
              { getSS c.rs dep with status := "failed" },
            cascaded := c.cascaded ++ [dep],
            queue := c.queue ++ [dep] } := by
        refine ⟨?_, ?_, ?_, ?_, ?_, ?_, ?_, ?_, ?_, ?_, ?_, ?_, ?_, ?_⟩
        · intro v
          show (if v = dep then true else c.failedSet v) = true ↔
            (fs0 v = true ∨ v ∈ c.cascaded ++ [dep])
          by_cases hvd : v = dep
          · rw [if_pos hvd]
            subst hvd
            constructor
            · intro _
              exact Or.inr (List.mem_append_right _ (List.mem_singleton_self v))
            · intro _
              rfl
          · rw [if_neg hvd]
            rw [hinv.fs_iff v]
            constructor
            · rintro (h | h)
              · exact Or.inl h
              · exact Or.inr (List.mem_append_left _ h)
            · rintro (h | h)
              · exact Or.inl h
              · rcases List.mem_append.mp h with h | h
                · exact Or.inr h
                · rw [List.mem_singleton] at h
                  exact absurd h hvd
        · exact hinv.c_nodup.append (List.nodup_singleton dep)
            (fun a ha hb => by
              rw [List.mem_singleton] at hb
              exact hdnc (hb ▸ ha))
        · intro v hv2
          rcases List.mem_append.mp hv2 with h | h
          · exact hinv.c_sub v h
          · rw [List.mem_singleton] at h
            exact h ▸ hdom curr dep hdc
        · intro v hv2
          rcases List.mem_append.mp hv2 with h | h
          · exact hinv.c_new v h
          · rw [List.mem_singleton] at h
            subst h
            cases hfs : fs0 v
            · rfl
            · exact absurd ((hinv.fs_iff v).mpr (Or.inl hfs)) hdnf
        · intro v hv2
          rcases List.mem_append.mp hv2 with h | h
          · exact hinv.c_excl v h
          · rw [List.mem_singleton] at h
            exact h ▸ hdexcl
        · intro v hv2
          rcases List.mem_append.mp hv2 with h | h
          · exact hinv.c_reach v h
          · rw [List.mem_singleton] at h
            exact h ▸ hreach
        · intro v hv2
          show (if v = dep then true else c.failedSet v) = true
          by_cases hvd : v = dep
          · rw [if_pos hvd]
          · rw [if_neg hvd]
            rcases List.mem_append.mp hv2 with h | h
            · exact hinv.q_fail v h
            · rw [List.mem_singleton] at h
              exact absurd h hvd
        · intro v hv2
          rcases List.mem_append.mp hv2 with h | h
          · rcases hinv.q_src v h with h2 | h2
            · exact Or.inl h2
            · exact Or.inr (List.mem_append_left _ h2)
          · rw [List.mem_singleton] at h
            exact Or.inr (List.mem_append_right _ (by rw [h]; exact List.mem_singleton_self dep))
        · intro k hk
          have hk1 : k ∉ c.cascaded := fun h => hk (List.mem_append_left _ h)
          have hk2 : k ≠ dep := fun h => hk (List.mem_append_right _
            (by rw [h]; exact List.mem_singleton_self dep))
          rw [setSS_steps_ne _ _ _ k hk2]
          exact hinv.rs_loc k hk1
        · intro v hv2
          rcases List.mem_append.mp hv2 with h | h
          · have hvd : v ≠ dep := fun he => hdnc (he ▸ h)
            unfold getSS
            rw [setSS_steps_ne _ _ _ v hvd]
            exact hinv.rs_st v h
          · rw [List.mem_singleton] at h
            subst h
            unfold getSS setSS
            simp
        · exact hinv.rs_env
        · exact hinv.rs_cache
        · exact hinv.rs_trace
        · exact hinv.rs_status
      have hcl2 : ∀ u, (if u = dep then true else c.failedSet u) = true →
          u ∈ c.queue ++ [dep] ∨ u = curr ∨
          ∀ v ∈ dependents u, v = excl ∨
            (if v = dep then true else c.failedSet v) = true := by
        intro u hu
        by_cases hud : u = dep
        · exact Or.inl (List.mem_append_right _
            (by rw [hud]; exact List.mem_singleton_self dep))
        · rw [if_neg hud] at hu
          rcases hcl u hu with h | h | h
          · exact Or.inl (List.mem_append_left _ h)
          · exact Or.inr (Or.inl h)
          · refine Or.inr (Or.inr ?_)
            intro v hv2
            rcases h v hv2 with h2 | h2
            · exact Or.inl h2
            · refine Or.inr ?_
              by_cases hvd : v = dep
              · rw [if_pos hvd]
              · rw [if_neg hvd]
                exact h2
      rcases ih (fun v hv2 => hsub v (List.mem_cons_of_mem dep hv2)) _ hinv2
        hcl2 with ⟨h1, h2, h3, h4, h5, h6⟩
      refine ⟨h1, ?_, ?_, h4, ?_, ?_⟩
      · intro v hvf
        apply h2
        show (if v = dep then true else c.failedSet v) = true
        by_cases hvd : v = dep
        · rw [if_pos hvd]
        · rw [if_neg hvd]
          exact hvf
      · intro v hv2
        apply h3
        exact List.mem_append_left _ hv2
      · intro v hv2
        rcases List.mem_cons.mp hv2 with hv2 | hv2
        · subst hv2
          refine Or.inr (h2 v ?_)
          show (if v = v then true else c.failedSet v) = true
          rw [if_pos rfl]
        · exact h5 v hv2
      · have hq1 :
            ({ failedSet := fun k => if k = dep then true else c.failedSet k,
               rs := setSS c.rs dep
                 { getSS c.rs dep with status := "failed" },
               cascaded := c.cascaded ++ [dep],
               queue := c.queue ++ [dep] } : CascSt).cascaded.length
            = c.cascaded.length + 1 := by simp
        have hq2 :
            ({ failedSet := fun k => if k = dep then true else c.failedSet k,
               rs := setSS c.rs dep
                 { getSS c.rs dep with status := "failed" },
               cascaded := c.cascaded ++ [dep],
               queue := c.queue ++ [dep] } : CascSt).queue.length
            = c.queue.length + 1 := by simp
        omega

theorem cascInv_len (ids : List String) (dependents : String → List String)
    (excl failedId : String) (fs0 : String → Bool) (rs : RunnerSt)
    (c : CascSt) (hinv : CascInv ids dependents excl failedId fs0 rs c)
    (hfid : failedId ∈ ids) (hfs0 : fs0 failedId = true) :
    c.cascaded.length + 1 ≤ ids.length := by
  have hnc : failedId ∉ c.cascaded := fun h => by
    rw [hinv.c_new failedId h] at hfs0
    cases hfs0
  have h1 : c.cascaded.length = c.cascaded.toFinset.card :=
    (List.toFinset_card_of_nodup hinv.c_nodup).symm
  have h2 : c.cascaded.toFinset ⊆ ids.toFinset.erase failedId := by
    intro x hx
    rw [List.mem_toFinset] at hx
    rw [Finset.mem_erase]
    exact ⟨fun he => hnc (he ▸ hx), List.mem_toFinset.mpr (hinv.c_sub x hx)⟩
  have h3 := Finset.card_le_card h2
  have h4 : (ids.toFinset.erase failedId).card = ids.toFinset.card - 1 :=
    Finset.card_erase_of_mem (List.mem_toFinset.mpr hfid)
  have h5 := List.toFinset_card_le ids
  have h6 : 0 < ids.toFinset.card :=
    Finset.card_pos.mpr ⟨failedId, List.mem_toFinset.mpr hfid⟩
  omega

theorem cascadeLoop_inv (ids : List String)
    (dependents : String → List String) (excl failedId : String)
    (fs0 : String → Bool) (rs : RunnerSt)
    (hdom : ∀ u, ∀ v ∈ dependents u, v ∈ ids)
    (hfid : failedId ∈ ids) (hfs0 : fs0 failedId = true) :
    ∀ (fuel : Nat) (c : CascSt),
    CascInv ids dependents excl failedId fs0 rs c →
    (∀ u, c.failedSet u = true → u ∈ c.queue ∨
      ∀ v ∈ dependents u, v = excl ∨ c.failedSet v = true) →
    c.queue.length + ids.length ≤ fuel + c.cascaded.length →
    CascInv ids dependents excl failedId fs0 rs
      (cascadeLoop dependents excl fuel c) ∧
    (∀ u, (cascadeLoop dependents excl fuel c).failedSet u = true →
      ∀ v ∈ dependents u, v = excl ∨
        (cascadeLoop dependents excl fuel c).failedSet v = true) := by
  intro fuel
  induction fuel with
  | zero =>
    intro c hinv hcl hfu
    have := cascInv_len ids dependents excl failedId fs0 rs c hinv hfid hfs0
    omega
  | succ fuel ih =>
    intro c hinv hcl hfu
    obtain ⟨fs, crs, casc, q⟩ := c
    cases q with
    | nil =>
      refine ⟨hinv, ?_⟩
      intro u hu
      rcases hcl u hu with h | h
      · exact absurd h (List.not_mem_nil u)
      · exact h
    | cons curr rest =>
      have hcurr : curr = failedId ∨ Reaches dependents failedId curr := by
        rcases hinv.q_src curr (List.mem_cons_self curr rest) with h | h
        · exact Or.inl h
        · exact Or.inr (hinv.c_reach curr h)
      have hmidinv : CascInv ids dependents excl failedId fs0 rs
          ⟨fs, crs, casc, rest⟩ := by
        refine ⟨hinv.fs_iff, hinv.c_nodup, hinv.c_sub, hinv.c_new,
          hinv.c_excl, hinv.c_reach, ?_, ?_, hinv.rs_loc, hinv.rs_st,
          hinv.rs_env, hinv.rs_cache, hinv.rs_trace, hinv.rs_status⟩
        · exact fun v hv => hinv.q_fail v (List.mem_cons_of_mem curr hv)
        · exact fun v hv => hinv.q_src v (List.mem_cons_of_mem curr hv)
      have hmidcl : ∀ u, (⟨fs, crs, casc, rest⟩ : CascSt).failedSet u = true →
          u ∈ (⟨fs, crs, casc, rest⟩ : CascSt).queue ∨ u = curr ∨
          ∀ v ∈ dependents u, v = excl ∨
            (⟨fs, crs, casc, rest⟩ : CascSt).failedSet v = true := by
        intro u hu
        rcases hcl u hu with h | h
        · rcases List.mem_cons.mp h with h2 | h2
          · exact Or.inr (Or.inl h2)
          · exact Or.inl h2
        · exact Or.inr (Or.inr h)
      rcases cascFold_inv ids dependents excl failedId fs0 rs hdom curr hcurr
        (dependents curr) (fun v hv => hv) ⟨fs, crs, casc, rest⟩ hmidinv
        hmidcl with ⟨h1, h2, h3, h4, h5, h6⟩
      have hcl2 : ∀ u, ((dependents curr).foldl (cascadeVisit excl)
          ⟨fs, crs, casc, rest⟩).failedSet u = true →
          u ∈ ((dependents curr).foldl (cascadeVisit excl)
            ⟨fs, crs, casc, rest⟩).queue ∨
          ∀ v ∈ dependents u, v = excl ∨
            ((dependents curr).foldl (cascadeVisit excl)
              ⟨fs, crs, casc, rest⟩).failedSet v = true := by
        intro u hu
        rcases h4 u hu with h | h | h
        · exact Or.inl h
        · subst h
          exact Or.inr (h5)
        · exact Or.inr h
      exact ih ((dependents curr).foldl (cascadeVisit excl)
        ⟨fs, crs, casc, rest⟩) h1 hcl2 (by
          have hr : (rest.length + 1) + ids.length ≤ (fuel + 1) + casc.length :=
            hfu
          have e3 :
              ({ failedSet := fs, rs := crs, cascaded := casc,
                 queue := rest } : CascSt).cascaded.length = casc.length := rfl
          have e4 :
              ({ failedSet := fs, rs := crs, cascaded := casc,
                 queue := rest } : CascSt).queue.length = rest.length := rfl
          omega)

theorem cascadeFail_spec (ids : List String)
    (dependents : String → List String) (excl failedId : String)
    (hdom : ∀ u, ∀ v ∈ dependents u, v ∈ ids)
    (hfid : failedId ∈ ids) (fs0 : String → Bool) (rs : RunnerSt)
    (hfs0 : fs0 failedId = true)
    (hcl0 : ∀ u, fs0 u = true → u = failedId ∨
      ∀ v ∈ dependents u, v = excl ∨ fs0 v = true)
    (fuel : Nat) (hfuel : ids.length + 1 ≤ fuel) :
    CascInv ids dependents excl failedId fs0 rs
      (cascadeFail dependents excl failedId fuel fs0 rs) ∧
    (∀ u, (cascadeFail dependents excl failedId fuel fs0 rs).failedSet u =
        true → ∀ v ∈ dependents u, v = excl ∨
        (cascadeFail dependents excl failedId fuel fs0 rs).failedSet v =
          true) := by
  have hinv0 : CascInv ids dependents excl failedId fs0 rs
      ⟨fs0, rs, [], [failedId]⟩ := by
    refine ⟨?_, List.nodup_nil, ?_, ?_, ?_, ?_, ?_, ?_, ?_, ?_,
      rfl, rfl, rfl, rfl⟩
    · intro v
      simp
    · exact fun v hv => absurd hv (List.not_mem_nil v)
    · exact fun v hv => absurd hv (List.not_mem_nil v)
    · exact fun v hv => absurd hv (List.not_mem_nil v)
    · exact fun v hv => absurd hv (List.not_mem_nil v)
    · intro v hv
      rw [List.mem_singleton] at hv
      exact hv ▸ hfs0
    · intro v hv
      rw [List.mem_singleton] at hv
      exact Or.inl hv
    · exact fun k _ => rfl
    · exact fun v hv => absurd hv (List.not_mem_nil v)
  have hcl0b : ∀ u, (⟨fs0, rs, [], [failedId]⟩ : CascSt).failedSet u = true →
      u ∈ (⟨fs0, rs, [], [failedId]⟩ : CascSt).queue ∨
      ∀ v ∈ dependents u, v = excl ∨
        (⟨fs0, rs, [], [failedId]⟩ : CascSt).failedSet v = true := by
    intro u hu
    rcases hcl0 u hu with h | h
    · exact Or.inl (by rw [h]; exact List.mem_singleton_self failedId)
    · exact Or.inr h
  exact cascadeLoop_inv ids dependents excl failedId fs0 rs hdom hfid hfs0
    fuel ⟨fs0, rs, [], [failedId]⟩ hinv0 hcl0b (by
      show 1 + ids.length ≤ fuel + 0
      omega)

theorem dispatchDecFold (iId : String) (fs : String → Bool) :
    ∀ (ds : List String), ds.Nodup →
    ∀ (iD : String → Int) (q : List String),
    (∀ v, (ds.foldl
      (fun (acc : (String → Int) × List String) dep =>
        if dep = iId ∨ fs dep = true then acc
        else
          let v := acc.1 dep - 1
          (fun k => if k = dep then v else acc.1 k,
            if v = 0 then acc.2 ++ [dep] else acc.2))
      (iD, q)).1 v =
      if v ∈ ds ∧ ¬ (v = iId ∨ fs v = true) then iD v - 1 else iD v) ∧
    (ds.foldl
      (fun (acc : (String → Int) × List String) dep =>
        if dep = iId ∨ fs dep = true then acc
        else
          let v := acc.1 dep - 1
          (fun k => if k = dep then v else acc.1 k,
            if v = 0 then acc.2 ++ [dep] else acc.2))
      (iD, q)).2 =
      q ++ ds.filter (fun v => ¬ (v = iId ∨ fs v = true) ∧ iD v = 1) := by
  intro ds
  induction ds with
  | nil =>
    intro _ iD q
    exact ⟨fun v => by simp, by simp⟩
  | cons dep ds ih =>
    intro hnd iD q
    rcases List.nodup_cons.mp hnd with ⟨hd, hds⟩
    rw [List.foldl_cons]
    by_cases hskip : dep = iId ∨ fs dep = true
    · rw [if_pos hskip]
      rcases ih hds iD q with ⟨ih1, ih2⟩
      constructor
      · intro v
        rw [ih1 v]
        by_cases hvd : v = dep
        · subst hvd
          rcases hskip with h | h <;> simp [hd, h]
        · by_cases hvm : v ∈ ds
          · by_cases hvs : v = iId ∨ fs v = true
            · rcases hvs with h | h
              · subst h
                simp [hvm]
              · simp [hvm, h]
            · simp [hvm, hvs, hvd]
          · simp [hvm, hvd]
      · rw [ih2, List.filter_cons,
          if_neg (fun h => absurd hskip (of_decide_eq_true h).1)]
    · rw [if_neg hskip]
      rcases ih hds (fun k => if k = dep then iD dep - 1 else iD k)
        (if iD dep - 1 = 0 then q ++ [dep] else q) with ⟨ih1, ih2⟩
      constructor
      · intro v
        rw [ih1 v]
        by_cases hvd : v = dep
        · subst hvd
          simp [hd, hskip]
        · by_cases hvm : v ∈ ds
          · by_cases hvs : v = iId ∨ fs v = true
            · rcases hvs with h | h
              · subst h
                simp [hvm, hvd]
              · simp [hvm, hvd, h]
            · simp [hvm, hvs, hvd]
          · simp [hvm, hvd]
      · rw [ih2]
        have hfc : ds.filter (fun v =>
            ¬ (v = iId ∨ fs v = true) ∧
              (if v = dep then iD dep - 1 else iD v) = 1) =
            ds.filter (fun v => ¬ (v = iId ∨ fs v = true) ∧ iD v = 1) := by
          apply List.filter_congr
          intro a ha
          have had : a ≠ dep := fun h => hd (h ▸ ha)
          simp [had]
        rw [hfc, List.filter_cons]
        by_cases hid : iD dep = 1
        · rw [if_pos (show iD dep - 1 = 0 by omega),
            if_pos (decide_eq_true ⟨hskip, hid⟩), List.append_assoc]
          rfl
        · rw [if_neg (show ¬ iD dep - 1 = 0 by omega),
            if_neg (fun h => hid (of_decide_eq_true h).2)]

theorem deps_all_done (deps : String → List String)
    (hdn : ∀ v, (deps v).Nodup)
    (dp : List String) (curr : String) (V : String → Bool)
    (hVt : V curr = true) (hcnp : curr ∉ dp)
    (v : String) (hcd : curr ∈ deps v)
    (hcnt : ((deps v).length : Int) -
      (((deps v).filter (fun u => decide (u ∈ dp) && V u)).length : Int)
        = 1) :
    ∀ u ∈ deps v, u ∈ dp ++ [curr] ∧ V u = true := by
  have hc : (fun u => decide (u ∈ dp ++ [curr]) && V u) curr = true := by
    show (decide (curr ∈ dp ++ [curr]) && V curr) = true
    rw [decide_eq_true (List.mem_append_right dp
      (List.mem_singleton_self curr)), hVt]
    rfl
  have hpc : (fun u => decide (u ∈ dp) && V u) curr = false := by
    show (decide (curr ∈ dp) && V curr) = false
    rw [decide_eq_false hcnp]
    rfl
  have hne : ∀ u, u ≠ curr →
      (fun u => decide (u ∈ dp ++ [curr]) && V u) u =
      (fun u => decide (u ∈ dp) && V u) u := by
    intro u hu
    show (decide (u ∈ dp ++ [curr]) && V u) = (decide (u ∈ dp) && V u)
    have hiff : u ∈ dp ++ [curr] ↔ u ∈ dp := by
      rw [List.mem_append, List.mem_singleton]
      exact ⟨fun h => h.elim id (fun h2 => absurd h2 hu), Or.inl⟩
    rw [show decide (u ∈ dp ++ [curr]) = decide (u ∈ dp) from
      decide_eq_decide.mpr hiff]
  have hcount := length_filter_switch curr hc hpc hne (deps v) (hdn v)
  rw [if_pos hcd] at hcount
  have hle := List.length_filter_le
    (fun u => decide (u ∈ dp ++ [curr]) && V u) (deps v)
  have hflen : ((deps v).filter
      (fun u => decide (u ∈ dp ++ [curr]) && V u)).length
      = (deps v).length := by omega
  have hsl : (deps v).filter (fun u => decide (u ∈ dp ++ [curr]) && V u)
      = deps v := (List.filter_sublist _).eq_of_length hflen
  intro u hu
  have hmem : u ∈ (deps v).filter
      (fun u => decide (u ∈ dp ++ [curr]) && V u) := by
    rw [hsl]
    exact hu
  have hq := (List.mem_filter.mp hmem).2
  rw [Bool.and_eq_true] at hq
  exact ⟨of_decide_eq_true hq.1, hq.2⟩


theorem dispatchStep_inv (steps : List Step) (g : Graph) (iId : String)
    (ok : Oracle) (now cascFuel : Nat) (deps : String → List String)
    (hdd : ∀ u v, u ∈ deps v ↔ v ∈ g.dependents u)
    (hdom : ∀ v u, u ∈ deps v → u ∈ steps.map (·.id) ∧ v ∈ steps.map (·.id))
    (hdn : ∀ v, (deps v).Nodup)
    (hdptn : ∀ u, (g.dependents u).Nodup)
    (hirr : ∀ v, v ∉ deps v)
    (hexcl : iId ∉ steps.map (·.id))
    (hvar : ∀ s ∈ steps, s.run.isSingle = true ∨ s.run.isStrings = true ∨
      s.run.isSubRuns = true)
    (hfuel : (steps.map (·.id)).length + 1 ≤ cascFuel)
    (d : DispatchSt)
    (hinv : DispatchInv (steps.map (·.id)) deps g.dependents
      (stepVerdict steps ok) d)
    (curr : String) (rest : List String) (hq : d.queue = curr :: rest) :
    DispatchInv (steps.map (·.id)) deps g.dependents (stepVerdict steps ok)
      (dispatchStep steps g iId ok now cascFuel d) ∧
    (dispatchStep steps g iId ok now cascFuel d).processed =
      d.processed ++ [curr] := by
  obtain ⟨drs, diD, dq, dp, dc, dfs, dfa⟩ := d
  have hq2 : dq = curr :: rest := hq
  subst hq2
  have hdomdpt : ∀ u, ∀ v ∈ g.dependents u, v ∈ steps.map (·.id) :=
    fun u v hv => (hdom v u ((hdd u v).mpr hv)).2
  have hcin : curr ∈ steps.map (·.id) :=
    hinv.q_sub curr (List.mem_cons_self curr rest)
  rcases stepById_spec steps curr hcin with ⟨hsmem, hsid⟩
  have hcnp : curr ∉ dp := hinv.qp_disj curr (List.mem_cons_self curr rest)
  have hcnc : curr ∉ dc := hinv.qc_disj curr (List.mem_cons_self curr rest)
  have hstn : drs.steps (stepById steps curr).id = none := by
    rw [hsid]
    exact hinv.st_none curr hcnp hcnc
  have hcan : drs.cacheStore (stepById steps curr).id = none := by
    rw [hsid]
    by_contra h
    exact hcnp (hinv.cache_dom curr h)
  rcases runStep_fresh (stepById steps curr) ok now drs hstn hcan
    (hvar _ hsmem) with ⟨hE1, hE2, hE3, ⟨rows, hE4a, hE4b, hE4c⟩, hE5, hE6⟩
  rw [hsid] at hE2 hE3 hE4c hE5 hE6
  have hVc : (runStep (stepById steps curr) ok now drs).2 =
      stepVerdict steps ok curr := hE1
  have hcGood : ¬ hasFailingAnc g.dependents (stepVerdict steps ok)
      (steps.map (·.id)) curr :=
    hinv.q_good curr (List.mem_cons_self curr rest)
  have hmemP : ∀ x, x ∈ dp ++ [curr] ↔ (x ∈ dp ∨ x = curr) := by
    intro x
    rw [List.mem_append, List.mem_singleton]
  have h0 : dispatchStep steps g iId ok now cascFuel
      ⟨drs, diD, curr :: rest, dp, dc, dfs, dfa⟩ =
      if (runStep (stepById steps curr) ok now drs).2 = true then
        { rs := (runStep (stepById steps curr) ok now drs).1,
          inDeg := ((g.dependents curr).foldl
            (fun (acc : (String → Int) × List String) dep =>
              if dep = iId ∨ dfs dep = true then acc
              else
                let v := acc.1 dep - 1
                (fun k => if k = dep then v else acc.1 k,
                  if v = 0 then acc.2 ++ [dep] else acc.2))
            (diD, rest)).1,
          queue := ((g.dependents curr).foldl
            (fun (acc : (String → Int) × List String) dep =>
              if dep = iId ∨ dfs dep = true then acc
              else
                let v := acc.1 dep - 1
                (fun k => if k = dep then v else acc.1 k,
                  if v = 0 then acc.2 ++ [dep] else acc.2))
            (diD, rest)).2,
          processed := dp ++ [curr], cascaded := dc, failedSet := dfs,
          failedAny := dfa }
      else
        { rs := (cascadeFail g.dependents iId curr cascFuel
            (fun k => if k = curr then true else dfs k)
            (runStep (stepById steps curr) ok now drs).1).rs,
          inDeg := diD, queue := rest, processed := dp ++ [curr],
          cascaded := dc ++ (cascadeFail g.dependents iId curr cascFuel
            (fun k => if k = curr then true else dfs k)
            (runStep (stepById steps curr) ok now drs).1).cascaded,
          failedSet := (cascadeFail g.dependents iId curr cascFuel
            (fun k => if k = curr then true else dfs k)
            (runStep (stepById steps curr) ok now drs).1).failedSet,
          failedAny := true } := rfl
  by_cases hV : stepVerdict steps ok curr = true
  · -- success branch
    have hr2 : (runStep (stepById steps curr) ok now drs).2 = true :=
      hVc.trans hV
    have hds : dispatchStep steps g iId ok now cascFuel
        ⟨drs, diD, curr :: rest, dp, dc, dfs, dfa⟩ =
        { rs := (runStep (stepById steps curr) ok now drs).1,
          inDeg := ((g.dependents curr).foldl
            (fun (acc : (String → Int) × List String) dep =>
              if dep = iId ∨ dfs dep = true then acc
              else
                let v := acc.1 dep - 1
                (fun k => if k = dep then v else acc.1 k,
                  if v = 0 then acc.2 ++ [dep] else acc.2))
            (diD, rest)).1,
          queue := ((g.dependents curr).foldl
            (fun (acc : (String → Int) × List String) dep =>
              if dep = iId ∨ dfs dep = true then acc
              else
                let v := acc.1 dep - 1
                (fun k => if k = dep then v else acc.1 k,
                  if v = 0 then acc.2 ++ [dep] else acc.2))
            (diD, rest)).2,
          processed := dp ++ [curr], cascaded := dc, failedSet := dfs,
          failedAny := dfa } := by
      rw [h0, if_pos hr2]
    obtain ⟨nD, nQ, hds2, hF1, hF2⟩ :
        ∃ nD nQ, dispatchStep steps g iId ok now cascFuel
            ⟨drs, diD, curr :: rest, dp, dc, dfs, dfa⟩ =
          { rs := (runStep (stepById steps curr) ok now drs).1,
            inDeg := nD, queue := nQ, processed := dp ++ [curr],
            cascaded := dc, failedSet := dfs, failedAny := dfa } ∧
          (∀ v, nD v =
            if v ∈ g.dependents curr ∧ ¬ (v = iId ∨ dfs v = true) then
              diD v - 1 else diD v) ∧
          nQ = rest ++ (g.dependents curr).filter
            (fun v => ¬ (v = iId ∨ dfs v = true) ∧ diD v = 1) :=
      ⟨_, _, hds,
        (dispatchDecFold iId dfs (g.dependents curr) (hdptn curr) diD rest).1,
        (dispatchDecFold iId dfs (g.dependents curr) (hdptn curr) diD rest).2⟩
    -- newly enqueued members
    have hnew : ∀ v, v ∈ (g.dependents curr).filter
        (fun v => ¬ (v = iId ∨ dfs v = true) ∧ diD v = 1) →
        v ∈ g.dependents curr ∧ ¬ (v = iId ∨ dfs v = true) ∧ diD v = 1 := by
      intro v hv
      have h1 := List.mem_filter.mp hv
      have h2 := of_decide_eq_true h1.2
      exact ⟨h1.1, h2.1, h2.2⟩
    have hnew_unt : ∀ v, v ∈ (g.dependents curr).filter
        (fun v => ¬ (v = iId ∨ dfs v = true) ∧ diD v = 1) →
        v ∈ steps.map (·.id) ∧ v ∉ dp ∧ v ∉ dc ∧ v ∉ curr :: rest ∧
          curr ∈ deps v := by
      intro v hv
      rcases hnew v hv with ⟨hvd, hvs, hv1⟩
      have hcd : curr ∈ deps v := (hdd curr v).mpr hvd
      have hvin : v ∈ steps.map (·.id) := (hdom v curr hcd).2
      have hvnp : v ∉ dp := by
        intro h
        exact hcnp (hinv.pq_deps v (Or.inl h) curr hcd).1
      have hvnc : v ∉ dc := by
        intro h
        exact hvs (Or.inr ((hinv.fs_iff v).mpr (Or.inr h)))
      have hvnq : v ∉ curr :: rest := by
        intro h
        exact hcnp (hinv.pq_deps v (Or.inr h) curr hcd).1
      exact ⟨hvin, hvnp, hvnc, hvnq, hcd⟩
    have hnew_deps : ∀ v, v ∈ (g.dependents curr).filter
        (fun v => ¬ (v = iId ∨ dfs v = true) ∧ diD v = 1) →
        ∀ u ∈ deps v, u ∈ dp ++ [curr] ∧ stepVerdict steps ok u = true := by
      intro v hv
      rcases hnew v hv with ⟨hvd, hvs, hv1⟩
      rcases hnew_unt v hv with ⟨hvin, hvnp, hvnc, hvnq, hcd⟩
      have hcnt : diD v = ((deps v).length : Int) -
          (((deps v).filter (fun u => decide (u ∈ dp) &&
            stepVerdict steps ok u)).length : Int) :=
        hinv.ind_cnt v hvin hvnp hvnc
      exact deps_all_done deps hdn dp curr (stepVerdict steps ok) hV hcnp
        v hcd (by omega)
    have hnew_good : ∀ v, v ∈ (g.dependents curr).filter
        (fun v => ¬ (v = iId ∨ dfs v = true) ∧ diD v = 1) →
        ¬ hasFailingAnc g.dependents (stepVerdict steps ok)
          (steps.map (·.id)) v := by
      intro v hv
      rintro ⟨u, hu, hVu, hr⟩
      rcases reaches_last g.dependents u v hr with ⟨w, hwv, hwu⟩
      have hwd : w ∈ deps v := (hdd w v).mpr hwv
      rcases hnew_deps v hv w hwd with ⟨hwP, hwV⟩
      rcases hwu with rfl | hwr
      · rw [hVu] at hwV
        exact absurd hwV Bool.false_ne_true
      · rcases (hmemP w).mp hwP with hwp | hwc
        · exact hinv.proc_good w hwp ⟨u, hu, hVu, hwr⟩
        · subst hwc
          exact hcGood ⟨u, hu, hVu, hwr⟩
    have hrest_nd : ∀ v ∈ rest, v ∉ g.dependents curr := by
      intro v hvr hvd
      have hcd : curr ∈ deps v := (hdd curr v).mpr hvd
      exact hcnp (hinv.pq_deps v
        (Or.inr (List.mem_cons_of_mem curr hvr)) curr hcd).1
    rw [hds2]
    constructor
    · refine ⟨?_, ?_, ?_, ?_, ?_, ?_, ?_, ?_, ?_, ?_, ?_, ?_, ?_, ?_, ?_,
        ?_, ?_, ?_, ?_, ?_, ?_, ?_, ?_, ?_, ?_⟩
      · -- q_sub
        intro v hv
        have hv2 : v ∈ nQ := hv
        rw [hF2] at hv2
        rcases List.mem_append.mp hv2 with h | h
        · exact hinv.q_sub v (List.mem_cons_of_mem curr h)
        · exact (hnew_unt v h).1
      · -- p_sub
        intro v hv
        have hv2 : v ∈ dp ++ [curr] := hv
        rcases (hmemP v).mp hv2 with h | h
        · exact hinv.p_sub v h
        · exact h ▸ hcin
      · -- c_sub
        exact hinv.c_sub
      · -- q_nodup
        show nQ.Nodup
        rw [hF2]
        refine ((List.nodup_cons.mp hinv.q_nodup).2).append
          ((hdptn curr).filter _) ?_
        intro a ha hb
        exact (hnew_unt a hb).2.2.2.1 (List.mem_cons_of_mem curr ha)
      · -- p_nodup
        exact hinv.p_nodup.append (List.nodup_singleton curr)
          (fun a ha hb => by
            rw [List.mem_singleton] at hb
            exact hcnp (hb ▸ ha))
      · -- c_nodup
        exact hinv.c_nodup
      · -- qp_disj
        intro v hv
        have hv2 : v ∈ nQ := hv
        rw [hF2] at hv2
        intro hvp
        have hvp2 : v ∈ dp ++ [curr] := hvp
        rcases List.mem_append.mp hv2 with h | h
        · rcases (hmemP v).mp hvp2 with h2 | h2
          · exact hinv.qp_disj v (List.mem_cons_of_mem curr h) h2
          · exact (List.nodup_cons.mp hinv.q_nodup).1 (h2 ▸ h)
        · rcases (hmemP v).mp hvp2 with h2 | h2
          · exact (hnew_unt v h).2.1 h2
          · subst h2
            exact hirr v ((hdd v v).mpr (hnew v h).1)
      · -- qc_disj
        intro v hv
        have hv2 : v ∈ nQ := hv
        rw [hF2] at hv2
        rcases List.mem_append.mp hv2 with h | h
        · exact hinv.qc_disj v (List.mem_cons_of_mem curr h)
        · exact (hnew_unt v h).2.2.1
      · -- pc_disj
        intro v hv
        have hv2 : v ∈ dp ++ [curr] := hv
        rcases (hmemP v).mp hv2 with h | h
        · exact hinv.pc_disj v h
        · exact h ▸ hcnc
      · -- fs_iff
        intro v
        have hfs : dfs v = true ↔
            ((v ∈ dp ∧ stepVerdict steps ok v = false) ∨ v ∈ dc) :=
          hinv.fs_iff v
        show dfs v = true ↔
          ((v ∈ dp ++ [curr] ∧ stepVerdict steps ok v = false) ∨ v ∈ dc)
        rw [hfs]
        constructor
        · rintro (⟨h1, h2⟩ | h)
          · exact Or.inl ⟨List.mem_append_left _ h1, h2⟩
          · exact Or.inr h
        · rintro (⟨h1, h2⟩ | h)
          · rcases (hmemP v).mp h1 with h3 | h3
            · exact Or.inl ⟨h3, h2⟩
            · subst h3
              rw [hV] at h2
              exact absurd h2 (by decide : ¬ (true = false))
          · exact Or.inr h
      · -- fs_closed
        exact hinv.fs_closed
      · -- st_done
        intro v hv hVv
        have hv2 : v ∈ dp ++ [curr] := hv
        rcases (hmemP v).mp hv2 with h | h
        · have hvne : v ≠ curr := fun he => hcnp (he ▸ h)
          show (getSS (runStep (stepById steps curr) ok now drs).1 v).status
            = "done"
          unfold getSS
          rw [hE2 v hvne]
          exact hinv.st_done v h hVv
        · subst h
          exact hE5 hr2
      · -- st_fail
        intro v hv hVv
        have hv2 : v ∈ dp ++ [curr] := hv
        rcases (hmemP v).mp hv2 with h | h
        · have hvne : v ≠ curr := fun he => hcnp (he ▸ h)
          show (getSS (runStep (stepById steps curr) ok now drs).1 v).status
            = "failed"
          unfold getSS
          rw [hE2 v hvne]
          exact hinv.st_fail v h hVv
        · subst h
          rw [hV] at hVv
          exact absurd hVv (by decide : ¬ (true = false))
      · -- st_casc
        intro v hv
        have hv2 : v ∈ dc := hv
        have hvne : v ≠ curr := fun he => hcnc (he ▸ hv2)
        show (getSS (runStep (stepById steps curr) ok now drs).1 v).status
          = "failed"
        unfold getSS
        rw [hE2 v hvne]
        exact hinv.st_casc v hv2
      · -- st_none
        intro v hvp hvc
        have hvp2 : v ∉ dp ++ [curr] := hvp
        have hvc2 : v ∉ dc := hvc
        have hvne : v ≠ curr := fun h =>
          hvp2 (List.mem_append_right _ (List.mem_singleton.mpr h))
        have hvp0 : v ∉ dp := fun h => hvp2 (List.mem_append_left _ h)
        show (runStep (stepById steps curr) ok now drs).1.steps v = none
        rw [hE2 v hvne]
        exact hinv.st_none v hvp0 hvc2
      · -- proc_good
        intro v hv
        have hv2 : v ∈ dp ++ [curr] := hv
        rcases (hmemP v).mp hv2 with h | h
        · exact hinv.proc_good v h
        · exact h ▸ hcGood
      · -- q_good
        intro v hv
        have hv2 : v ∈ nQ := hv
        rw [hF2] at hv2
        rcases List.mem_append.mp hv2 with h | h
        · exact hinv.q_good v (List.mem_cons_of_mem curr h)
        · exact hnew_good v h
      · -- c_bad
        exact hinv.c_bad
      · -- cache_dom
        intro k hk
        have hk2 : (runStep (stepById steps curr) ok now drs).1.cacheStore k
            ≠ none := hk
        show k ∈ dp ++ [curr]
        by_cases hkc : k = curr
        · exact (hmemP k).mpr (Or.inr hkc)
        · rw [hE3 k hkc] at hk2
          exact (hmemP k).mpr (Or.inl (hinv.cache_dom k hk2))
      · -- tr_own
        intro r hr
        have hr0 : r ∈ (runStep (stepById steps curr) ok now drs).1.trace :=
          hr
        rw [hE4a] at hr0
        show ∃ v ∈ dp ++ [curr], ownsRow v r.1
        rcases List.mem_append.mp hr0 with h | h
        · rcases hinv.tr_own r h with ⟨v, hv1, hv2⟩
          exact ⟨v, (hmemP v).mpr (Or.inl hv1), hv2⟩
        · exact ⟨curr, (hmemP curr).mpr (Or.inr rfl), hE4c r h⟩
      · -- tr_ran
        intro v hv
        have hv2 : v ∈ dp ++ [curr] := hv
        show ∃ r ∈ (runStep (stepById steps curr) ok now drs).1.trace,
          ownsRow v r.1
        rw [hE4a]
        rcases (hmemP v).mp hv2 with h | h
        · rcases hinv.tr_ran v h with ⟨r, hr1, hr2b⟩
          exact ⟨r, List.mem_append_left _ hr1, hr2b⟩
        · subst h
          cases hrows : rows with
          | nil => exact absurd hrows hE4b
          | cons r0 rtl =>
            refine ⟨r0, List.mem_append_right _ (List.mem_cons_self r0 rtl),
              ?_⟩
            exact hE4c r0 (by rw [hrows]; exact List.mem_cons_self r0 rtl)
      · -- q_zero
        intro v hv
        have hv2 : v ∈ nQ := hv
        rw [hF2] at hv2
        show nD v = 0
        rw [hF1 v]
        rcases List.mem_append.mp hv2 with h | h
        · rw [if_neg (fun hcon => hrest_nd v h hcon.1)]
          exact hinv.q_zero v (List.mem_cons_of_mem curr h)
        · rcases hnew v h with ⟨hvd, hvs, hv1⟩
          rw [if_pos (show v ∈ g.dependents curr ∧
            ¬ (v = iId ∨ dfs v = true) from ⟨hvd, hvs⟩), hv1]
          rfl
      · -- pq_deps
        intro v hv u hu
        have hv2 : v ∈ dp ++ [curr] ∨ v ∈ nQ := hv
        show u ∈ dp ++ [curr] ∧ stepVerdict steps ok u = true
        rcases hv2 with hv3 | hv3
        · rcases (hmemP v).mp hv3 with h | h
          · rcases hinv.pq_deps v (Or.inl h) u hu with ⟨h1, h2⟩
            exact ⟨(hmemP u).mpr (Or.inl h1), h2⟩
          · subst h
            rcases hinv.pq_deps v
              (Or.inr (List.mem_cons_self v rest)) u hu with ⟨h1, h2⟩
            exact ⟨(hmemP u).mpr (Or.inl h1), h2⟩
        · rw [hF2] at hv3
          rcases List.mem_append.mp hv3 with h | h
          · rcases hinv.pq_deps v
              (Or.inr (List.mem_cons_of_mem curr h)) u hu with ⟨h1, h2⟩
            exact ⟨(hmemP u).mpr (Or.inl h1), h2⟩
          · exact hnew_deps v h u hu
      · -- ind_cnt
        intro v hvin hvp hvc
        have hvp2 : v ∉ dp ++ [curr] := hvp
        have hvc2 : v ∉ dc := hvc
        have hvp0 : v ∉ dp := fun h => hvp2 (List.mem_append_left _ h)
        have hvne : v ≠ curr := fun h =>
          hvp2 (List.mem_append_right _ (List.mem_singleton.mpr h))
        have hold : diD v = ((deps v).length : Int) -
            (((deps v).filter (fun u => decide (u ∈ dp) &&
              stepVerdict steps ok u)).length : Int) :=
          hinv.ind_cnt v hvin hvp0 hvc2
        have hvnf : dfs v = false := by
          cases hfs : dfs v
          · rfl
          · rcases (hinv.fs_iff v).mp hfs with ⟨h1, _⟩ | h1
            · exact absurd h1 hvp0
            · exact absurd h1 hvc2
        have hvni : v ≠ iId := fun h => hexcl (h ▸ hvin)
        have hns : ¬ (v = iId ∨ dfs v = true) := by
          rintro (h2 | h2)
          · exact hvni h2
          · rw [hvnf] at h2
            exact absurd h2 Bool.false_ne_true
        have hc : (fun u => decide (u ∈ dp ++ [curr]) &&
            stepVerdict steps ok u) curr = true := by
          show (decide (curr ∈ dp ++ [curr]) && stepVerdict steps ok curr)
            = true
          rw [decide_eq_true (List.mem_append_right dp
            (List.mem_singleton_self curr)), hV]
          rfl
        have hpc : (fun u => decide (u ∈ dp) && stepVerdict steps ok u) curr
            = false := by
          show (decide (curr ∈ dp) && stepVerdict steps ok curr) = false
          rw [decide_eq_false hcnp]
          rfl
        have hne : ∀ u, u ≠ curr →
            (fun u => decide (u ∈ dp ++ [curr]) && stepVerdict steps ok u) u =
            (fun u => decide (u ∈ dp) && stepVerdict steps ok u) u := by
          intro u hu2
          show (decide (u ∈ dp ++ [curr]) && stepVerdict steps ok u) =
            (decide (u ∈ dp) && stepVerdict steps ok u)
          have hiff : u ∈ dp ++ [curr] ↔ u ∈ dp := by
            rw [List.mem_append, List.mem_singleton]
            exact ⟨fun h => h.elim id (fun h2 => absurd h2 hu2), Or.inl⟩
          rw [show decide (u ∈ dp ++ [curr]) = decide (u ∈ dp) from
            decide_eq_decide.mpr hiff]
        have hcount := length_filter_switch curr hc hpc hne (deps v) (hdn v)
        show nD v = ((deps v).length : Int) -
          (((deps v).filter (fun u => decide (u ∈ dp ++ [curr]) &&
            stepVerdict steps ok u)).length : Int)
        rw [hF1 v]
        by_cases hvd : v ∈ g.dependents curr
        · rw [if_pos (show v ∈ g.dependents curr ∧
            ¬ (v = iId ∨ dfs v = true) from ⟨hvd, hns⟩)]
          have hcd : curr ∈ deps v := (hdd curr v).mpr hvd
          rw [if_pos hcd] at hcount
          omega
        · rw [if_neg (show ¬ (v ∈ g.dependents curr ∧
            ¬ (v = iId ∨ dfs v = true)) from fun hcon => hvd hcon.1)]
          have hcd : curr ∉ deps v := fun h => hvd ((hdd curr v).mp h)
          rw [if_neg hcd] at hcount
          omega
      · -- cov
        intro v hvin hvp hvc hvq
        have hvp2 : v ∉ dp ++ [curr] := hvp
        have hvc2 : v ∉ dc := hvc
        have hvq2 : v ∉ nQ := hvq
        rw [hF2] at hvq2
        have hvp0 : v ∉ dp := fun h => hvp2 (List.mem_append_left _ h)
        have hvne : v ≠ curr := fun h =>
          hvp2 (List.mem_append_right _ (List.mem_singleton.mpr h))
        have hvnr : v ∉ rest := fun h => hvq2 (List.mem_append_left _ h)
        have hvnn : v ∉ (g.dependents curr).filter
            (fun x => ¬ (x = iId ∨ dfs x = true) ∧ diD x = 1) :=
          fun h => hvq2 (List.mem_append_right _ h)
        have hold : 0 < diD v := hinv.cov v hvin hvp0 hvc2 (by
          intro h
          rcases List.mem_cons.mp h with h | h
          · exact hvne h
          · exact hvnr h)
        show 0 < nD v
        rw [hF1 v]
        by_cases hvd : v ∈ g.dependents curr
        · have hvnf : dfs v = false := by
            cases hfs : dfs v
            · rfl
            · rcases (hinv.fs_iff v).mp hfs with ⟨h1, _⟩ | h1
              · exact absurd h1 hvp0
              · exact absurd h1 hvc2
          have hvni : v ≠ iId := fun h => hexcl (h ▸ hvin)
          have hns : ¬ (v = iId ∨ dfs v = true) := by
            rintro (h2 | h2)
            · exact hvni h2
            · rw [hvnf] at h2
              exact absurd h2 Bool.false_ne_true
          rw [if_pos (show v ∈ g.dependents curr ∧
            ¬ (v = iId ∨ dfs v = true) from ⟨hvd, hns⟩)]
          have hne1 : ¬ diD v = 1 := fun h1 =>
            hvnn (List.mem_filter.mpr ⟨hvd, decide_eq_true ⟨hns, h1⟩⟩)
          omega
        · rw [if_neg (show ¬ (v ∈ g.dependents curr ∧
            ¬ (v = iId ∨ dfs v = true)) from fun hcon => hvd hcon.1)]
          exact hold
    · rfl
  · -- failure branch
    have hVf : stepVerdict steps ok curr = false := by
      cases h : stepVerdict steps ok curr
      · rfl
      · exact absurd h hV
    have hr2 : (runStep (stepById steps curr) ok now drs).2 = false :=
      hVc.trans hVf
    have hdf : dispatchStep steps g iId ok now cascFuel
        ⟨drs, diD, curr :: rest, dp, dc, dfs, dfa⟩ =
        { rs := (cascadeFail g.dependents iId curr cascFuel
            (fun k => if k = curr then true else dfs k)
            (runStep (stepById steps curr) ok now drs).1).rs,
          inDeg := diD, queue := rest, processed := dp ++ [curr],
          cascaded := dc ++ (cascadeFail g.dependents iId curr cascFuel
            (fun k => if k = curr then true else dfs k)
            (runStep (stepById steps curr) ok now drs).1).cascaded,
          failedSet := (cascadeFail g.dependents iId curr cascFuel
            (fun k => if k = curr then true else dfs k)
            (runStep (stepById steps curr) ok now drs).1).failedSet,
          failedAny := true } := by
      rw [h0, if_neg (show
        ¬ (runStep (stepById steps curr) ok now drs).2 = true by
          rw [hr2]; exact Bool.false_ne_true)]
    obtain ⟨C, hdf2, hCeq⟩ :
        ∃ C : CascSt, dispatchStep steps g iId ok now cascFuel
            ⟨drs, diD, curr :: rest, dp, dc, dfs, dfa⟩ =
          { rs := C.rs, inDeg := diD, queue := rest,
            processed := dp ++ [curr], cascaded := dc ++ C.cascaded,
            failedSet := C.failedSet, failedAny := true } ∧
          C = cascadeFail g.dependents iId curr cascFuel
            (fun k => if k = curr then true else dfs k)
            (runStep (stepById steps curr) ok now drs).1 :=
      ⟨cascadeFail g.dependents iId curr cascFuel
        (fun k => if k = curr then true else dfs k)
        (runStep (stepById steps curr) ok now drs).1, hdf, rfl⟩
    have hfs0t : (fun k => if k = curr then true else dfs k) curr = true := by
      show (if curr = curr then true else dfs curr) = true
      rw [if_pos rfl]
    have hcl0 : ∀ u, (fun k => if k = curr then true else dfs k) u = true →
        u = curr ∨ ∀ v ∈ g.dependents u, v = iId ∨
          (fun k => if k = curr then true else dfs k) v = true := by
      intro u hu
      by_cases huc : u = curr
      · exact Or.inl huc
      · right
        have hu2 : dfs u = true := by
          have h3 : (if u = curr then true else dfs u) = true := hu
          rwa [if_neg huc] at h3
        intro v hv
        right
        show (if v = curr then true else dfs v) = true
        by_cases hvc : v = curr
        · rw [if_pos hvc]
        · rw [if_neg hvc]
          exact hinv.fs_closed u hu2 v hv
    rcases cascadeFail_spec (steps.map (·.id)) g.dependents iId curr hdomdpt
      hcin (fun k => if k = curr then true else dfs k)
      (runStep (stepById steps curr) ok now drs).1 hfs0t hcl0 cascFuel hfuel
      with ⟨hCI, hCcl⟩
    rw [← hCeq] at hCI hCcl
    have anc_proc : ∀ u v, Reaches g.dependents u v →
        (v ∈ dp ∨ v ∈ curr :: rest) →
        u ∈ dp ∧ stepVerdict steps ok u = true := by
      intro u v hr
      induction hr with
      | edge h =>
        intro hv
        exact hinv.pq_deps _ hv _ ((hdd _ _).mpr h)
      | tail hw hr2b ih =>
        intro hv
        exact hinv.pq_deps _ (Or.inl (ih hv).1) _ ((hdd _ _).mpr hw)
    have hcc_facts : ∀ v ∈ C.cascaded, v ∈ steps.map (·.id) ∧ v ≠ curr ∧
        dfs v = false ∧ v ∉ dp ∧ v ∉ dc ∧ v ∉ curr :: rest ∧
        Reaches g.dependents curr v := by
      intro v hv
      have hvin := hCI.c_sub v hv
      have hnewv : (if v = curr then true else dfs v) = false :=
        hCI.c_new v hv
      have hvne : v ≠ curr := by
        intro h
        rw [if_pos h] at hnewv
        exact absurd hnewv (by decide : ¬ (true = false))
      have hdfsv : dfs v = false := by
        rwa [if_neg hvne] at hnewv
      have hreach := hCI.c_reach v hv
      have hvnp : v ∉ dp := fun h =>
        hcnp (anc_proc curr v hreach (Or.inl h)).1
      have hvnq : v ∉ curr :: rest := fun h =>
        hcnp (anc_proc curr v hreach (Or.inr h)).1
      have hvnc : v ∉ dc := by
        intro h
        have h2 : dfs v = true := (hinv.fs_iff v).mpr (Or.inr h)
        rw [hdfsv] at h2
        exact absurd h2 Bool.false_ne_true
      exact ⟨hvin, hvne, hdfsv, hvnp, hvnc, hvnq, hreach⟩
    rw [hdf2]
    constructor
    · refine ⟨?_, ?_, ?_, ?_, ?_, ?_, ?_, ?_, ?_, ?_, ?_, ?_, ?_, ?_, ?_,
        ?_, ?_, ?_, ?_, ?_, ?_, ?_, ?_, ?_, ?_⟩
      · -- q_sub
        intro v hv
        have hv2 : v ∈ rest := hv
        exact hinv.q_sub v (List.mem_cons_of_mem curr hv2)
      · -- p_sub
        intro v hv
        have hv2 : v ∈ dp ++ [curr] := hv
        rcases (hmemP v).mp hv2 with h | h
        · exact hinv.p_sub v h
        · exact h ▸ hcin
      · -- c_sub
        intro v hv
        have hv2 : v ∈ dc ++ C.cascaded := hv
        rcases List.mem_append.mp hv2 with h | h
        · exact hinv.c_sub v h
        · exact (hcc_facts v h).1
      · -- q_nodup
        exact (List.nodup_cons.mp hinv.q_nodup).2
      · -- p_nodup
        exact hinv.p_nodup.append (List.nodup_singleton curr)
          (fun a ha hb => by
            rw [List.mem_singleton] at hb
            exact hcnp (hb ▸ ha))
      · -- c_nodup
        exact hinv.c_nodup.append hCI.c_nodup
          (fun a ha hb => (hcc_facts a hb).2.2.2.2.1 ha)
      · -- qp_disj
        intro v hv
        have hv2 : v ∈ rest := hv
        intro hvp
        have hvp2 : v ∈ dp ++ [curr] := hvp
        rcases (hmemP v).mp hvp2 with h | h
        · exact hinv.qp_disj v (List.mem_cons_of_mem curr hv2) h
        · exact (List.nodup_cons.mp hinv.q_nodup).1 (h ▸ hv2)
      · -- qc_disj
        intro v hv
        have hv2 : v ∈ rest := hv
        intro hvc
        have hvc2 : v ∈ dc ++ C.cascaded := hvc
        rcases List.mem_append.mp hvc2 with h | h
        · exact hinv.qc_disj v (List.mem_cons_of_mem curr hv2) h
        · exact (hcc_facts v h).2.2.2.2.2.1 (List.mem_cons_of_mem curr hv2)
      · -- pc_disj
        intro v hv
        have hv2 : v ∈ dp ++ [curr] := hv
        intro hvc
        have hvc2 : v ∈ dc ++ C.cascaded := hvc
        rcases (hmemP v).mp hv2 with h | h
        · rcases List.mem_append.mp hvc2 with h2 | h2
          · exact hinv.pc_disj v h h2
          · exact (hcc_facts v h2).2.2.2.1 h
        · subst h
          rcases List.mem_append.mp hvc2 with h2 | h2
          · exact hcnc h2
          · exact (hcc_facts v h2).2.1 rfl
      · -- fs_iff
        intro v
        show C.failedSet v = true ↔
          ((v ∈ dp ++ [curr] ∧ stepVerdict steps ok v = false) ∨
            v ∈ dc ++ C.cascaded)
        rw [hCI.fs_iff v]
        constructor
        · rintro (hf | hc2)
          · have hf2 : (if v = curr then true else dfs v) = true := hf
            by_cases hvc : v = curr
            · subst hvc
              exact Or.inl ⟨List.mem_append_right _
                (List.mem_singleton_self v), hVf⟩
            · rw [if_neg hvc] at hf2
              rcases (hinv.fs_iff v).mp hf2 with ⟨h1, h2⟩ | h1
              · exact Or.inl ⟨List.mem_append_left _ h1, h2⟩
              · exact Or.inr (List.mem_append_left _ h1)
          · exact Or.inr (List.mem_append_right _ hc2)
        · rintro (⟨h1, h2⟩ | h1)
          · rcases (hmemP v).mp h1 with h3 | h3
            · left
              show (if v = curr then true else dfs v) = true
              have hvnec : ¬ v = curr := fun he => hcnp (he ▸ h3)
              rw [if_neg hvnec]
              exact (hinv.fs_iff v).mpr (Or.inl ⟨h3, h2⟩)
            · left
              show (if v = curr then true else dfs v) = true
              rw [if_pos h3]
          · rcases List.mem_append.mp h1 with h3 | h3
            · left
              show (if v = curr then true else dfs v) = true
              have hvnec : ¬ v = curr := fun he => hcnc (he ▸ h3)
              rw [if_neg hvnec]
              exact (hinv.fs_iff v).mpr (Or.inr h3)
            · exact Or.inr h3
      · -- fs_closed
        intro u hu v hv
        have hu2 : C.failedSet u = true := hu
        rcases hCcl u hu2 v hv with h | h
        · exact absurd (h ▸ hdomdpt u v hv) hexcl
        · exact h
      · -- st_done
        intro v hv hVv
        have hv2 : v ∈ dp ++ [curr] := hv
        rcases (hmemP v).mp hv2 with h | h
        · have hvne : v ≠ curr := fun he => hcnp (he ▸ h)
          have hnc2 : v ∉ C.cascaded := fun h2 =>
            (hcc_facts v h2).2.2.2.1 h
          show (getSS C.rs v).status = "done"
          unfold getSS
          rw [hCI.rs_loc v hnc2, hE2 v hvne]
          exact hinv.st_done v h hVv
        · subst h
          rw [hVf] at hVv
          exact absurd hVv Bool.false_ne_true
      · -- st_fail
        intro v hv hVv
        have hv2 : v ∈ dp ++ [curr] := hv
        rcases (hmemP v).mp hv2 with h | h
        · have hvne : v ≠ curr := fun he => hcnp (he ▸ h)
          have hnc2 : v ∉ C.cascaded := fun h2 =>
            (hcc_facts v h2).2.2.2.1 h
          show (getSS C.rs v).status = "failed"
          unfold getSS
          rw [hCI.rs_loc v hnc2, hE2 v hvne]
          exact hinv.st_fail v h hVv
        · subst h
          have hncc : v ∉ C.cascaded := fun h2 =>
            (hcc_facts v h2).2.1 rfl
          show (getSS C.rs v).status = "failed"
          unfold getSS
          rw [hCI.rs_loc v hncc]
          exact hE6 hr2
      · -- st_casc
        intro v hv
        have hv2 : v ∈ dc ++ C.cascaded := hv
        rcases List.mem_append.mp hv2 with h | h
        · have hvne : v ≠ curr := fun he => hcnc (he ▸ h)
          have hnc2 : v ∉ C.cascaded := fun h2 =>
            (hcc_facts v h2).2.2.2.2.1 h
          show (getSS C.rs v).status = "failed"
          unfold getSS
          rw [hCI.rs_loc v hnc2, hE2 v hvne]
          exact hinv.st_casc v h
        · show (getSS C.rs v).status = "failed"
          exact hCI.rs_st v h
      · -- st_none
        intro v hvp hvc
        have hvp2 : v ∉ dp ++ [curr] := hvp
        have hvc2 : v ∉ dc ++ C.cascaded := hvc
        have hvp0 : v ∉ dp := fun h => hvp2 (List.mem_append_left _ h)
        have hvne : v ≠ curr := fun h =>
          hvp2 (List.mem_append_right _ (List.mem_singleton.mpr h))
        have hvdc : v ∉ dc := fun h => hvc2 (List.mem_append_left _ h)
        have hvcc : v ∉ C.cascaded := fun h =>
          hvc2 (List.mem_append_right _ h)
        show C.rs.steps v = none
        rw [hCI.rs_loc v hvcc, hE2 v hvne]
        exact hinv.st_none v hvp0 hvdc
      · -- proc_good
        intro v hv
        have hv2 : v ∈ dp ++ [curr] := hv
        rcases (hmemP v).mp hv2 with h | h
        · exact hinv.proc_good v h
        · exact h ▸ hcGood
      · -- q_good
        intro v hv
        have hv2 : v ∈ rest := hv
        exact hinv.q_good v (List.mem_cons_of_mem curr hv2)
      · -- c_bad
        intro v hv
        have hv2 : v ∈ dc ++ C.cascaded := hv
        rcases List.mem_append.mp hv2 with h | h
        · exact hinv.c_bad v h
        · exact ⟨curr, hcin, hVf, (hcc_facts v h).2.2.2.2.2.2⟩
      · -- cache_dom
        intro k hk
        have hk2 : C.rs.cacheStore k ≠ none := hk
        rw [hCI.rs_cache] at hk2
        show k ∈ dp ++ [curr]
        by_cases hkc : k = curr
        · exact (hmemP k).mpr (Or.inr hkc)
        · rw [hE3 k hkc] at hk2
          exact (hmemP k).mpr (Or.inl (hinv.cache_dom k hk2))
      · -- tr_own
        intro r hr
        have hr0 : r ∈ C.rs.trace := hr
        rw [hCI.rs_trace, hE4a] at hr0
        show ∃ v ∈ dp ++ [curr], ownsRow v r.1
        rcases List.mem_append.mp hr0 with h | h
        · rcases hinv.tr_own r h with ⟨v, hv1, hv2⟩
          exact ⟨v, (hmemP v).mpr (Or.inl hv1), hv2⟩
        · exact ⟨curr, (hmemP curr).mpr (Or.inr rfl), hE4c r h⟩
      · -- tr_ran
        intro v hv
        have hv2 : v ∈ dp ++ [curr] := hv
        show ∃ r ∈ C.rs.trace, ownsRow v r.1
        rw [hCI.rs_trace, hE4a]
        rcases (hmemP v).mp hv2 with h | h
        · rcases hinv.tr_ran v h with ⟨r, hr1, hr2b⟩
          exact ⟨r, List.mem_append_left _ hr1, hr2b⟩
        · subst h
          cases hrows : rows with
          | nil => exact absurd hrows hE4b
          | cons r0 rtl =>
            refine ⟨r0, List.mem_append_right _ (List.mem_cons_self r0 rtl),
              ?_⟩
            exact hE4c r0 (by rw [hrows]; exact List.mem_cons_self r0 rtl)
      · -- q_zero
        intro v hv
        have hv2 : v ∈ rest := hv
        show diD v = 0
        exact hinv.q_zero v (List.mem_cons_of_mem curr hv2)
      · -- pq_deps
        intro v hv u hu
        have hv2 : v ∈ dp ++ [curr] ∨ v ∈ rest := hv
        show u ∈ dp ++ [curr] ∧ stepVerdict steps ok u = true
        have key : u ∈ dp ∧ stepVerdict steps ok u = true := by
          rcases hv2 with hv3 | hv3
          · rcases (hmemP v).mp hv3 with h | h
            · exact hinv.pq_deps v (Or.inl h) u hu
            · subst h
              exact hinv.pq_deps v
                (Or.inr (List.mem_cons_self v rest)) u hu
          · exact hinv.pq_deps v
              (Or.inr (List.mem_cons_of_mem curr hv3)) u hu
        exact ⟨List.mem_append_left _ key.1, key.2⟩
      · -- ind_cnt
        intro v hvin hvp hvc
        have hvp2 : v ∉ dp ++ [curr] := hvp
        have hvc2 : v ∉ dc ++ C.cascaded := hvc
        have hvp0 : v ∉ dp := fun h => hvp2 (List.mem_append_left _ h)
        have hvne : v ≠ curr := fun h =>
          hvp2 (List.mem_append_right _ (List.mem_singleton.mpr h))
        have hvdc : v ∉ dc := fun h => hvc2 (List.mem_append_left _ h)
        have hold : diD v = ((deps v).length : Int) -
            (((deps v).filter (fun u => decide (u ∈ dp) &&
              stepVerdict steps ok u)).length : Int) :=
          hinv.ind_cnt v hvin hvp0 hvdc
        have hfeq : (deps v).filter (fun u => decide (u ∈ dp ++ [curr]) &&
            stepVerdict steps ok u) =
            (deps v).filter (fun u => decide (u ∈ dp) &&
              stepVerdict steps ok u) := by
          apply List.filter_congr
          intro u hu
          by_cases huc : u = curr
          · subst huc
            show (decide (u ∈ dp ++ [u]) && stepVerdict steps ok u) =
              (decide (u ∈ dp) && stepVerdict steps ok u)
            rw [hVf, Bool.and_false, Bool.and_false]
          · show (decide (u ∈ dp ++ [curr]) && stepVerdict steps ok u) =
              (decide (u ∈ dp) && stepVerdict steps ok u)
            have hiff : u ∈ dp ++ [curr] ↔ u ∈ dp := by
              rw [List.mem_append, List.mem_singleton]
              exact ⟨fun h => h.elim id (fun h2 => absurd h2 huc), Or.inl⟩
            rw [show decide (u ∈ dp ++ [curr]) = decide (u ∈ dp) from
              decide_eq_decide.mpr hiff]
        show diD v = ((deps v).length : Int) -
          (((deps v).filter (fun u => decide (u ∈ dp ++ [curr]) &&
            stepVerdict steps ok u)).length : Int)
        rw [hfeq]
        exact hold
      · -- cov
        intro v hvin hvp hvc hvq
        have hvp2 : v ∉ dp ++ [curr] := hvp
        have hvc2 : v ∉ dc ++ C.cascaded := hvc
        have hvq2 : v ∉ rest := hvq
        have hvp0 : v ∉ dp := fun h => hvp2 (List.mem_append_left _ h)
        have hvne : v ≠ curr := fun h =>
          hvp2 (List.mem_append_right _ (List.mem_singleton.mpr h))
        have hvdc : v ∉ dc := fun h => hvc2 (List.mem_append_left _ h)
        show 0 < diD v
        exact hinv.cov v hvin hvp0 hvdc (by
          intro h
          rcases List.mem_cons.mp h with h | h
          · exact hvne h
          · exact hvq2 h)
    · rfl


theorem dispatchInv_proc_len (ids : List String)
    (deps dpts : String → List String) (V : String → Bool) (d : DispatchSt)
    (h : DispatchInv ids deps dpts V d) :
    d.processed.length ≤ ids.length := by
  have h1 : d.processed.length = d.processed.toFinset.card :=
    (List.toFinset_card_of_nodup h.p_nodup).symm
  have h2 : d.processed.toFinset ⊆ ids.toFinset := by
    intro x hx
    rw [List.mem_toFinset] at hx ⊢
    exact h.p_sub x hx
  have h3 := Finset.card_le_card h2
  have h4 := List.toFinset_card_le ids
  omega

theorem dispatchLoop_inv (steps : List Step) (g : Graph) (iId : String)
    (ok : Oracle) (now cascFuel : Nat) (deps : String → List String)
    (hdd : ∀ u v, u ∈ deps v ↔ v ∈ g.dependents u)
    (hdom : ∀ v u, u ∈ deps v → u ∈ steps.map (·.id) ∧ v ∈ steps.map (·.id))
    (hdn : ∀ v, (deps v).Nodup)
    (hdptn : ∀ u, (g.dependents u).Nodup)
    (hirr : ∀ v, v ∉ deps v)
    (hexcl : iId ∉ steps.map (·.id))
    (hvar : ∀ s ∈ steps, s.run.isSingle = true ∨ s.run.isStrings = true ∨
      s.run.isSubRuns = true)
    (hfuelC : (steps.map (·.id)).length + 1 ≤ cascFuel) :
    ∀ (fuel : Nat) (d : DispatchSt),
    DispatchInv (steps.map (·.id)) deps g.dependents (stepVerdict steps ok)
      d →
    (steps.map (·.id)).length + 1 ≤ d.processed.length + fuel →
    (dispatchLoop steps g iId ok now cascFuel fuel d).queue = [] ∧
    DispatchInv (steps.map (·.id)) deps g.dependents (stepVerdict steps ok)
      (dispatchLoop steps g iId ok now cascFuel fuel d) := by
  intro fuel
  induction fuel with
  | zero =>
    intro d hinv hfu
    have := dispatchInv_proc_len (steps.map (·.id)) deps g.dependents
      (stepVerdict steps ok) d hinv
    omega
  | succ fuel ih =>
    intro d hinv hfu
    obtain ⟨drs, diD, dq, dp, dc, dfs, dfa⟩ := d
    cases dq with
    | nil => exact ⟨rfl, hinv⟩
    | cons curr rest =>
      rcases dispatchStep_inv steps g iId ok now cascFuel deps hdd hdom hdn
        hdptn hirr hexcl hvar hfuelC
        ⟨drs, diD, curr :: rest, dp, dc, dfs, dfa⟩ hinv curr rest rfl with
        ⟨hsi, hsp⟩
      have hlen : (dispatchStep steps g iId ok now cascFuel
          ⟨drs, diD, curr :: rest, dp, dc, dfs, dfa⟩).processed.length
          = dp.length + 1 := by
        rw [hsp]
        simp
      have hrec := ih (dispatchStep steps g iId ok now cascFuel
        ⟨drs, diD, curr :: rest, dp, dc, dfs, dfa⟩) hsi (by
          rw [hlen]
          simp only [DispatchSt.processed] at hfu
          omega)
      exact hrec

theorem initDispatch_inv (ids : List String) (deps : String → List String)
    (g : Graph) (iId : String) (V : String → Bool) (rs : RunnerSt)
    (hord : ids.Nodup)
    (hordeq : g.order = ids)
    (hdd : ∀ u v, u ∈ deps v ↔ v ∈ g.dependents u)
    (hdom : ∀ v u, u ∈ deps v → u ∈ ids ∧ v ∈ ids)
    (hexcl : iId ∉ ids)
    (hinit : ∀ v ∈ ids, g.inDegree v = ((deps v).length : Int))
    (hnn : ∀ v, 0 ≤ g.inDegree v)
    (hrs_steps : ∀ k, rs.steps k = none)
    (hrs_cache : ∀ k, rs.cacheStore k = none)
    (hrs_trace : rs.trace = []) :
    DispatchInv ids deps g.dependents V (initDispatch g iId rs) := by
  have hq_mem : ∀ v, v ∈ (initDispatch g iId rs).queue →
      v ∈ ids ∧ v ≠ iId ∧ g.inDegree v = 0 := by
    intro v hv
    have hv2 : v ∈ g.order.filter
        (fun id => id ≠ iId ∧ g.inDegree id = 0) := hv
    have h1 := List.mem_filter.mp hv2
    have h2 := of_decide_eq_true h1.2
    exact ⟨hordeq ▸ h1.1, h2.1, h2.2⟩
  have hq_deps : ∀ v, v ∈ (initDispatch g iId rs).queue →
      deps v = [] := by
    intro v hv
    rcases hq_mem v hv with ⟨hvin, _, hv0⟩
    have hlen : ((deps v).length : Int) = 0 := by
      rw [← hinit v hvin]
      exact hv0
    have hlen2 : (deps v).length = 0 := by exact_mod_cast hlen
    exact List.length_eq_zero.mp hlen2
  refine ⟨?_, ?_, ?_, ?_, ?_, ?_, ?_, ?_, ?_, ?_, ?_, ?_, ?_, ?_, ?_,
    ?_, ?_, ?_, ?_, ?_, ?_, ?_, ?_, ?_, ?_⟩
  · -- q_sub
    exact fun v hv => (hq_mem v hv).1
  · -- p_sub
    exact fun v hv => absurd hv (List.not_mem_nil v)
  · -- c_sub
    exact fun v hv => absurd hv (List.not_mem_nil v)
  · -- q_nodup
    show (g.order.filter (fun id => id ≠ iId ∧ g.inDegree id = 0)).Nodup
    rw [hordeq]
    exact hord.filter _
  · -- p_nodup
    exact List.nodup_nil
  · -- c_nodup
    exact List.nodup_nil
  · -- qp_disj
    exact fun v _ hv => absurd hv (List.not_mem_nil v)
  · -- qc_disj
    exact fun v _ hv => absurd hv (List.not_mem_nil v)
  · -- pc_disj
    exact fun v hv => absurd hv (List.not_mem_nil v)
  · -- fs_iff
    intro v
    show false = true ↔ ((v ∈ ([] : List String) ∧ V v = false) ∨
      v ∈ ([] : List String))
    simp
  · -- fs_closed
    intro u hu
    have hu2 : false = true := hu
    exact absurd hu2 (by decide)
  · -- st_done
    exact fun v hv _ => absurd hv (List.not_mem_nil v)
  · -- st_fail
    exact fun v hv _ => absurd hv (List.not_mem_nil v)
  · -- st_casc
    exact fun v hv => absurd hv (List.not_mem_nil v)
  · -- st_none
    intro v _ _
    exact hrs_steps v
  · -- proc_good
    exact fun v hv => absurd hv (List.not_mem_nil v)
  · -- q_good
    intro v hv
    rintro ⟨u, hu, hVu, hr⟩
    rcases reaches_last g.dependents u v hr with ⟨w, hwv, _⟩
    have hwd : w ∈ deps v := (hdd w v).mpr hwv
    rw [hq_deps v hv] at hwd
    exact absurd hwd (List.not_mem_nil w)
  · -- c_bad
    exact fun v hv => absurd hv (List.not_mem_nil v)
  · -- cache_dom
    intro k hk
    exact absurd (hrs_cache k) hk
  · -- tr_own
    intro r hr
    have hr2 : r ∈ rs.trace := hr
    rw [hrs_trace] at hr2
    exact absurd hr2 (List.not_mem_nil r)
  · -- tr_ran
    exact fun v hv => absurd hv (List.not_mem_nil v)
  · -- q_zero
    exact fun v hv => (hq_mem v hv).2.2
  · -- pq_deps
    intro v hv u hu
    rcases hv with hv | hv
    · exact absurd hv (List.not_mem_nil v)
    · rw [hq_deps v hv] at hu
      exact absurd hu (List.not_mem_nil u)
  · -- ind_cnt
    intro v hvin _ _
    have hflt : (deps v).filter
        (fun u => decide (u ∈ ([] : List String)) && V u) = [] := by
      simp
    show g.inDegree v = ((deps v).length : Int) -
      (((deps v).filter
        (fun u => decide (u ∈ ([] : List String)) && V u)).length : Int)
    rw [hflt]
    rw [hinit v hvin]
    simp
  · -- cov
    intro v hvin _ _ hvq
    have hvq2 : v ∉ g.order.filter
        (fun id => id ≠ iId ∧ g.inDegree id = 0) := hvq
    have hvni : v ≠ iId := fun h => hexcl (h ▸ hvin)
    have hvnz : ¬ g.inDegree v = 0 := by
      intro h0
      exact hvq2 (List.mem_filter.mpr ⟨hordeq ▸ hvin,
        decide_eq_true ⟨hvni, h0⟩⟩)
    have := hnn v
    show 0 < g.inDegree v
    omega

theorem dispatch_coverage (ids : List String)
    (deps dpts : String → List String) (V : String → Bool) (d : DispatchSt)
    (hinv : DispatchInv ids deps dpts V d)
    (hq : d.queue = [])
    (hdd : ∀ u v, u ∈ deps v ↔ v ∈ dpts u)
    (P : List String)
    (hPcov : ∀ v ∈ ids, v ∈ P)
    (hPids : ∀ v ∈ P, v ∈ ids)
    (htopo : ∀ l1 v l2, P = l1 ++ v :: l2 → ∀ u ∈ deps v, u ∈ l1) :
    ∀ v ∈ ids, v ∈ d.processed ∨ v ∈ d.cascaded := by
  have key : ∀ v ∈ ids, v ∉ d.processed → v ∉ d.cascaded →
      ∃ u ∈ deps v, u ∉ d.processed ∧ u ∉ d.cascaded := by
    intro v hvin hvp hvc
    have hpos : 0 < d.inDeg v := hinv.cov v hvin hvp hvc (by
      rw [hq]
      exact List.not_mem_nil v)
    have hcnt := hinv.ind_cnt v hvin hvp hvc
    have hle := List.length_filter_le
      (fun u => decide (u ∈ d.processed) && V u) (deps v)
    have hflt : ((deps v).filter
        (fun u => decide (u ∈ d.processed) && V u)).length <
        (deps v).length := by omega
    have hex : ∃ u ∈ deps v,
        (decide (u ∈ d.processed) && V u) = false := by
      by_contra hno
      push_neg at hno
      have hall : ∀ u ∈ deps v,
          (decide (u ∈ d.processed) && V u) = true := by
        intro u hu
        cases hb : (decide (u ∈ d.processed) && V u)
        · exact absurd hb (hno u hu)
        · rfl
      have heq : (deps v).filter
          (fun u => decide (u ∈ d.processed) && V u) = deps v :=
        List.filter_eq_self.mpr hall
      rw [heq] at hflt
      omega
    rcases hex with ⟨u, hu, hx⟩
    by_cases hup : u ∈ d.processed
    · have hVu : V u = false := by
        rw [decide_eq_true hup, Bool.true_and] at hx
        exact hx
      have hfu : d.failedSet u = true :=
        (hinv.fs_iff u).mpr (Or.inl ⟨hup, hVu⟩)
      have hfv : d.failedSet v = true :=
        hinv.fs_closed u hfu v ((hdd u v).mp hu)
      rcases (hinv.fs_iff v).mp hfv with ⟨h1, _⟩ | h1
      · exact absurd h1 hvp
      · exact absurd h1 hvc
    · by_cases huc : u ∈ d.cascaded
      · have hfu : d.failedSet u = true :=
          (hinv.fs_iff u).mpr (Or.inr huc)
        have hfv : d.failedSet v = true :=
          hinv.fs_closed u hfu v ((hdd u v).mp hu)
        rcases (hinv.fs_iff v).mp hfv with ⟨h1, _⟩ | h1
        · exact absurd h1 hvp
        · exact absurd h1 hvc
      · exact ⟨u, hu, hup, huc⟩
  have main : ∀ suf pre, P = pre ++ suf →
      (∀ v ∈ pre, v ∈ d.processed ∨ v ∈ d.cascaded) →
      ∀ v ∈ suf, v ∈ d.processed ∨ v ∈ d.cascaded := by
    intro suf
    induction suf with
    | nil =>
      intro pre hP hpre v hv
      exact absurd hv (List.not_mem_nil v)
    | cons w suf ih =>
      intro pre hP hpre v hv
      have hw : w ∈ d.processed ∨ w ∈ d.cascaded := by
        by_contra hcon
        push_neg at hcon
        have hwP : w ∈ P := by
          rw [hP]
          exact List.mem_append_right pre (List.mem_cons_self w suf)
        rcases key w (hPids w hwP) hcon.1 hcon.2 with ⟨u, hu, hunp, hunc⟩
        have hupre : u ∈ pre := htopo pre w suf hP u hu
        rcases hpre u hupre with h | h
        · exact hunp h
        · exact hunc h
      rcases List.mem_cons.mp hv with h | hv2
      · exact h ▸ hw
      · exact ih (pre ++ [w]) (by rw [hP, List.append_assoc]; rfl) (by
          intro x hx
          rcases List.mem_append.mp hx with h | h
          · exact hpre x h
          · rw [List.mem_singleton] at h
            exact h ▸ hw) v hv2
  intro v hvin
  exact main P [] rfl (fun x hx => absurd hx (List.not_mem_nil x)) v
    (hPcov v hvin)


/-- C1: for every fresh run of a pipeline with duplicate-free, non-empty,
slash-free step ids, no self-dependencies, injective edge keys, no
interactive step and populated run variants, whose DAG builds successfully:
a step with a transitive dependency on a step whose own execution fails ends
the run marked `failed` while owning no execution-trace row (none of its
commands ever ran), and every step without a failing transitive dependency
is executed (it owns a trace row) and ends `done` or `failed` exactly as its
own verdict says. -/
theorem dispatch_cascade_fail (p : Pipeline) (ok : Oracle) (now : Nat)
    (env0 : String → Option String) (g : Graph)
    (hord : (p.steps.map (·.id)).Nodup)
    (hinj : EdgeKeyInj (p.steps.map (·.id)))
    (hself : ∀ s ∈ p.steps, s.id ∉ s.dependsOn)
    (hni : ∀ s ∈ p.steps, s.interactive = false)
    (hvar : ∀ s ∈ p.steps, s.run.isSingle = true ∨ s.run.isStrings = true ∨
      s.run.isSubRuns = true)
    (hne : "" ∉ p.steps.map (·.id))
    (hsl : ∀ v ∈ p.steps.map (·.id), ¬ '/' ∈ v.toList)
    (hg : buildGraph p.steps = Except.ok g) :
    ∀ v ∈ p.steps.map (·.id),
      (hasFailingAnc g.dependents (stepVerdict p.steps ok)
          (p.steps.map (·.id)) v →
        (getSS (runPipeline p ok now (freshRunnerSt env0)).1 v).status =
          "failed" ∧
        ∀ r ∈ (runPipeline p ok now (freshRunnerSt env0)).1.trace,
          ¬ ownsRow v r.1) ∧
      (¬ hasFailingAnc g.dependents (stepVerdict p.steps ok)
          (p.steps.map (·.id)) v →
        (stepVerdict p.steps ok v = true →
          (getSS (runPipeline p ok now (freshRunnerSt env0)).1 v).status =
            "done") ∧
        (stepVerdict p.steps ok v = false →
          (getSS (runPipeline p ok now (freshRunnerSt env0)).1 v).status =
            "failed") ∧
        ∃ r ∈ (runPipeline p ok now (freshRunnerSt env0)).1.trace,
          ownsRow v r.1) := by
  rcases buildRaw_ok p.steps hinj hself with ⟨st, hraw, hEI, hdiff⟩
  have hg2 := hg
  rw [buildGraph_eq_raw p.steps st (unknownDepWarnings p.steps) hraw] at hg2
  cases hdc : detectCycle (p.steps.map (·.id)) st.dependents st.inDeg with
  | error e =>
    rw [hdc] at hg2
    have h3 : (Except.error e : Except String Graph) = Except.ok g := hg2
    cases h3
  | ok u =>
    cases u
    rw [hdc] at hg2
    have h3 : Except.ok
        ({ deps := st.deps, dependents := st.dependents,
           inDegree := st.inDeg, order := p.steps.map (·.id),
           warningList := unknownDepWarnings p.steps } : Graph) =
        Except.ok g := hg2
    have hgrec : g =
        { deps := st.deps, dependents := st.dependents,
          inDegree := st.inDeg, order := p.steps.map (·.id),
          warningList := unknownDepWarnings p.steps } :=
      (Except.ok.inj h3).symm
    have hgdpt : g.dependents = st.dependents := by rw [hgrec]
    have hgin : g.inDegree = st.inDeg := by rw [hgrec]
    have hgord : g.order = p.steps.map (·.id) := by rw [hgrec]
    have hdd : ∀ u v, u ∈ st.deps v ↔ v ∈ g.dependents u := by
      intro u v
      rw [hgdpt]
      exact hEI.dep_dpt u v
    have hdomD : ∀ v u, u ∈ st.deps v →
        u ∈ p.steps.map (·.id) ∧ v ∈ p.steps.map (·.id) :=
      fun v u h => hEI.dep_dom v u h
    have hirr : ∀ v, v ∉ st.deps v := by
      intro v hv
      rcases (hdiff v v).mp hv with ⟨s, hs, hts, hcase⟩
      rcases hcase with ⟨hdep, _⟩ | ⟨hne2, _⟩
      · exact hself s hs (by rw [← hts]; exact hdep)
      · exact hne2 hts
    have hnnst : ∀ v, 0 ≤ st.inDeg v := by
      intro v
      rw [hEI.indeg_len v]
      exact Int.natCast_nonneg _
    have hinit : ∀ v ∈ p.steps.map (·.id),
        g.inDegree v = ((st.deps v).length : Int) := by
      intro v _
      rw [hgin]
      exact hEI.indeg_len v
    have hnn : ∀ v, 0 ≤ g.inDegree v := by
      intro v
      rw [hgin]
      exact hnnst v
    have hinv0 := initDispatch_inv (p.steps.map (·.id)) st.deps g ""
      (stepVerdict p.steps ok) (freshRunnerSt env0) hord hgord hdd hdomD hne
      hinit hnn (fun _ => rfl) (fun _ => rfl) rfl
    set D : DispatchSt := dispatchLoop p.steps g "" ok now
      (p.steps.length + 1) (p.steps.length + 1)
      (initDispatch g "" (freshRunnerSt env0)) with hDdef
    have hloop := dispatchLoop_inv p.steps g "" ok now (p.steps.length + 1)
      st.deps hdd hdomD hEI.dep_nodup
      (by intro u; rw [hgdpt]; exact hEI.dpt_nodup u) hirr hne hvar
      (by rw [List.length_map]) (p.steps.length + 1)
      (initDispatch g "" (freshRunnerSt env0)) hinv0 (by
        have h1 : (initDispatch g "" (freshRunnerSt env0)).processed.length
            = 0 := rfl
        rw [h1, List.length_map]
        omega)
    rw [← hDdef] at hloop
    have hqnil : D.queue = [] := hloop.1
    have hinvD := hloop.2
    have hdomdpt : ∀ u, ∀ v ∈ st.dependents u, v ∈ p.steps.map (·.id) :=
      fun u v hv => (hEI.dep_dom v u ((hEI.dep_dpt u v).mpr hv)).2
    have hkahn := kahn_topo_final (p.steps.map (·.id)) st.deps st.dependents
      st.inDeg hord hEI.dep_dpt hEI.dep_nodup hEI.dpt_nodup
      (fun v u h => hEI.dep_dom v u h) hnnst
      (fun v _ => hEI.indeg_len v) hdc
    have hPids : ∀ v ∈ (kahnRun (p.steps.map (·.id)) st.dependents
        st.inDeg).processed, v ∈ p.steps.map (·.id) :=
      (kahnRun_inv (p.steps.map (·.id)) st.dependents st.inDeg hord hnnst
        hdomdpt).2.proc_sub
    have hcov := dispatch_coverage (p.steps.map (·.id)) st.deps g.dependents
      (stepVerdict p.steps ok) D hinvD hqnil hdd
      (kahnRun (p.steps.map (·.id)) st.dependents st.inDeg).processed
      hkahn.1 hPids hkahn.2
    have h1 : runPipeline p ok now (freshRunnerSt env0) =
        if D.failedAny = true then
          ({ D.rs with runStatus := "failed" }, false)
        else ({ D.rs with runStatus := "done" }, true) := by
      rw [hDdef]
      unfold runPipeline
      rw [hg, interactiveId_empty p.steps hni,
        find_interactive_none p.steps hni]
    have hfinal : (runPipeline p ok now (freshRunnerSt env0)).1.steps =
        D.rs.steps ∧
        (runPipeline p ok now (freshRunnerSt env0)).1.trace = D.rs.trace := by
      rw [h1]
      by_cases hfa : D.failedAny = true
      · rw [if_pos hfa]
        exact ⟨rfl, rfl⟩
      · rw [if_neg hfa]
        exact ⟨rfl, rfl⟩
    have hgss : ∀ k, getSS (runPipeline p ok now (freshRunnerSt env0)).1 k =
        getSS D.rs k := by
      intro k
      unfold getSS
      rw [hfinal.1]
    intro v hvin
    constructor
    · intro hfav
      have hvnp : v ∉ D.processed := fun h => hinvD.proc_good v h hfav
      have hvc : v ∈ D.cascaded := by
        rcases hcov v hvin with h | h
        · exact absurd h hvnp
        · exact h
      constructor
      · rw [hgss v]
        exact hinvD.st_casc v hvc
      · intro r hr hown
        have hr2 : r ∈ D.rs.trace := by
          rw [← hfinal.2]
          exact hr
        rcases hinvD.tr_own r hr2 with ⟨w, hwp, hwown⟩
        have hwv : w ≠ v := fun he => hvnp (he ▸ hwp)
        exact ownsRow_disj w v hwv (hsl w (hinvD.p_sub w hwp)) (hsl v hvin)
          r.1 hwown hown
    · intro hfav
      have hvnc : v ∉ D.cascaded := fun h => hfav (hinvD.c_bad v h)
      have hvp : v ∈ D.processed := by
        rcases hcov v hvin with h | h
        · exact h
        · exact absurd h hvnc
      refine ⟨?_, ?_, ?_⟩
      · intro hVt
        rw [hgss v]
        exact hinvD.st_done v hvp hVt
      · intro hVfv
        rw [hgss v]
        exact hinvD.st_fail v hvp hVfv
      · rcases hinvD.tr_ran v hvp with ⟨r, hr, hown⟩
        refine ⟨r, ?_, hown⟩
        rw [hfinal.2]
        exact hr


theorem dispatch_cascade_fail_witness :
    buildGraph exC1P.steps =
      Except.ok (graphOf (buildGraph exC1P.steps)) ∧
    hasFailingAnc (graphOf (buildGraph exC1P.steps)).dependents
      (stepVerdict exC1P.steps exC1Ok) (exC1P.steps.map (·.id)) "b" ∧
    (getSS (runPipeline exC1P exC1Ok 0
      (freshRunnerSt (fun _ => none))).1 "b").status = "failed" ∧
    (∀ r ∈ (runPipeline exC1P exC1Ok 0
      (freshRunnerSt (fun _ => none))).1.trace, ¬ ownsRow "b" r.1) ∧
    (getSS (runPipeline exC1P exC1Ok 0
      (freshRunnerSt (fun _ => none))).1 "a").status = "failed" ∧
    (getSS (runPipeline exC1P exC1Ok 0
      (freshRunnerSt (fun _ => none))).1 "c").status = "done" ∧
    (∃ r ∈ (runPipeline exC1P exC1Ok 0
      (freshRunnerSt (fun _ => none))).1.trace, ownsRow "c" r.1) := by
  have hg0 : buildGraph exC1P.steps =
      Except.ok (graphOf (buildGraph exC1P.steps)) := rfl
  have hmain := dispatch_cascade_fail exC1P exC1Ok 0 (fun _ => none)
    (graphOf (buildGraph exC1P.steps)) (by decide)
    (by unfold EdgeKeyInj; decide) (by decide) (by decide) (by decide)
    (by decide) (by decide) hg0
  have hdptfn : (graphOf (buildGraph exC1P.steps)).dependents =
      (fun w => if w = "a" then ["b"] else []) := rfl
  have hfab : hasFailingAnc (graphOf (buildGraph exC1P.steps)).dependents
      (stepVerdict exC1P.steps exC1Ok) (exC1P.steps.map (·.id)) "b" :=
    ⟨"a", by decide, by decide, Reaches.edge (by decide)⟩
  have hreach_b : ∀ u v,
      Reaches (graphOf (buildGraph exC1P.steps)).dependents u v →
      v = "b" := by
    intro u v hr
    rcases reaches_last _ u v hr with ⟨w, hwv, _⟩
    have hwv2 : v ∈ (if w = "a" then ["b"] else []) := by
      rw [hdptfn] at hwv
      exact hwv
    by_cases hw : w = "a"
    · rw [if_pos hw] at hwv2
      exact List.mem_singleton.mp hwv2
    · rw [if_neg hw] at hwv2
      exact absurd hwv2 (List.not_mem_nil v)
  have hnfa_a : ¬ hasFailingAnc (graphOf (buildGraph exC1P.steps)).dependents
      (stepVerdict exC1P.steps exC1Ok) (exC1P.steps.map (·.id)) "a" := by
    rintro ⟨u, hu, hVu, hr⟩
    exact absurd (hreach_b u "a" hr) (by decide)
  have hnfa_c : ¬ hasFailingAnc (graphOf (buildGraph exC1P.steps)).dependents
      (stepVerdict exC1P.steps exC1Ok) (exC1P.steps.map (·.id)) "c" := by
    rintro ⟨u, hu, hVu, hr⟩
    exact absurd (hreach_b u "c" hr) (by decide)
  have hb := (hmain "b" (by decide)).1 hfab
  have ha := (hmain "a" (by decide)).2 hnfa_a
  have hc := (hmain "c" (by decide)).2 hnfa_c
  exact ⟨hg0, hfab, hb.1, hb.2, ha.2.1 (by decide), hc.1 (by decide),
    hc.2.2⟩


theorem restoreEnv_steps (steps : List Step) :
    ∀ st : RunnerSt, (restoreEnv steps st).steps = st.steps := by
  induction steps with
  | nil => intro st; rfl
  | cons s l ih =>
    intro st
    show (restoreEnv l (restoreStepEnv st s)).steps = st.steps
    rw [ih, restoreStepEnv_steps]

theorem restoreStepEnv_env_hit (st : RunnerSt) (t : Step) (ss : StepState)
    (hss : st.steps t.id = some ss) (hdone : ss.status = "done")
    (hsens : ss.sensitive = false) (hout : ss.output ≠ "")
    (hsub : ∀ p ∈ ss.subSteps, envKey [t.id] ≠ envKey [t.id, p.1]) :
    (restoreStepEnv st t).env (envKey [t.id]) =
      some (trimNewline ss.output) := by
  unfold restoreStepEnv
  split
  · next heq =>
    rw [hss] at heq
    cases heq
  · next ss2 heq =>
    rw [hss] at heq
    obtain rfl : ss = ss2 := Option.some.inj heq
    rw [if_pos ⟨hdone, show ¬ ss.sensitive = true by
      rw [hsens]; exact Bool.false_ne_true⟩, if_pos hout]
    show (ss.subSteps.foldl (restoreSubEnv t.id)
        (setEnvR st (envKey [t.id]) (trimNewline ss.output))).env
        (envKey [t.id]) = some (trimNewline ss.output)
    by_cases hch : (ss.subSteps.foldl (restoreSubEnv t.id)
        (setEnvR st (envKey [t.id]) (trimNewline ss.output))).env
        (envKey [t.id]) =
        (setEnvR st (envKey [t.id]) (trimNewline ss.output)).env
          (envKey [t.id])
    · rw [hch, setEnvR_env, if_pos rfl]
    · rcases restoreSubFold_env_changed t.id ss.subSteps _ _ hch with
        ⟨p, hp, _, _, _, hK⟩
      exact absurd hK (hsub p hp)

theorem restoreEnv_publishes (steps : List Step) (rs0 : RunnerSt) (s : Step)
    (hs : s ∈ steps) (ss : StepState) (hss : rs0.steps s.id = some ss)
    (hdone : ss.status = "done") (hsens : ss.sensitive = false)
    (hout : ss.output ≠ "")
    (hkeyS : ∀ t ∈ steps, envKey [s.id] = envKey [t.id] → t.id = s.id)
    (hsubS : ∀ t ∈ steps, ∀ ss2, rs0.steps t.id = some ss2 →
      ∀ q ∈ ss2.subSteps, envKey [t.id, q.1] ≠ envKey [s.id]) :
    (restoreEnv steps rs0).env (envKey [s.id]) =
      some (trimNewline ss.output) := by
  have main : ∀ (l : List Step), (∀ x ∈ l, x ∈ steps) →
      ∀ st : RunnerSt, st.steps = rs0.steps →
      (st.env (envKey [s.id]) = some (trimNewline ss.output) →
        (l.foldl restoreStepEnv st).env (envKey [s.id]) =
          some (trimNewline ss.output)) ∧
      ((∃ x ∈ l, x.id = s.id) →
        (l.foldl restoreStepEnv st).env (envKey [s.id]) =
          some (trimNewline ss.output)) := by
    intro l
    induction l with
    | nil =>
      intro _ st _
      refine ⟨fun h => h, ?_⟩
      rintro ⟨x, hx, _⟩
      exact absurd hx (List.not_mem_nil x)
    | cons t l ih =>
      intro hl st hst
      have htS : t ∈ steps := hl t (List.mem_cons_self t l)
      have hst2 : (restoreStepEnv st t).steps = rs0.steps := by
        rw [restoreStepEnv_steps, hst]
      have hlS : ∀ x ∈ l, x ∈ steps :=
        fun x hx => hl x (List.mem_cons_of_mem t hx)
      have hpersist : (restoreStepEnv st t).env (envKey [s.id]) =
          st.env (envKey [s.id]) ∨
          (restoreStepEnv st t).env (envKey [s.id]) =
            some (trimNewline ss.output) := by
        by_cases hch : (restoreStepEnv st t).env (envKey [s.id]) =
            st.env (envKey [s.id])
        · exact Or.inl hch
        · right
          rcases restoreStepEnv_env_changed st t (envKey [s.id]) hch with
            ⟨ss2, hslot2, hdone2, hsens2, hcase⟩
        
          rcases hcase with ⟨hout2, hKeq⟩ | ⟨q, hq, _, _, _, hKeq⟩
          · have hid : t.id = s.id := hkeyS t htS hKeq
            have hslotR : rs0.steps t.id = some ss2 := by
              rw [← hst]
              exact hslot2
            have hsame : ss2 = ss := by
              rw [hid, hss] at hslotR
              exact (Option.some.inj hslotR).symm
            have hsubT : ∀ p ∈ ss2.subSteps,
                envKey [t.id] ≠ envKey [t.id, p.1] := by
              intro p hp
              have h1 := hsubS t htS ss2 hslotR p hp
              rw [hKeq] at h1
              exact fun h2 => h1 h2.symm
            have hhit := restoreStepEnv_env_hit st t ss2 hslot2 hdone2
              hsens2 hout2 hsubT
            rw [hKeq, hhit, hsame]
          · have hslotR : rs0.steps t.id = some ss2 := by
              rw [← hst]
              exact hslot2
            exact absurd hKeq.symm (hsubS t htS ss2 hslotR q hq)
      constructor
      · intro hv
        show (l.foldl restoreStepEnv (restoreStepEnv st t)).env
          (envKey [s.id]) = some (trimNewline ss.output)
        rcases hpersist with hp | hp
        · exact (ih hlS (restoreStepEnv st t) hst2).1 (by rw [hp]; exact hv)
        · exact (ih hlS (restoreStepEnv st t) hst2).1 hp
      · rintro ⟨x, hx, hidx⟩
        show (l.foldl restoreStepEnv (restoreStepEnv st t)).env
          (envKey [s.id]) = some (trimNewline ss.output)
        rcases List.mem_cons.mp hx with h | h
        · have hidT : t.id = s.id := by
            rw [← h]
            exact hidx
          have hslotT : st.steps t.id = some ss := by
            rw [hst, hidT]
            exact hss
          have hkeyEq : envKey [t.id] = envKey [s.id] := by rw [hidT]
          have hsubT : ∀ p ∈ ss.subSteps,
              envKey [t.id] ≠ envKey [t.id, p.1] := by
            intro p hp
            have h1 := hsubS t htS ss (by rw [hidT]; exact hss) p hp
            rw [hkeyEq]
            exact fun h2 => h1 h2.symm
          have hhit := restoreStepEnv_env_hit st t ss hslotT hdone hsens
            hout hsubT
          refine (ih hlS (restoreStepEnv st t) hst2).1 ?_
          rw [← hkeyEq]
          exact hhit
        · exact (ih hlS (restoreStepEnv st t) hst2).2 ⟨x, h, hidx⟩
  have hfin := (main steps (fun x hx => hx) rs0 rfl).2 ⟨s, hs, rfl⟩
  exact hfin

theorem restore_sync (steps : List Step) (rs0 : RunnerSt)
    (henv0 : ∀ s ∈ steps, rs0.env (envKey [s.id]) = none)
    (hkey1 : ∀ s ∈ steps, ∀ t ∈ steps,
      envKey [s.id] = envKey [t.id] → t.id = s.id)
    (h0sub : ∀ t ∈ steps, ∀ ss, rs0.steps t.id = some ss →
      ∀ q ∈ ss.subSteps, ∀ s ∈ steps, envKey [t.id, q.1] ≠ envKey [s.id])
    (hsane : ∀ s ∈ steps, ∀ ss, rs0.steps s.id = some ss →
      ss.sensitive = true → ss.output = "") :
    EnvOutSync steps (restoreEnv steps rs0) := by
  intro s hs hsing hsens hdone
  have hgss : getSS (restoreEnv steps rs0) s.id = getSS rs0 s.id := by
    unfold getSS
    rw [restoreEnv_steps]
  rw [hgss] at hdone ⊢
  cases hslot : rs0.steps s.id with
  | none =>
    have hz : (getSS rs0 s.id).status = "" := by
      unfold getSS
      rw [hslot]
      rfl
    rw [hz] at hdone
    exact absurd hdone (by decide)
  | some ss =>
    have hssg : getSS rs0 s.id = ss := by
      unfold getSS
      rw [hslot]
      rfl
    rw [hssg] at hdone ⊢
    have hunchanged : (∀ t ∈ steps, ∀ ss2, rs0.steps t.id = some ss2 →
        ss2.status = "done" → ss2.sensitive = false →
        ss2.output ≠ "" → envKey [s.id] ≠ envKey [t.id]) →
        ((restoreEnv steps rs0).env (envKey [s.id])).getD "" = "" := by
      intro hno
      have hunch : (restoreEnv steps rs0).env (envKey [s.id]) =
          rs0.env (envKey [s.id]) := by
        by_contra hch
        rcases restoreEnv_env_changed steps rs0 (envKey [s.id]) hch with
          ⟨t, ht, ss2, hslot2, hdone2, hsens2, hcase⟩
        rcases hcase with ⟨hout2, hKeq⟩ | ⟨q, hq, _, _, _, hKeq⟩
        · exact hno t ht ss2 hslot2 hdone2 hsens2 hout2 hKeq
        · exact (h0sub t ht ss2 hslot2 q hq s hs) hKeq.symm
      rw [hunch, henv0 s hs]
      rfl
    by_cases hsen2 : ss.sensitive = true
    · have hout0 : ss.output = "" := hsane s hs ss hslot hsen2
      have hres := hunchanged (by
        intro t ht ss2 hslot2 hdone2 hsens2 hout2 hKeq
        have hid : t.id = s.id := hkey1 s hs t ht hKeq
        rw [hid, hslot] at hslot2
        obtain rfl : ss = ss2 := Option.some.inj hslot2
        rw [hsen2] at hsens2
        exact absurd hsens2 (by decide))
      rw [hres, hout0]
      rfl
    · have hsensf : ss.sensitive = false := by
        cases h2 : ss.sensitive
        · rfl
        · exact absurd h2 hsen2
      by_cases hout : ss.output = ""
      · have hres := hunchanged (by
          intro t ht ss2 hslot2 hdone2 hsens2 hout2 hKeq
          have hid : t.id = s.id := hkey1 s hs t ht hKeq
          rw [hid, hslot] at hslot2
          obtain rfl : ss = ss2 := Option.some.inj hslot2
          rw [hout] at hout2
          exact hout2 rfl)
        rw [hres, hout]
        rfl
      · have hpub := restoreEnv_publishes steps rs0 s hs ss hslot hdone
          hsensf hout (fun t ht h => hkey1 s hs t ht h)
          (fun t ht ss2 h q hq => h0sub t ht ss2 h q hq s hs)
        rw [hpub]
        rfl


theorem runSingle_env_ne (step : Step) (ok : Oracle) (now : Nat)
    (rs : RunnerSt) (K : String) (hK : K ≠ envKey [step.id]) :
    (runSingle step ok now rs).1.env K = rs.env K := by
  unfold runSingle
  cases hres : (retryRun (fun i => (ok step.id i).exit = 0)
      (step.retry + 1)).2 <;>
    simp [hres, setSS, setEnvR, hK]

theorem runSingle_output_eq (step : Step) (ok : Oracle) (now : Nat)
    (rs : RunnerSt) (hsens : step.sensitive = false)
    (h : (runSingle step ok now rs).2 = true) :
    (getSS (runSingle step ok now rs).1 step.id).output =
      lastCapture step ok := by
  rw [runSingle_verdict] at h
  unfold runSingle getSS lastCapture
  simp only [h]
  simp [setSS, setEnvR, hsens]

theorem runParallelStrings_env (step : Step) (ok : Oracle) (now : Nat)
    (rs : RunnerSt) (K : String) :
    (runParallelStrings step ok now rs).1.env K = rs.env K := by
  unfold runParallelStrings
  cases hany : (List.range step.run.strs.length).any
      (fun i => (ok (step.id ++ "/run_" ++ toString i) 0).exit ≠ 0) <;>
    simp only [hany] <;> simp [setSS]

theorem subRunsFold_env_ne (step : Step) (ok : Oracle) (K : String) :
    ∀ (srs : List SubRun)
      (acc : RunnerSt × List (String × SubState) × Bool),
    (∀ sr ∈ srs, K ≠ envKey [step.id, sr.id]) →
    (srs.foldl (runSubOne step ok) acc).1.env K = acc.1.env K := by
  intro srs
  induction srs with
  | nil =>
    intro acc _
    rfl
  | cons sr srs ih =>
    intro acc h
    rw [List.foldl_cons,
      ih _ (fun x hx => h x (List.mem_cons_of_mem sr hx))]
    by_cases hskip : ((lookupA acc.2.1 sr.id).getD SubState.zero).status =
        "done" ∧ ¬ sr.sensitive = true
    · have hbody : runSubOne step ok acc sr = acc := by
        unfold runSubOne
        rw [if_pos hskip]
      rw [hbody]
    · by_cases hfail : (ok (step.id ++ "/" ++ sr.id) 0).exit ≠ 0
      · have hbody : runSubOne step ok acc sr =
            ({ acc.1 with
                trace := acc.1.trace ++ [(step.id ++ "/" ++ sr.id, 0)] },
              setA acc.2.1 sr.id
                { status := "failed",
                  exitCode := (ok (step.id ++ "/" ++ sr.id) 0).exit,
                  output := "", sensitive := false }, true) := by
          unfold runSubOne
          rw [if_neg hskip, if_pos hfail]
        rw [hbody]
      · have hbody : runSubOne step ok acc sr =
            (setEnvR { acc.1 with
                trace := acc.1.trace ++ [(step.id ++ "/" ++ sr.id, 0)] }
              (envKey [step.id, sr.id])
              (trimNewline (ok (step.id ++ "/" ++ sr.id) 0).out),
              setA acc.2.1 sr.id
                { status := "done", exitCode := 0,
                  output := if ¬ sr.sensitive
                    then (ok (step.id ++ "/" ++ sr.id) 0).out else "",
                  sensitive := sr.sensitive }, acc.2.2) := by
          unfold runSubOne
          rw [if_neg hskip, if_neg hfail]
        rw [hbody, setEnvR_env,
          if_neg (h sr (List.mem_cons_self sr srs))]

theorem subRunsFold_steps_eq (step : Step) (ok : Oracle) :
    ∀ (srs : List SubRun)
      (acc : RunnerSt × List (String × SubState) × Bool),
    (srs.foldl (runSubOne step ok) acc).1.steps = acc.1.steps := by
  intro srs
  induction srs with
  | nil =>
    intro acc
    rfl
  | cons sr srs ih =>
    intro acc
    rw [List.foldl_cons, ih]
    by_cases hskip : ((lookupA acc.2.1 sr.id).getD SubState.zero).status =
        "done" ∧ ¬ sr.sensitive = true
    · have hbody : runSubOne step ok acc sr = acc := by
        unfold runSubOne
        rw [if_pos hskip]
      rw [hbody]
    · by_cases hfail : (ok (step.id ++ "/" ++ sr.id) 0).exit ≠ 0
      · have hbody : runSubOne step ok acc sr =
            ({ acc.1 with
                trace := acc.1.trace ++ [(step.id ++ "/" ++ sr.id, 0)] },
              setA acc.2.1 sr.id
                { status := "failed",
                  exitCode := (ok (step.id ++ "/" ++ sr.id) 0).exit,
                  output := "", sensitive := false }, true) := by
          unfold runSubOne
          rw [if_neg hskip, if_pos hfail]
        rw [hbody]
      · have hbody : runSubOne step ok acc sr =
            (setEnvR { acc.1 with
                trace := acc.1.trace ++ [(step.id ++ "/" ++ sr.id, 0)] }
              (envKey [step.id, sr.id])
              (trimNewline (ok (step.id ++ "/" ++ sr.id) 0).out),
              setA acc.2.1 sr.id
                { status := "done", exitCode := 0,
                  output := if ¬ sr.sensitive
                    then (ok (step.id ++ "/" ++ sr.id) 0).out else "",
                  sensitive := sr.sensitive }, acc.2.2) := by
          unfold runSubOne
          rw [if_neg hskip, if_neg hfail]
        rw [hbody]
        rfl

theorem runParallelSubRuns_env_ne (step : Step) (ok : Oracle) (now : Nat)
    (rs : RunnerSt) (K : String)
    (hK : ∀ sr ∈ step.run.subRuns, K ≠ envKey [step.id, sr.id]) :
    (runParallelSubRuns step ok now rs).1.env K = rs.env K := by
  have hfold := subRunsFold_env_ne step ok K step.run.subRuns
    (setSS rs step.id { getSS rs step.id with status := "running" },
      (getSS rs step.id).subSteps, false) hK
  unfold runParallelSubRuns
  cases hv : (step.run.subRuns.foldl (runSubOne step ok)
      (setSS rs step.id { getSS rs step.id with status := "running" },
        (getSS rs step.id).subSteps, false)).2.2
  · simp only [hv, Bool.false_eq_true, if_false]
    show (step.run.subRuns.foldl (runSubOne step ok)
      (setSS rs step.id { getSS rs step.id with status := "running" },
        (getSS rs step.id).subSteps, false)).1.env K = rs.env K
    rw [hfold]
    rfl
  · simp only [hv, if_true]
    show (step.run.subRuns.foldl (runSubOne step ok)
      (setSS rs step.id { getSS rs step.id with status := "running" },
        (getSS rs step.id).subSteps, false)).1.env K = rs.env K
    rw [hfold]
    rfl

theorem runParallelSubRuns_steps_ne2 (step : Step) (ok : Oracle) (now : Nat)
    (rs : RunnerSt) (k : String) (hk : k ≠ step.id) :
    (runParallelSubRuns step ok now rs).1.steps k = rs.steps k := by
  have hfold := subRunsFold_steps_eq step ok step.run.subRuns
    (setSS rs step.id { getSS rs step.id with status := "running" },
      (getSS rs step.id).subSteps, false)
  unfold runParallelSubRuns
  cases hv : (step.run.subRuns.foldl (runSubOne step ok)
      (setSS rs step.id { getSS rs step.id with status := "running" },
        (getSS rs step.id).subSteps, false)).2.2
  · simp only [hv, Bool.false_eq_true, if_false]
    show (setSS _ step.id _).steps k = rs.steps k
    rw [setSS_steps_ne _ _ _ k hk, congrFun hfold k]
    exact setSS_steps_ne rs step.id _ k hk
  · simp only [hv, if_true]
    show (setSS _ step.id _).steps k = rs.steps k
    rw [setSS_steps_ne _ _ _ k hk, congrFun hfold k]
    exact setSS_steps_ne rs step.id _ k hk


theorem cascadeVisit_envPres (excl : String) (c : CascSt) (dep : String) :
    (cascadeVisit excl c dep).rs.env = c.rs.env ∧
    ∀ k, (cascadeVisit excl c dep).rs.steps k = c.rs.steps k ∨
      (getSS (cascadeVisit excl c dep).rs k).status = "failed" := by
  unfold cascadeVisit
  by_cases hskip : dep = excl ∨ c.failedSet dep = true
  · rw [if_pos hskip]
    exact ⟨rfl, fun k => Or.inl rfl⟩
  · rw [if_neg hskip]
    refine ⟨rfl, ?_⟩
    intro k
    by_cases hk : k = dep
    · right
      show (getSS (setSS c.rs dep
        { getSS c.rs dep with status := "failed" }) k).status = "failed"
      unfold getSS setSS
      simp [hk]
    · left
      show (setSS c.rs dep
        { getSS c.rs dep with status := "failed" }).steps k = c.rs.steps k
      exact setSS_steps_ne c.rs dep _ k hk

theorem cascadeFold_envPres (excl : String) :
    ∀ (l : List String) (c : CascSt),
    ((l.foldl (cascadeVisit excl) c).rs.env = c.rs.env ∧
      ∀ k, (l.foldl (cascadeVisit excl) c).rs.steps k = c.rs.steps k ∨
        (getSS (l.foldl (cascadeVisit excl) c).rs k).status = "failed") := by
  intro l
  induction l with
  | nil =>
    intro c
    exact ⟨rfl, fun k => Or.inl rfl⟩
  | cons d l ih =>
    intro c
    rw [List.foldl_cons]
    rcases ih (cascadeVisit excl c d) with ⟨hE, hS⟩
    rcases cascadeVisit_envPres excl c d with ⟨hE0, hS0⟩
    refine ⟨hE.trans hE0, ?_⟩
    intro k
    rcases hS k with h | h
    · rcases hS0 k with h0 | h0
      · exact Or.inl (h.trans h0)
      · right
        have hgss : getSS (l.foldl (cascadeVisit excl)
            (cascadeVisit excl c d)).rs k =
            getSS (cascadeVisit excl c d).rs k := by
          unfold getSS
          rw [h]
        rw [hgss]
        exact h0
    · exact Or.inr h

theorem cascadeLoop_envPres (dependents : String → List String)
    (excl : String) :
    ∀ (fuel : Nat) (c : CascSt),
    ((cascadeLoop dependents excl fuel c).rs.env = c.rs.env ∧
      ∀ k, (cascadeLoop dependents excl fuel c).rs.steps k = c.rs.steps k ∨
        (getSS (cascadeLoop dependents excl fuel c).rs k).status =
          "failed") := by
  intro fuel
  induction fuel with
  | zero =>
    intro c
    exact ⟨rfl, fun k => Or.inl rfl⟩
  | succ fuel ih =>
    intro c
    obtain ⟨cfs, crs, ccas, cq⟩ := c
    cases cq with
    | nil => exact ⟨rfl, fun k => Or.inl rfl⟩
    | cons curr rest =>
      have hstep : cascadeLoop dependents excl (fuel + 1)
          ⟨cfs, crs, ccas, curr :: rest⟩ =
          cascadeLoop dependents excl fuel
            ((dependents curr).foldl (cascadeVisit excl)
              ⟨cfs, crs, ccas, rest⟩) := rfl
      rw [hstep]
      rcases ih ((dependents curr).foldl (cascadeVisit excl)
        ⟨cfs, crs, ccas, rest⟩) with ⟨hE, hS⟩
      rcases cascadeFold_envPres excl (dependents curr)
        ⟨cfs, crs, ccas, rest⟩ with ⟨hE0, hS0⟩
      refine ⟨hE.trans hE0, ?_⟩
      intro k
      rcases hS k with h | h
      · rcases hS0 k with h0 | h0
        · exact Or.inl (h.trans h0)
        · right
          have hgss : getSS (cascadeLoop dependents excl fuel
              ((dependents curr).foldl (cascadeVisit excl)
                ⟨cfs, crs, ccas, rest⟩)).rs k =
              getSS ((dependents curr).foldl (cascadeVisit excl)
                ⟨cfs, crs, ccas, rest⟩).rs k := by
            unfold getSS
            rw [h]
          rw [hgss]
          exact h0
      · exact Or.inr h

theorem envSync_mono (steps : List Step) (rs rs2 : RunnerSt)
    (henv : rs2.env = rs.env)
    (hst : ∀ k, rs2.steps k = rs.steps k ∨
      (getSS rs2 k).status = "failed")
    (h : EnvOutSync steps rs) : EnvOutSync steps rs2 := by
  intro s hs hsing hsens hdone
  rcases hst s.id with hk | hk
  · have hgss : getSS rs2 s.id = getSS rs s.id := by
      unfold getSS
      rw [hk]
    rw [hgss] at hdone ⊢
    rw [henv]
    exact h s hs hsing hsens hdone
  · rw [hk] at hdone
    exact absurd hdone (by decide)

theorem steps_id_inj (steps : List Step)
    (hord : (steps.map (·.id)).Nodup) :
    ∀ s ∈ steps, ∀ t ∈ steps, s.id = t.id → s = t := by
  induction steps with
  | nil =>
    intro s hs
    exact absurd hs (List.not_mem_nil s)
  | cons a l ih =>
    intro s hs t ht hid
    have hord2 : (l.map (·.id)).Nodup := (List.nodup_cons.mp hord).2
    have hna : a.id ∉ l.map (·.id) := (List.nodup_cons.mp hord).1
    rcases List.mem_cons.mp hs with rfl | hs2
    · rcases List.mem_cons.mp ht with rfl | ht2
      · rfl
      · exact absurd (hid ▸ List.mem_map_of_mem (·.id) ht2) hna
    · rcases List.mem_cons.mp ht with rfl | ht2
      · exact absurd (hid ▸ List.mem_map_of_mem (·.id) hs2) hna
      · exact ih hord2 s hs2 t ht2 hid

theorem runStep_reduce (t : Step) (ok : Oracle) (now : Nat) (rs : RunnerSt)
    (hnc : t.cached.enabled = false) :
    runStep t ok now rs =
      (if (getSS rs t.id).status = "done" ∧ ¬ t.sensitive = true then
        (rs, true)
      else if t.run.isSingle then runSingle t ok now rs
      else if t.run.isStrings then runParallelStrings t ok now rs
      else if t.run.isSubRuns then runParallelSubRuns t ok now rs
      else (rs, false)) := by
  have hmiss := tryCache_miss t now rs (Or.inl hnc)
  unfold runStep
  rw [hmiss]
  rfl


theorem runStep_noop (t : Step) (ok : Oracle) (now : Nat) (rs : RunnerSt)
    (h1 : t.run.isSingle = false) (h2 : t.run.isStrings = false)
    (h3 : t.run.isSubRuns = false) (hnc : t.cached.enabled = false) :
    (runStep t ok now rs).1 = rs := by
  rw [runStep_reduce t ok now rs hnc]
  by_cases hskip : (getSS rs t.id).status = "done" ∧ ¬ t.sensitive = true
  · rw [if_pos hskip]
  · rw [if_neg hskip,
      if_neg (show ¬ t.run.isSingle = true by
        rw [h1]; exact Bool.false_ne_true),
      if_neg (show ¬ t.run.isStrings = true by
        rw [h2]; exact Bool.false_ne_true),
      if_neg (show ¬ t.run.isSubRuns = true by
        rw [h3]; exact Bool.false_ne_true)]

theorem runStep_envSync (steps : List Step) (ok : Oracle) (now : Nat)
    (t : Step) (rs : RunnerSt)
    (hnc : t.cached.enabled = false)
    (hsame : ∀ s ∈ steps, s.id = t.id → s = t)
    (hkeyT : ∀ s ∈ steps, s.id ≠ t.id → envKey [s.id] ≠ envKey [t.id])
    (hsubkeyT : ∀ s ∈ steps, ∀ sr ∈ t.run.subRuns,
      envKey [s.id] ≠ envKey [t.id, sr.id])
    (hsync : EnvOutSync steps rs) :
    EnvOutSync steps (runStep t ok now rs).1 := by
  rw [runStep_reduce t ok now rs hnc]
  by_cases hskip : (getSS rs t.id).status = "done" ∧ ¬ t.sensitive = true
  · rw [if_pos hskip]
    exact hsync
  · rw [if_neg hskip]
    by_cases hsi : t.run.isSingle = true
    · rw [if_pos hsi]
      intro s hs hsing hsens hdone
      by_cases hid : s.id = t.id
      · have hst : s = t := hsame s hs hid
        have hsens2 : t.sensitive = false := by
          rw [← hst]
          exact hsens
        cases hv : (runSingle t ok now rs).2
        · have hf := (runSingle_status t ok now rs).2 hv
          rw [hid] at hdone
          rw [hf] at hdone
          exact absurd hdone (by decide)
        · have hout := runSingle_output_eq t ok now rs hsens2 hv
          have henvk := runSingle_publishes t ok now rs hv
          rw [hid, henvk, hout]
          rfl
      · have hstepk : (runSingle t ok now rs).1.steps s.id = rs.steps s.id :=
          runSingle_steps_ne t ok now rs s.id hid
        have hgss : getSS (runSingle t ok now rs).1 s.id = getSS rs s.id := by
          unfold getSS
          rw [hstepk]
        have henvk : (runSingle t ok now rs).1.env (envKey [s.id]) =
            rs.env (envKey [s.id]) :=
          runSingle_env_ne t ok now rs (envKey [s.id]) (hkeyT s hs hid)
        rw [hgss] at hdone ⊢
        rw [henvk]
        exact hsync s hs hsing hsens hdone
    · rw [if_neg hsi]
      by_cases hstr : t.run.isStrings = true
      · rw [if_pos hstr]
        intro s hs hsing hsens hdone
        by_cases hid : s.id = t.id
        · have hst : s = t := hsame s hs hid
          rw [hst] at hsing
          exact absurd hsing hsi
        · have hstepk := runParallelStrings_steps_ne t ok now rs s.id hid
          have hgss : getSS (runParallelStrings t ok now rs).1 s.id =
              getSS rs s.id := by
            unfold getSS
            rw [hstepk]
          rw [hgss] at hdone ⊢
          rw [runParallelStrings_env t ok now rs (envKey [s.id])]
          exact hsync s hs hsing hsens hdone
      · rw [if_neg hstr]
        by_cases hsub : t.run.isSubRuns = true
        · rw [if_pos hsub]
          intro s hs hsing hsens hdone
          by_cases hid : s.id = t.id
          · have hst : s = t := hsame s hs hid
            rw [hst] at hsing
            exact absurd hsing hsi
          · have hstepk := runParallelSubRuns_steps_ne2 t ok now rs s.id hid
            have hgss : getSS (runParallelSubRuns t ok now rs).1 s.id =
                getSS rs s.id := by
              unfold getSS
              rw [hstepk]
            rw [hgss] at hdone ⊢
            rw [runParallelSubRuns_env_ne t ok now rs (envKey [s.id])
              (fun sr hsr => hsubkeyT s hs sr hsr)]
            exact hsync s hs hsing hsens hdone
        · rw [if_neg hsub]
          exact hsync

theorem dispatchStep_envSync (steps : List Step) (g : Graph) (iId : String)
    (ok : Oracle) (now cascFuel : Nat) (d : DispatchSt)
    (hord : (steps.map (·.id)).Nodup)
    (hnc : ∀ s ∈ steps, s.cached.enabled = false)
    (hkey1 : ∀ s ∈ steps, ∀ u ∈ steps,
      envKey [s.id] = envKey [u.id] → s.id = u.id)
    (hsubkey : ∀ s ∈ steps, ∀ u ∈ steps, ∀ sr ∈ u.run.subRuns,
      envKey [s.id] ≠ envKey [u.id, sr.id])
    (hsync : EnvOutSync steps d.rs) :
    EnvOutSync steps (dispatchStep steps g iId ok now cascFuel d).rs := by
  obtain ⟨drs, diD, dq, dp, dc, dfs, dfa⟩ := d
  cases dq with
  | nil => exact hsync
  | cons curr rest =>
    have hr1 : EnvOutSync steps
        (runStep (stepById steps curr) ok now drs).1 := by
      cases hf : steps.find? (fun s => s.id = curr) with
      | none =>
        have hsbid : stepById steps curr =
            { id := curr, run := ⟨"", [], []⟩, dependsOn := [],
              sensitive := false, retry := 0, cached := ⟨false, ""⟩,
              interactive := false } := by
          unfold stepById
          rw [hf]
          rfl
        have hnoop : (runStep (stepById steps curr) ok now drs).1 = drs := by
          rw [hsbid]
          exact runStep_noop _ ok now drs rfl rfl rfl rfl
        rw [hnoop]
        exact hsync
      | some s0 =>
        have hs0mem : s0 ∈ steps := List.mem_of_find?_eq_some hf
        have hsbid : stepById steps curr = s0 := by
          unfold stepById
          rw [hf]
          rfl
        rw [hsbid]
        exact runStep_envSync steps ok now s0 drs (hnc s0 hs0mem)
          (fun s hs hid => steps_id_inj steps hord s hs s0 hs0mem hid)
          (fun s hs hid hek => hid (hkey1 s hs s0 hs0mem hek))
          (fun s hs sr hsr => hsubkey s hs s0 hs0mem sr hsr)
          hsync
    have h0 : dispatchStep steps g iId ok now cascFuel
        ⟨drs, diD, curr :: rest, dp, dc, dfs, dfa⟩ =
        if (runStep (stepById steps curr) ok now drs).2 = true then
          { rs := (runStep (stepById steps curr) ok now drs).1,
            inDeg := ((g.dependents curr).foldl
              (fun (acc : (String → Int) × List String) dep =>
                if dep = iId ∨ dfs dep = true then acc
                else
                  let v := acc.1 dep - 1
                  (fun k => if k = dep then v else acc.1 k,
                    if v = 0 then acc.2 ++ [dep] else acc.2))
              (diD, rest)).1,
            queue := ((g.dependents curr).foldl
              (fun (acc : (String → Int) × List String) dep =>
                if dep = iId ∨ dfs dep = true then acc
                else
                  let v := acc.1 dep - 1
                  (fun k => if k = dep then v else acc.1 k,
                    if v = 0 then acc.2 ++ [dep] else acc.2))
              (diD, rest)).2,
            processed := dp ++ [curr], cascaded := dc, failedSet := dfs,
            failedAny := dfa }
        else
          { rs := (cascadeFail g.dependents iId curr cascFuel
              (fun k => if k = curr then true else dfs k)
              (runStep (stepById steps curr) ok now drs).1).rs,
            inDeg := diD, queue := rest, processed := dp ++ [curr],
            cascaded := dc ++ (cascadeFail g.dependents iId curr cascFuel
              (fun k => if k = curr then true else dfs k)
              (runStep (stepById steps curr) ok now drs).1).cascaded,
            failedSet := (cascadeFail g.dependents iId curr cascFuel
              (fun k => if k = curr then true else dfs k)
              (runStep (stepById steps curr) ok now drs).1).failedSet,
            failedAny := true } := rfl
    by_cases hr2 : (runStep (stepById steps curr) ok now drs).2 = true
    · rw [h0, if_pos hr2]
      exact hr1
    · rw [h0, if_neg hr2]
      show EnvOutSync steps (cascadeFail g.dependents iId curr cascFuel
        (fun k => if k = curr then true else dfs k)
        (runStep (stepById steps curr) ok now drs).1).rs
      rcases cascadeLoop_envPres g.dependents iId cascFuel
        ⟨(fun k => if k = curr then true else dfs k),
          (runStep (stepById steps curr) ok now drs).1, [], [curr]⟩ with
        ⟨hE, hS⟩
      exact envSync_mono steps (runStep (stepById steps curr) ok now drs).1
        _ hE hS hr1

theorem dispatchLoop_envSync (steps : List Step) (g : Graph) (iId : String)
    (ok : Oracle) (now cascFuel : Nat)
    (hord : (steps.map (·.id)).Nodup)
    (hnc : ∀ s ∈ steps, s.cached.enabled = false)
    (hkey1 : ∀ s ∈ steps, ∀ u ∈ steps,
      envKey [s.id] = envKey [u.id] → s.id = u.id)
    (hsubkey : ∀ s ∈ steps, ∀ u ∈ steps, ∀ sr ∈ u.run.subRuns,
      envKey [s.id] ≠ envKey [u.id, sr.id]) :
    ∀ (fuel : Nat) (d : DispatchSt), EnvOutSync steps d.rs →
    EnvOutSync steps (dispatchLoop steps g iId ok now cascFuel fuel d).rs := by
  intro fuel
  induction fuel with
  | zero =>
    intro d h
    exact h
  | succ fuel ih =>
    intro d h
    obtain ⟨drs, diD, dq, dp, dc, dfs, dfa⟩ := d
    cases dq with
    | nil => exact h
    | cons curr rest =>
      exact ih (dispatchStep steps g iId ok now cascFuel
        ⟨drs, diD, curr :: rest, dp, dc, dfs, dfa⟩)
        (dispatchStep_envSync steps g iId ok now cascFuel
          ⟨drs, diD, curr :: rest, dp, dc, dfs, dfa⟩ hord hnc hkey1 hsubkey h)


/-- C3: through a resumed (or fresh) run — `RestoreEnvFromState` followed by
`Run` — of a cache-free, interactive-free pipeline with duplicate-free step
ids, collision-free env keys and a well-formed prior state (sensitive slots
hold empty outputs, no pre-existing `PIPE_<S>` entries, stored sub-run keys
distinct from step keys): after a successful run, every non-sensitive
single-command step recorded `done` has `PIPE_<S>` equal, as a Go map read,
to its stored run-state output with trailing newlines trimmed; and
`runSingle` stores the captured stdout verbatim for a successful
non-sensitive step. -/
theorem run_env_equals_trimmed_output (p : Pipeline) (ok : Oracle)
    (now : Nat) (rs0 : RunnerSt)
    (hord : (p.steps.map (·.id)).Nodup)
    (hni : ∀ s ∈ p.steps, s.interactive = false)
    (hnc : ∀ s ∈ p.steps, s.cached.enabled = false)
    (henv0 : ∀ s ∈ p.steps, rs0.env (envKey [s.id]) = none)
    (hkey1 : ∀ s ∈ p.steps, ∀ u ∈ p.steps,
      envKey [s.id] = envKey [u.id] → s.id = u.id)
    (hsubkey : ∀ s ∈ p.steps, ∀ u ∈ p.steps, ∀ sr ∈ u.run.subRuns,
      envKey [s.id] ≠ envKey [u.id, sr.id])
    (h0sub : ∀ u ∈ p.steps, ∀ ss, rs0.steps u.id = some ss →
      ∀ q ∈ ss.subSteps, ∀ s ∈ p.steps, envKey [u.id, q.1] ≠ envKey [s.id])
    (hsane : ∀ s ∈ p.steps, ∀ ss, rs0.steps s.id = some ss →
      ss.sensitive = true → ss.output = "") :
    ((runWithRestore p ok now rs0).2 = true →
      ∀ s ∈ p.steps, s.run.isSingle = true → s.sensitive = false →
      (getSS (runWithRestore p ok now rs0).1 s.id).status = "done" →
      ((runWithRestore p ok now rs0).1.env (envKey [s.id])).getD "" =
        trimNewline ((getSS (runWithRestore p ok now rs0).1 s.id).output)) ∧
    (∀ (step : Step) (ok2 : Oracle) (now2 : Nat) (rs : RunnerSt),
      step.sensitive = false → (runSingle step ok2 now2 rs).2 = true →
      (getSS (runSingle step ok2 now2 rs).1 step.id).output =
        lastCapture step ok2) := by
  refine ⟨?_, fun step ok2 now2 rs hsens hsucc =>
    runSingle_output_eq step ok2 now2 rs hsens hsucc⟩
  intro hsucc s hs hsing hsens hdone
  have hsyncR : EnvOutSync p.steps (restoreEnv p.steps rs0) :=
    restore_sync p.steps rs0 henv0
      (fun s2 hs2 t ht h => (hkey1 s2 hs2 t ht h).symm) h0sub hsane
  cases hbg : buildGraph p.steps with
  | error e =>
    have hrp : runPipeline p ok now (restoreEnv p.steps rs0) =
        (restoreEnv p.steps rs0, false) := by
      unfold runPipeline
      rw [hbg]
    have hfineq : (runWithRestore p ok now rs0).1 =
        restoreEnv p.steps rs0 := by
      show (runPipeline p ok now (restoreEnv p.steps rs0)).1 = _
      rw [hrp]
    rw [hfineq] at hdone ⊢
    exact hsyncR s hs hsing hsens hdone
  | ok g =>
    set D : DispatchSt := dispatchLoop p.steps g (interactiveId p.steps) ok
      now (p.steps.length + 1) (p.steps.length + 1)
      (initDispatch g (interactiveId p.steps) (restoreEnv p.steps rs0))
      with hDdef
    have hsyncD : EnvOutSync p.steps D.rs :=
      dispatchLoop_envSync p.steps g (interactiveId p.steps) ok now
        (p.steps.length + 1) hord hnc hkey1 hsubkey (p.steps.length + 1)
        (initDispatch g (interactiveId p.steps) (restoreEnv p.steps rs0))
        hsyncR
    have h1 : runPipeline p ok now (restoreEnv p.steps rs0) =
        if D.failedAny = true then
          ({ D.rs with runStatus := "failed" }, false)
        else ({ D.rs with runStatus := "done" }, true) := by
      rw [hDdef]
      unfold runPipeline
      rw [hbg, find_interactive_none p.steps hni]
    have hfin : (runWithRestore p ok now rs0).1.steps = D.rs.steps ∧
        (runWithRestore p ok now rs0).1.env = D.rs.env := by
      show (runPipeline p ok now (restoreEnv p.steps rs0)).1.steps = _ ∧
        (runPipeline p ok now (restoreEnv p.steps rs0)).1.env = _
      rw [h1]
      by_cases hfa : D.failedAny = true
      · rw [if_pos hfa]
        exact ⟨rfl, rfl⟩
      · rw [if_neg hfa]
        exact ⟨rfl, rfl⟩
    have hgss : getSS (runWithRestore p ok now rs0).1 s.id =
        getSS D.rs s.id := by
      unfold getSS
      rw [hfin.1]
    rw [hgss] at hdone ⊢
    rw [hfin.2]
    exact hsyncD s hs hsing hsens hdone

theorem run_env_equals_trimmed_output_witness :
    (runWithRestore exC3P exC3Ok 0 (freshRunnerSt (fun _ => none))).2 =
      true ∧
    ((runWithRestore exC3P exC3Ok 0
        (freshRunnerSt (fun _ => none))).1.env (envKey [exC3S.id])).getD ""
      = trimNewline ((getSS (runWithRestore exC3P exC3Ok 0
        (freshRunnerSt (fun _ => none))).1 exC3S.id).output) := by
  have hmain := run_env_equals_trimmed_output exC3P exC3Ok 0
    (freshRunnerSt (fun _ => none)) (by decide) (by decide) (by decide)
    (fun s _ => rfl) (by decide) (by decide)
    (fun u hu ss h => Option.noConfusion h)
    (fun s hs ss h => Option.noConfusion h)
  refine ⟨by decide, ?_⟩
  exact hmain.1 (by decide) exC3S (List.mem_singleton_self exC3S)
    (by decide) (by decide) (by decide)

end Pipe
